import Mathlib

/-!
Verification of the libkirum conlang engine (fearful-symmetry/kirum) against its
natural-language specification.  The definitions below are a shallow embedding of
`src/libkirum/src/{lemma,word,matching,transforms,lexcreate,kirum}.rs`:

* Rust `String` / `&str` values are embedded as `List Char` (byte-length specifics are
  modelled with `Char.utf8Size` where the source uses `str::len`).
* `HashMap` fields are embedded extensionally as functions to `Option`, since Rust
  `HashMap` equality and lookups are content-based and its iteration order is
  unspecified; `extend` becomes pointwise override.
* External effect hosts that the source delegates to (the `regex` engine used by
  `Lemma::match_replace`, the `rhai` script engine used by `TransformFunc::RhaiScript`,
  and the thread-local RNG used by the phonotactic generator) are modelled as function
  parameters (`mrep`, `rhai`, `pick`, `gen`); every theorem below quantifies over them.
* Unicode case/whitespace predicates are modelled by their ASCII restrictions; theorems
  about parsing therefore restrict their statements to ASCII inputs.
-/

namespace Kirum

/-- WORD_SEP, the reserved zero-width-space delimiter between Lemma characters
(lemma.rs). -/
def wordSep : Char := Char.ofNat 0x200B

/-- Lemma wraps words in order to treat user-defined multi-codepoint letters as single
characters; the internal representation is the delimited string (lemma.rs `struct
Lemma { value: String }`). -/
structure Lemma where
  value : List Char
deriving DecidableEq

instance : Inhabited Lemma := ⟨⟨[]⟩⟩

/-- Splits a list at every occurrence of characters satisfying `p`, keeping empty
segments, as Rust `str::split` does. -/
def splitOnPred (p : Char → Bool) : List Char → List (List Char)
  | [] => [[]]
  | c :: rest =>
    if p c then [] :: splitOnPred p rest
    else
      match splitOnPred p rest with
      | [] => [[c]]
      | t :: ts => (c :: t) :: ts

/-- Embeds `impl From<Lemma> for Vec<String>`: split the value on WORD_SEP and drop the
empty pieces (lemma.rs). -/
def Lemma.toTokens (l : Lemma) : List (List Char) :=
  (splitOnPred (fun c => c = wordSep) l.value).filter (fun t => ¬ t = [])

/-- Embeds `impl From<Vec<String>> for Lemma`: parts equal to the separator or empty are
skipped, every other part is appended followed by WORD_SEP (lemma.rs). -/
def Lemma.fromTokens (value : List (List Char)) : Lemma :=
  ⟨value.foldl (fun build part =>
      if part = [wordSep] ∨ part = [] then build else build ++ part ++ [wordSep]) []⟩

/-- Embeds `From<String> for Lemma`, which splits on extended grapheme clusters and
rebuilds.  Grapheme segmentation is modelled for inputs whose graphemes are single code
points (each char becomes one token); no theorem below depends on multi-codepoint
clusters. -/
def Lemma.fromStr (s : List Char) : Lemma :=
  Lemma.fromTokens (s.map (fun c => [c]))

/-- Lemma::to_string returns the internal delimited value (lemma.rs). -/
def Lemma.toStr (l : Lemma) : List Char := l.value

/-- Lemma::string_without_sep (lemma.rs). -/
def Lemma.string_without_sep (l : Lemma) : List Char :=
  l.value.filter (fun c => ¬ c = wordSep)

/-- Lemma::chars (lemma.rs): the token list. -/
def Lemma.chars (l : Lemma) : List (List Char) := l.toTokens

/-- Lemma::len (lemma.rs): number of tokens. -/
def Lemma.len (l : Lemma) : Nat := l.toTokens.length

/-- Lemma::is_empty (lemma.rs): emptiness of the internal value. -/
def Lemma.is_empty (l : Lemma) : Bool := l.value = []

/-- Lemma::push (lemma.rs): append another lemma's tokens; when the receiver is empty the
pushed value is taken verbatim. -/
def Lemma.push (l : Lemma) (pushed : Lemma) : Lemma :=
  if ¬ l.is_empty then Lemma.fromTokens (l.toTokens ++ pushed.toTokens)
  else ⟨pushed.value⟩

/-- Lemma::push_char (lemma.rs): append one raw string as a single token; when the
receiver is empty the pushed string becomes the raw value. -/
def Lemma.push_char (l : Lemma) (pushed : List Char) : Lemma :=
  if ¬ l.is_empty then Lemma.fromTokens (l.toTokens ++ [pushed])
  else ⟨pushed⟩

/-- Lemma::add_prefix (lemma.rs): delimited-string concatenation. -/
def Lemma.addPrefixTo (l : Lemma) (pre : Lemma) : Lemma := ⟨pre.value ++ l.value⟩

/-- Lemma::add_postfix (lemma.rs): delimited-string concatenation. -/
def Lemma.addPostfixTo (l : Lemma) (post : Lemma) : Lemma := ⟨l.value ++ post.value⟩

/-- Core of Rust `str::replace` / `str::replacen` on char lists: non-overlapping
left-to-right replacement of `old` by `new`; `lim = none` is unlimited, `some n` allows
`n` more replacements.  An empty pattern matches at every character boundary, as in
Rust. -/
def replacePat (old new : List Char) : List Char → Option Nat → List Char
  | s, some 0 => s
  | [], _ => if old = [] then new else []
  | c :: rest, lim =>
    if old ≠ [] ∧ old.isPrefixOf (c :: rest) then
      new ++ replacePat old new (List.drop old.length (c :: rest)) (lim.map (· - 1))
    else if old = [] then
      new ++ c :: replacePat old new rest (lim.map (· - 1))
    else
      c :: replacePat old new rest lim
termination_by s _ => s.length
decreasing_by
  · simp only [List.length_drop]
    have : 1 ≤ old.length := by
      rcases old with _ | ⟨a, as⟩
      · simp at *
      · simp
    simp [List.length_cons]
    omega
  · simp [List.length_cons]
  · simp [List.length_cons]

/-- Lemma::replace_str (lemma.rs): All replaces every occurrence, First the first one,
Last operates on the token-reversed lemma, replaces once, and reverses back (the reversed
intermediate goes through `From<String>`, i.e. `fromStr`). -/
inductive LetterPlaceType where
  | first
  | all
  | last
deriving DecidableEq

def Lemma.replace_str (l : Lemma) (old new : List Char) (kind : LetterPlaceType) : Lemma :=
  match kind with
  | .all => ⟨replacePat old new l.value none⟩
  | .first => ⟨replacePat old new l.value (some 1)⟩
  | .last =>
    let revd : Lemma := Lemma.fromTokens l.toTokens.reverse
    let rev_replace := replacePat old new revd.value (some 1)
    let completed_rev : Lemma := Lemma.fromStr rev_replace
    let completed : Lemma := Lemma.fromTokens completed_rev.toTokens.reverse
    ⟨completed.value⟩

/-- Lemma::replace (lemma.rs). -/
def Lemma.replace (l : Lemma) (old new : List Char) (kind : LetterPlaceType) : Lemma :=
  l.replace_str old new kind

/-- Lemma::dedouble_sep (lemma.rs): collapse doubled separators, walking graphemes with
the one-behind cursor of the source. -/
def dedoubleSepGo : List Char → Option Char → List Char
  | [], _ => []
  | c :: rest, cur =>
    if some c = cur ∧ c = wordSep then dedoubleSepGo rest cur
    else c :: dedoubleSepGo rest (some c)

def Lemma.dedouble_sep (l : Lemma) : Lemma := ⟨dedoubleSepGo l.value none⟩

/-- Lemma::remove_char (lemma.rs): replace by the empty string, then collapse doubled
separators. -/
def Lemma.remove_char (l : Lemma) (ch : List Char) (remove_type : LetterPlaceType) : Lemma :=
  (l.replace_str ch [] remove_type).dedouble_sep

/-- Token-stream walk of Lemma::dedouble for the All case (cursor = previous token,
skipping a token equal both to the cursor and to the target letter). -/
def dedoubleAllGo (letter : List Char) : List (List Char) → List Char → List (List Char)
  | [], _ => []
  | t :: rest, cur =>
    if t = cur ∧ t = letter then dedoubleAllGo letter rest cur
    else t :: dedoubleAllGo letter rest t

/-- Token-stream walk of Lemma::dedouble for First/Last: like the All case but only the
first qualifying token is dropped. -/
def dedoubleFirstGo (letter : List Char) : List (List Char) → List Char → Bool → List (List Char)
  | [], _, _ => []
  | t :: rest, cur, found =>
    if t = cur ∧ ¬ found ∧ t = letter then dedoubleFirstGo letter rest cur true
    else t :: dedoubleFirstGo letter rest t found

/-- Lemma::dedouble (lemma.rs).  The Last case iterates the reversed token stream,
prepending survivors, which re-reverses the result. -/
def Lemma.dedouble (l : Lemma) (letter : List Char) (position : LetterPlaceType) : Lemma :=
  match position with
  | .all => Lemma.fromTokens (dedoubleAllGo letter l.toTokens [])
  | .first => Lemma.fromTokens (dedoubleFirstGo letter l.toTokens [] false)
  | .last => Lemma.fromTokens (dedoubleFirstGo letter l.toTokens.reverse [] false).reverse

/-- Insert at an index, used by double_vec (lemma.rs). -/
def listInsertAt (l : List (List Char)) (i : Nat) (x : List Char) : List (List Char) :=
  l.take i ++ x :: l.drop i

/-- double_vec (lemma.rs): if a position was found, insert an extra copy of the letter
there; reverse back when operating on the reversed stream. -/
def double_vec (current : List (List Char)) (letter : List Char) (found_pos : Option Nat)
    (reverse : Bool) : Lemma :=
  let updated := match found_pos with
    | some pos => listInsertAt current pos letter
    | none => current
  Lemma.fromTokens (if reverse then updated.reverse else updated)

/-- Lemma::double (lemma.rs): All maps each matching token to its doubled string (one
token); First/Last insert a copy at the first position from the respective end. -/
def Lemma.double (l : Lemma) (letter : List Char) (position : LetterPlaceType) : Lemma :=
  match position with
  | .all =>
    Lemma.fromTokens (l.toTokens.map (fun c => if c = letter then c ++ c else c))
  | .first =>
    double_vec l.chars letter (l.toTokens.findIdx? (fun c => c = letter)) false
  | .last =>
    double_vec l.chars.reverse letter (l.chars.reverse.findIdx? (fun c => c = letter)) true

/-- letter_array values (transforms.rs): a literal token or an i32 index into the
pre-image (negative indices wrap to huge usize values when cast, i.e. always out of
range). -/
inductive LetterArrayValues where
  | char (s : List Char)
  | place (n : Int)
deriving DecidableEq

/-- Lemma::modify_with_array (lemma.rs): rebuild the delimited value token by token;
out-of-range (including negative) indices are skipped. -/
def Lemma.modify_with_array (l : Lemma) (transform_array : List LetterArrayValues) : Lemma :=
  let working := l.chars
  ⟨(transform_array.map (fun letter =>
      match letter with
      | .char s => s ++ [wordSep]
      | .place pos =>
        if pos < 0 then []
        else match working.get? pos.toNat with
          | some letter => letter ++ [wordSep]
          | none => [])).flatten⟩

/-- Lemma::match_replace (lemma.rs) delegates the substitution on the delimited value to
the `regex` engine (a compile failure is caught and leaves the value unchanged, so the
operation is total); the engine is modelled by the parameter `mrep` taking the old
pattern, the new string and the subject.  The source then collapses doubled
separators. -/
def Lemma.match_replace (mrep : List Char → List Char → List Char → List Char)
    (l : Lemma) (old new : Lemma) : Lemma :=
  (Lemma.mk (mrep old.value new.value l.value)).dedouble_sep

/-! Part of speech (word.rs) and the Lexis node type (kirum.rs). -/

inductive PartOfSpeech where
  | noun
  | verb
  | adjective
deriving DecidableEq

instance : Inhabited PartOfSpeech := ⟨.noun⟩

/-- PartOfSpeech::to_string (word.rs). -/
def PartOfSpeech.toStr : PartOfSpeech → String
  | .adjective => "adjective"
  | .noun => "noun"
  | .verb => "verb"

/-- A Lexis, a headword in the lexicon (kirum.rs).  `historical_metadata` embeds the Rust
`HashMap<String,String>` extensionally, as a lookup function. -/
structure Lexis where
  id : String
  word : Option Lemma
  language : String
  pos : Option PartOfSpeech
  lexis_type : String
  definition : String
  archaic : Bool
  tags : List String
  historical_metadata : String → Option String
  word_create : Option String

/-- Lexis::default (derived in kirum.rs): empty strings, no word, no pos, not archaic, no
tags, empty metadata, no generation key. -/
def Lexis.default : Lexis :=
  { id := "", word := none, language := "", pos := none, lexis_type := "",
    definition := "", archaic := false, tags := [], historical_metadata := fun _ => none,
    word_create := none }

instance : Inhabited Lexis := ⟨Lexis.default⟩

/-! Match predicates (matching.rs). -/

inductive EqualValue where
  | string (s : String)
  | vector (v : List String)
deriving DecidableEq

inductive ValueMatch where
  | equals (v : EqualValue)
  | oneOf (l : List String)
deriving DecidableEq

inductive Value where
  | isNot (v : ValueMatch)
  | isMatch (v : ValueMatch)
deriving DecidableEq

/-- Embeds `impl PartialEq<String> for ValueMatch` (matching.rs): Equals-String is exact
equality, Equals-Vector is false against a scalar, OneOf is membership. -/
def ValueMatch.eqString : ValueMatch → String → Bool
  | .equals (.vector _), _ => false
  | .equals (.string s), other => s = other
  | .oneOf a, other => a.contains other

/-- Embeds `impl PartialEq<PartOfSpeech> for ValueMatch` (matching.rs): compare against
the stringified part of speech. -/
def ValueMatch.eqPos (vm : ValueMatch) (other : PartOfSpeech) : Bool :=
  vm.eqString other.toStr

/-- Embeds `impl PartialEq<Vec<String>> for ValueMatch` (matching.rs): OneOf is
non-empty intersection, Equals-Vector is the subset test, Equals-String is false. -/
def ValueMatch.eqTags : ValueMatch → List String → Bool
  | .oneOf lst, other => lst.any (fun i => other.contains i)
  | .equals (.vector v), other => v.all (fun i => other.contains i)
  | .equals (.string _), _ => false

/-- Value::is_true (matching.rs), generic over the `PartialEq` comparison in use. -/
def Value.is_true {α : Type} (cmp : ValueMatch → α → Bool) : Value → α → Bool
  | .isMatch v, val => cmp v val
  | .isNot v, val => ¬ cmp v val

/-- value_matches (matching.rs): an absent predicate matches everything. -/
def value_matches {α : Type} (cmp : ValueMatch → α → Bool)
    (val : Option Value) (to_match : α) : Bool :=
  match val with
  | some v => v.is_true cmp to_match
  | none => true

/-- LexisMatch (matching.rs): optional predicates over the Lexis fields. -/
structure LexisMatch where
  id : Option Value
  word : Option Value
  language : Option Value
  pos : Option Value
  lexis_type : Option Value
  archaic : Option Bool
  tags : Option Value
deriving DecidableEq

/-- LexisMatch::default (matching.rs). -/
def LexisMatch.default : LexisMatch :=
  { id := none, word := none, language := none, pos := none, lexis_type := none,
    archaic := none, tags := none }

/-- Embeds `impl PartialEq<Lexis> for LexisMatch` (matching.rs, lines 128-137).  In the
source the first line, `if let Some(word) = &other.word {value_matches(&self.word,
word);} else{true;}`, is a statement whose value is discarded (both blocks end in a
semicolon, so the whole if/else has unit type and terminates as a statement); the
expression actually returned starts at the following `&`, a reference to the language
check bit-anded with the remaining checks.  Consequently the `word` predicate never
contributes to the result and the `id` predicate is not consulted anywhere in the
implementation; the result is the conjunction of the language, pos (vacuous on a Lexis
without pos), lexis_type, archaic and tags checks. -/
def LexisMatch.eqLexis (m : LexisMatch) (other : Lexis) : Bool :=
  value_matches ValueMatch.eqString m.language other.language &&
  (match other.pos with
   | some pos => value_matches ValueMatch.eqPos m.pos pos
   | none => true) &&
  value_matches ValueMatch.eqString m.lexis_type other.lexis_type &&
  (match m.archaic with
   | some a => a = other.archaic
   | none => true) &&
  value_matches ValueMatch.eqTags m.tags other.tags

/-- Modelled from the spec: `LexisMatch::matches` is called from transforms.rs but its
definition is not among the provided sources (only the `PartialEq<Lexis>` impl is).  Per
the spec, section 4.3 ("The whole LexisMatch matches iff every non-absent field predicate
is true" as implemented by that impl) and the call sites, it evaluates the match
predicate on a Lexis, so it delegates to the embedded `PartialEq` impl. -/
def LexisMatch.matches (m : LexisMatch) (lex : Lexis) : Bool := m.eqLexis lex

/-! Transform errors (errors.rs) and transform primitives (transforms.rs). -/

/-- TransformError (errors.rs): EvalError carries the rhai evaluation failure,
ScriptReturnValueError the failed conversion of a script return value; payloads are
modelled as strings. -/
inductive TransformError where
  | evalError (msg : String)
  | scriptReturnValueError (dynType : String)
deriving DecidableEq

/-- LetterValues (transforms.rs). -/
structure LetterValues where
  old : List Char
  new : List Char
deriving DecidableEq

/-- TransformFunc (transforms.rs): the closed set of transform primitives. -/
inductive TransformFunc where
  | letterReplace (letter : LetterValues) (replace : LetterPlaceType)
  | letterArray (letters : List LetterArrayValues)
  | postfixF (value : Lemma)
  | prefixF (value : Lemma)
  | loanword
  | letterRemove (letter : List Char) (position : LetterPlaceType)
  | double (letter : List Char) (position : LetterPlaceType)
  | dedouble (letter : List Char) (position : LetterPlaceType)
  | matchReplace (old : Lemma) (new : Lemma)
  | rhaiScript (file : String)
deriving DecidableEq

/-- TransformFunc::transform (transforms.rs).  The source returns Ok immediately when the
Lexis has no word; otherwise it mutates the word in place.  `mrep` models the regex
engine behind `Lemma::match_replace`; `rhai` models the script engine: it receives the
script path and the current Lexis (whose fields populate the script scope) and returns
either the converted Lemma or a TransformError, after which the source stores the result
as the new word. -/
def TransformFunc.transform (mrep : List Char → List Char → List Char → List Char)
    (rhai : String → Lexis → Except TransformError Lemma)
    (tf : TransformFunc) (current_word : Lexis) : Except TransformError Lexis :=
  match current_word.word with
  | none => .ok current_word
  | some current =>
    match tf with
    | .letterReplace letter replace =>
      .ok { current_word with word := some (current.replace letter.old letter.new replace) }
    | .letterArray letters =>
      .ok { current_word with word := some (current.modify_with_array letters) }
    | .postfixF value =>
      .ok { current_word with word := some (current.addPostfixTo value) }
    | .prefixF value =>
      .ok { current_word with word := some (current.addPrefixTo value) }
    | .loanword => .ok current_word
    | .letterRemove letter position =>
      .ok { current_word with word := some (current.remove_char letter position) }
    | .double letter position =>
      .ok { current_word with word := some (current.double letter position) }
    | .dedouble letter position =>
      .ok { current_word with word := some (current.dedouble letter position) }
    | .matchReplace old new =>
      .ok { current_word with word := some (Lemma.match_replace mrep current old new) }
    | .rhaiScript file =>
      match rhai file current_word with
      | .ok updated => .ok { current_word with word := some updated }
      | .error e => .error e

/-- Transform (transforms.rs): a named, optionally guarded pipeline of primitives. -/
structure Transform where
  name : String
  lex_match : Option LexisMatch
  transforms : List TransformFunc

/-- Transform::transform_option (transforms.rs): when the guard is present and rejects,
return Ok(false) leaving the Lexis untouched; otherwise apply each primitive in order
(propagating any TransformError) and return Ok(true). -/
def Transform.transform_option (mrep : List Char → List Char → List Char → List Char)
    (rhai : String → Lexis → Except TransformError Lemma)
    (t : Transform) (etymon : Lexis) : Except TransformError (Bool × Lexis) :=
  let can_transform := match t.lex_match with
    | some lex_match => lex_match.matches etymon
    | none => true
  if can_transform then
    match t.transforms.foldlM (fun lex tf => tf.transform mrep rhai lex) etymon with
    | .ok lex => .ok (true, lex)
    | .error e => .error e
  else
    .ok (false, etymon)

/-- Transform::transform (transforms.rs): transform_option with the applied flag
discarded. -/
def Transform.transform (mrep : List Char → List Char → List Char → List Char)
    (rhai : String → Lexis → Except TransformError Lemma)
    (t : Transform) (etymon : Lexis) : Except TransformError Lexis :=
  match t.transform_option mrep rhai etymon with
  | .ok r => .ok r.2
  | .error e => .error e

/-- GlobalTransform (transforms.rs): guarded on the target lexis and optionally on its
etymons. -/
structure GlobalTransform where
  lex_match : LexisMatch
  etymon_match : Option LexisMatch
  transforms : List TransformFunc

/-- GlobalTransform::transform (transforms.rs): the transform fires when the lex guard
matches and, if an etymon guard is configured and an etymon list is supplied, at least
one etymon matches it. -/
def GlobalTransform.transform (mrep : List Char → List Char → List Char → List Char)
    (rhai : String → Lexis → Except TransformError Lemma)
    (gt : GlobalTransform) (lex : Lexis) (etymon : Option (List Lexis)) :
    Except TransformError Lexis :=
  let should_trans := match etymon with
    | some ety => match gt.etymon_match with
      | some ety_match => ety.any (fun e => ety_match.matches e)
      | none => true
    | none => true
  if gt.lex_match.matches lex && should_trans then
    gt.transforms.foldlM (fun l tf => tf.transform mrep rhai l) lex
  else
    .ok lex

/-! Phonotactic word generation (lexcreate.rs, errors.rs). -/

/-- PhoneticParsingError (errors.rs). -/
structure PhoneticParsingError where
  msg : String
  found : List Char
deriving DecidableEq

/-- CreateValue (lexcreate.rs): a terminal phoneme string or an uppercase group
reference. -/
inductive CreateValue where
  | phoneme (s : List Char)
  | reference (c : Char)
deriving DecidableEq

/-- Rust `char::is_uppercase`, modelled on its ASCII restriction (theorems about parsing
restrict themselves to ASCII inputs). -/
def rustIsUppercase (c : Char) : Bool := c.isUpper

/-- Rust `char::is_lowercase`, modelled on its ASCII restriction. -/
def rustIsLowercase (c : Char) : Bool := c.isLower

/-- Rust `char::is_whitespace` on the ASCII range. -/
def rustIsWhitespace (c : Char) : Bool :=
  c = ' ' || c = '\t' || c = '\n' || c = Char.ofNat 11 || c = Char.ofNat 12 || c = '\r'

/-- Rust `str::len`: the UTF-8 byte length. -/
def utf8Len (s : List Char) : Nat := (s.map (fun c => c.utf8Size)).sum

/-- Embeds `impl From<char> for CreateValue` (lexcreate.rs): a lowercase character is a
phoneme, ANY other character (uppercase or otherwise) is a reference. -/
def CreateValue.fromChar (value : Char) : CreateValue :=
  if rustIsLowercase value then .phoneme [value] else .reference value

/-- Embeds `impl TryFrom<&str> for CreateValue` (lexcreate.rs): a token counting as many
uppercase characters as its byte length, with byte length 1, is a reference; a token with
no uppercase characters is a phoneme; everything else is a PhoneticParsingError. -/
def CreateValue.tryFromStr (value : List Char) : Except PhoneticParsingError CreateValue :=
  let found_uppercase := (value.filter (fun c => rustIsUppercase c)).length
  if found_uppercase = utf8Len value ∧ utf8Len value = 1 then
    match value.head? with
    | some raw => .ok (.reference raw)
    | none => .error ⟨"could not find character for reference", value⟩
  else if found_uppercase = 0 then
    .ok (.phoneme value)
  else
    .error ⟨"a reference can only be one upper-case character, or an all lowercase phonetic rule", value⟩

/-- PhoneticReference (lexcreate.rs): a token sequence. -/
structure PhoneticReference where
  toks : List CreateValue
deriving DecidableEq

/-- Rust `str::split_whitespace`: split on whitespace and drop empty pieces. -/
def splitWhitespaceL (s : List Char) : List (List Char) :=
  (splitOnPred rustIsWhitespace s).filter (fun t => ¬ t = [])

/-- Embeds `impl TryFrom<&str> for PhoneticReference` (lexcreate.rs): a string with more
than one space is split on whitespace and each token goes through `CreateValue`'s
`TryFrom<&str>` (the first error propagating); otherwise every character goes through
`CreateValue`'s `From<char>`. -/
def PhoneticReference.tryFromStr (value : List Char) :
    Except PhoneticParsingError PhoneticReference :=
  if value.count ' ' > 1 then
    match (splitWhitespaceL value).mapM CreateValue.tryFromStr with
    | .ok toks => .ok ⟨toks⟩
    | .error e => .error e
  else
    .ok ⟨value.map CreateValue.fromChar⟩

/-- LexPhonology (lexcreate.rs); the two HashMaps are embedded extensionally. -/
structure LexPhonology where
  groups : Char → Option (List PhoneticReference)
  lexis_types : String → Option (List PhoneticReference)

/-- Token walk of LexPhonology::resolve_phonetic_reference (lexcreate.rs), parameterized
by the resolver `sub` used for one reference descent (the mutual call into
random_phoneme's recursive resolution).  The outer `none` means a descent was cut off;
`some none` is the source returning None (a failed resolution collapses the entire
attempt); `some (some acc)` is a completed walk with accumulator `acc`.  `pick` models
`SliceRandom::choose` for this run's RNG: it returns none exactly on an empty slice,
otherwise some element of the slice (theorems take those facts as hypotheses).  The
reference case inlines `random_phoneme`: group lookup, choice, recursive resolution
(whose final emptiness check makes an empty sub-lemma a failure), then `Lemma::push`. -/
def resolveWalkGo (pick : List PhoneticReference → Option PhoneticReference)
    (phon : LexPhonology) (sub : List CreateValue → Lemma → Option (Option Lemma)) :
    List CreateValue → Lemma → Option (Option Lemma)
  | [], phonetic_acc => some (some phonetic_acc)
  | .phoneme p :: rest, phonetic_acc =>
    resolveWalkGo pick phon sub rest (phonetic_acc.push_char p)
  | .reference single_ref :: rest, phonetic_acc =>
    match phon.groups single_ref with
    | none => some none
    | some type_val =>
      match pick type_val with
      | none => some none
      | some picked =>
        match sub picked.toks ⟨[]⟩ with
        | none => none
        | some none => some none
        | some (some sub_acc) =>
          if sub_acc.is_empty then some none
          else resolveWalkGo pick phon sub rest (phonetic_acc.push sub_acc)

/-- The fuelled token walk: the source recursion between resolve_phonetic_reference and
random_phoneme is unbounded (cyclic groups diverge), so each reference descent consumes
one unit of fuel; running out of fuel (`none`) corresponds to no terminating source
behavior. -/
def resolveWalk (pick : List PhoneticReference → Option PhoneticReference)
    (phon : LexPhonology) : Nat → List CreateValue → Lemma → Option (Option Lemma)
  | 0 => fun _ _ => none
  | fuel + 1 => resolveWalkGo pick phon (resolveWalk pick phon fuel)

/-- LexPhonology::resolve_phonetic_reference (lexcreate.rs): walk the tokens from an
empty accumulator; an empty final Lemma is reported as None. -/
def LexPhonology.resolve_phonetic_reference
    (pick : List PhoneticReference → Option PhoneticReference) (phon : LexPhonology)
    (fuel : Nat) (pref : PhoneticReference) : Option (Option Lemma) :=
  match resolveWalk pick phon fuel pref.toks ⟨[]⟩ with
  | none => none
  | some none => some none
  | some (some phonetic_acc) =>
    if phonetic_acc.is_empty then some none else some (some phonetic_acc)

/-- LexPhonology::random_phoneme (lexcreate.rs): look the key up in groups, pick an
alternative at random, and resolve it; a missing key or an empty list falls through to
None. -/
def LexPhonology.random_phoneme
    (pick : List PhoneticReference → Option PhoneticReference) (phon : LexPhonology)
    (fuel : Nat) (phoneme_key : Char) : Option (Option Lemma) :=
  match phon.groups phoneme_key with
  | some type_val =>
    match pick type_val with
    | some picked => phon.resolve_phonetic_reference pick fuel picked
    | none => some none
  | none => some none

/-- LexPhonology::create_word (lexcreate.rs): look the lexis type up, pick one
PhoneticReference at random, and resolve it; a missing key or empty list falls through to
None. -/
def LexPhonology.create_word
    (pick : List PhoneticReference → Option PhoneticReference) (phon : LexPhonology)
    (fuel : Nat) (lexis_type : String) : Option (Option Lemma) :=
  match phon.lexis_types lexis_type with
  | some found_type_list =>
    match pick found_type_list with
    | some selected_phon => phon.resolve_phonetic_reference pick fuel selected_phon
    | none => some none
  | none => some none

/-! The language tree and compute_lexicon (kirum.rs). -/

/-- TreeEtymology (kirum.rs): the edge payload. -/
structure TreeEtymology where
  transforms : List Transform
  intermediate_word : Option Lemma
  agglutination_order : Option Int

/-- TreeEtymology::default (kirum.rs). -/
def TreeEtymology.default : TreeEtymology :=
  { transforms := [], intermediate_word := none, agglutination_order := none }

instance : Inhabited TreeEtymology := ⟨TreeEtymology.default⟩

/-- TreeEtymology::apply_transforms (kirum.rs): apply every transform of the edge to the
lexis in order. -/
def TreeEtymology.apply_transforms (mrep : List Char → List Char → List Char → List Char)
    (rhai : String → Lexis → Except TransformError Lemma)
    (te : TreeEtymology) (etymon : Lexis) : Except TransformError Lexis :=
  te.transforms.foldlM (fun lex trans => trans.transform mrep rhai lex) etymon

/-- One edge of the petgraph graph: source and target node indices plus the payload.
petgraph node and edge indices are assigned in insertion order, which the list order
mirrors. -/
structure EdgeRec where
  src : Nat
  dst : Nat
  te : TreeEtymology

instance : Inhabited EdgeRec := ⟨⟨0, 0, TreeEtymology.default⟩⟩

/-- LanguageTree (kirum.rs): the graph plus the optional global transforms.  The
`word_creator_phonology` field is not carried here: `compute_lexicon` consumes it only
through `create_word`, which the embedding models as the `gen` parameter (the
generator's result under this run's RNG), because the generator is randomized and its
recursion is unbounded. -/
structure LanguageTree where
  nodes : List Lexis
  edges : List EdgeRec
  global_transforms : Option (List GlobalTransform)

/-- Node payload at an index. -/
def LanguageTree.node (g : LanguageTree) (v : Nat) : Lexis := g.nodes.getD v Lexis.default

/-- Edge payload at an edge index. -/
def LanguageTree.edge (g : LanguageTree) (i : Nat) : EdgeRec := g.edges.getD i default

/-- Replace a node payload. -/
def LanguageTree.setNode (g : LanguageTree) (v : Nat) (lx : Lexis) : LanguageTree :=
  { g with nodes := g.nodes.set v lx }

/-- Store an intermediate word on an edge. -/
def LanguageTree.setEdgeWord (g : LanguageTree) (i : Nat) (w : Option Lemma) : LanguageTree :=
  { g with edges := g.edges.set i { g.edge i with te := { (g.edge i).te with intermediate_word := w } } }

/-- Incoming edges of a node with their edge indices.  petgraph's
`edges_directed(node, Incoming)` walks the per-node edge list, which is built by
prepending on `add_edge`, so iteration is most-recently-added first; the embedding
filters the insertion-ordered edge list and reverses. -/
def LanguageTree.incoming (g : LanguageTree) (v : Nat) : List (Nat × EdgeRec) :=
  (g.edges.enum.filter (fun p => p.2.dst = v)).reverse

/-- Outgoing edges of a node with their edge indices, in petgraph's
most-recently-added-first order. -/
def LanguageTree.outgoing (g : LanguageTree) (v : Nat) : List (Nat × EdgeRec) :=
  (g.edges.enum.filter (fun p => p.2.src = v)).reverse

/-- The incoming-edge loop of compute_lexicon (kirum.rs lines 273-285): count edges,
break with `is_ready = false` at the first unpopulated intermediate, and collect
`(agglutination_order or 0, intermediate)` pairs. -/
def collectUpstreams : List EdgeRec → Nat → List (Int × Lemma) → Nat × Bool × List (Int × Lemma)
  | [], etymons_in_lex, upstreams => (etymons_in_lex, true, upstreams)
  | e :: rest, etymons_in_lex, upstreams =>
    match e.te.intermediate_word with
    | none => (etymons_in_lex + 1, false, upstreams)
    | some w =>
      collectUpstreams rest (etymons_in_lex + 1)
        (upstreams ++ [(e.te.agglutination_order.getD 0, w)])

/-- Stable insertion into a list sorted by the integer key: an element is placed before
the first element of greater-or-equal key, so that, among equal keys, earlier elements
stay first. -/
def insKey (x : Int × Lemma) : List (Int × Lemma) → List (Int × Lemma)
  | [] => [x]
  | y :: ys => if x.1 ≤ y.1 then x :: y :: ys else y :: insKey x ys

/-- Stable sort by the integer key (insertion sort).  Rust's `sort_by_key` is a stable
sort, and the output of a stable sort is unique, so this is extensionally the source's
sort. -/
def sortByKey : List (Int × Lemma) → List (Int × Lemma)
  | [] => []
  | x :: xs => insKey x (sortByKey xs)

/-- join_string_vectors (kirum.rs): sort the pairs by key, flatten the token lists of the
lemmas in that order, and rebuild a Lemma from the combined token list. -/
def join_string_vectors (words : List (Int × Lemma)) : Lemma :=
  Lemma.fromTokens (((sortByKey words).map (fun s => s.2.chars)).flatten)

/-- The `extend` of one metadata map by another (Rust `HashMap::extend`): every pair of
the source is inserted, overwriting the target on key collisions; extensionally, the
source lookup takes precedence. -/
def extendMeta (target source : String → Option String) : String → Option String :=
  fun k => match source k with
    | some v => some v
    | none => target k

/-- LanguageTree::combine_maps_for_lex_idx (kirum.rs): extend the node's metadata by each
incoming neighbor's metadata, in petgraph's neighbor iteration order (so among colliding
keys the last-iterated etymon wins).  The source skips etymons with empty metadata, a
no-op optimization that the extensional map model elides (extending by an empty map
changes nothing). -/
def LanguageTree.combine_maps_for_lex_idx (g : LanguageTree) (v : Nat) : LanguageTree :=
  let etys := (g.incoming v).map (fun p => g.node p.2.src)
  g.setNode v
    { g.node v with
      historical_metadata :=
        etys.foldl (fun acc ety => extendMeta acc ety.historical_metadata)
          (g.node v).historical_metadata }

/-- State threaded through one call of compute_lexicon: the tree, the `updated` map
(modelled as the list of inserted node indices) and the per-pass `changes` counter. -/
structure CState where
  g : LanguageTree
  updated : List Nat
  changes : Nat

/-- The word-generation step of compute_lexicon (kirum.rs lines 261-271): when the node
has a `word_create` key and no word, ask the generator; a successful result becomes the
node's word. -/
def createStep (gen : String → Option Lemma) (g : LanguageTree) (v : Nat) : LanguageTree :=
  if (g.node v).word_create.isSome ∧ (g.node v).word = none then
    match gen ((g.node v).word_create.getD "") with
    | some found_new => g.setNode v { g.node v with word := some found_new }
    | none => g
  else g

/-- The global-transform application of compute_lexicon (kirum.rs lines 300-309): clone
the node, fold every global transform over it passing the direct etymons, and store it
back. -/
def applyGlobals (mrep : List Char → List Char → List Char → List Char)
    (rhai : String → Lexis → Except TransformError Lemma)
    (gt : List GlobalTransform) (g : LanguageTree) (v : Nat) :
    Except TransformError LanguageTree :=
  let etys := (g.incoming v).map (fun p => g.node p.2.src)
  match gt.foldlM (fun updating trans => trans.transform mrep rhai updating (some etys)) (g.node v) with
  | .ok updating => .ok (g.setNode v updating)
  | .error e => .error e

/-- The trickle-down loop of compute_lexicon (kirum.rs lines 321-337): for every outgoing
edge of an updated node whose intermediate is still empty, apply the edge's transforms to
a copy of the node and store the resulting word on the edge, counting a change. -/
def trickleEdges (mrep : List Char → List Char → List Char → List Char)
    (rhai : String → Lexis → Except TransformError Lemma)
    (v : Nat) : List Nat → CState → Except TransformError CState
  | [], s => .ok s
  | i :: rest, s =>
    match (s.g.edge i).te.intermediate_word with
    | some _ => trickleEdges mrep rhai v rest s
    | none =>
      match (s.g.edge i).te.apply_transforms mrep rhai (s.g.node v) with
      | .ok temp_ref =>
        trickleEdges mrep rhai v rest
          ⟨s.g.setEdgeWord i temp_ref.word, s.updated, s.changes + 1⟩
      | .error e => .error e

/-- The resolution of a node whose incoming edges are all populated (kirum.rs lines
288-309): set the node's word to the joined upstream intermediates, merge the upstream
metadata, and apply the global transforms (if any). -/
def resolveStep (mrep : List Char → List Char → List Char → List Char)
    (rhai : String → Lexis → Except TransformError Lemma)
    (g : LanguageTree) (v : Nat) (upstreams : List (Int × Lemma)) :
    Except TransformError LanguageTree :=
  let rendered_word := join_string_vectors upstreams
  let g := g.setNode v { g.node v with word := some rendered_word }
  let g := g.combine_maps_for_lex_idx v
  match g.global_transforms with
  | some gt => applyGlobals mrep rhai gt g v
  | none => .ok g

/-- The not-yet-updated block of compute_lexicon's per-node iteration (kirum.rs lines
258-317): generation step, incoming-edge walk, resolution when ready (counting a change
and marking the node updated), and the mark for a worded node without incoming edges. -/
def mainStep (gen : String → Option Lemma)
    (mrep : List Char → List Char → List Char → List Char)
    (rhai : String → Lexis → Except TransformError Lemma)
    (s : CState) (v : Nat) : Except TransformError CState := do
  let g := createStep gen s.g v
  let col := collectUpstreams ((g.incoming v).map (fun p => p.2)) 0 []
  let s1 ←
    if col.1 > 0 ∧ col.2.1 then do
      let g' ← resolveStep mrep rhai g v col.2.2
      pure (⟨g', s.updated ++ [v], s.changes + 1⟩ : CState)
    else
      pure (⟨g, s.updated, s.changes⟩ : CState)
  if (s1.g.node v).word.isSome ∧ col.1 = 0 then
    pure (⟨s1.g, s1.updated ++ [v], s1.changes + 1⟩ : CState)
  else
    pure s1

/-- The body of compute_lexicon's per-node iteration (kirum.rs lines 253-338): the
not-yet-updated block, then, if the node is marked updated, the trickle-down of its word
into the outgoing edges. -/
def processNode (gen : String → Option Lemma)
    (mrep : List Char → List Char → List Char → List Char)
    (rhai : String → Lexis → Except TransformError Lemma)
    (s : CState) (v : Nat) : Except TransformError CState := do
  let s ←
    if s.updated.contains v then pure s
    else mainStep gen mrep rhai s v
  if s.updated.contains v then
    trickleEdges mrep rhai v ((s.g.outgoing v).map (fun p => p.1)) s
  else
    pure s

/-- One full pass of compute_lexicon over the given node indices. -/
def passNodes (gen : String → Option Lemma)
    (mrep : List Char → List Char → List Char → List Char)
    (rhai : String → Lexis → Except TransformError Lemma) :
    List Nat → CState → Except TransformError CState
  | [], s => .ok s
  | v :: rest, s =>
    match processNode gen mrep rhai s v with
    | .ok s' => passNodes gen mrep rhai rest s'
    | .error e => .error e

/-- One pass over every node index, with the changes counter reset, as at the top of the
source's while-loop body. -/
def passOnce (gen : String → Option Lemma)
    (mrep : List Char → List Char → List Char → List Char)
    (rhai : String → Lexis → Except TransformError Lemma)
    (s : CState) : Except TransformError CState :=
  passNodes gen mrep rhai (List.range s.g.nodes.length) ⟨s.g, s.updated, 0⟩

/-- The while-loop of compute_lexicon: repeat passes until one makes no changes.  The
source loop is unbounded (it need not terminate on cyclic graphs), so the embedding takes
fuel; `.ok none` means the run was cut off before reaching the fixed point and
corresponds to no terminating source behavior. -/
def computeLoop (gen : String → Option Lemma)
    (mrep : List Char → List Char → List Char → List Char)
    (rhai : String → Lexis → Except TransformError Lemma) :
    Nat → CState → Except TransformError (Option LanguageTree)
  | 0, _ => .ok none
  | fuel + 1, s =>
    match passOnce gen mrep rhai s with
    | .ok s' => if s'.changes = 0 then .ok (some s'.g) else computeLoop gen mrep rhai fuel s'
    | .error e => .error e

/-- LanguageTree::compute_lexicon (kirum.rs): run passes from an empty `updated` map
until a fixed point; `gen` models `self.word_creator_phonology.create_word` under the
run's RNG, `mrep` and `rhai` the regex and script engines. -/
def compute_lexicon (gen : String → Option Lemma)
    (mrep : List Char → List Char → List Char → List Char)
    (rhai : String → Lexis → Except TransformError Lemma)
    (fuel : Nat) (g : LanguageTree) : Except TransformError (Option LanguageTree) :=
  computeLoop gen mrep rhai fuel ⟨g, [], 0⟩

/-! Concrete instances of the external-engine parameters, shared by the witnesses. -/

/-- An identity stand-in for the regex-engine parameter `mrep`. -/
def idMrep : List Char → List Char → List Char → List Char := fun _ _ s => s

/-- A stand-in for the rhai-engine parameter that always fails. -/
def failRhai : String → Lexis → Except TransformError Lemma :=
  fun _ _ => .error (.evalError "script failure")

/-- A word-generator stand-in that never produces a word. -/
def noGen : String → Option Lemma := fun _ => none

/-- A deterministic chooser taking the first alternative: one valid denotation of
`SliceRandom::choose` (none exactly on the empty slice, otherwise a member). -/
def headPick : List PhoneticReference → Option PhoneticReference := fun l => l.head?

/-! Claim theorems. -/

/-- C1 (code_bug evidence): the claim says a non-absent `word` or `id` predicate that
evaluates to false makes the whole LexisMatch fail, but in the source
(`impl PartialEq<Lexis> for LexisMatch`) the word check is a discarded statement (stray
semicolons) and the id predicate is consulted nowhere, so a matcher whose only predicate
is a failing word (resp. id) test still matches: here the word predicate Equals "x"
evaluates to false on the word "y" (second conjunct, via the stringified comparison of
`ValueMatch`), and the id predicate Equals "a" evaluates to false on the id "b" (fourth
conjunct), yet both matches return true. -/
theorem c1_word_and_id_predicates_ignored :
    LexisMatch.eqLexis
      { LexisMatch.default with word := some (.isMatch (.equals (.string "x"))) }
      { Lexis.default with word := some (Lemma.fromStr "y".data) } = true ∧
    ValueMatch.eqString (.equals (.string "x")) "y" = false ∧
    LexisMatch.eqLexis
      { LexisMatch.default with id := some (.isMatch (.equals (.string "a"))) }
      { Lexis.default with id := "b" } = true ∧
    ValueMatch.eqString (.equals (.string "a")) "b" = false :=
  ⟨rfl, rfl, rfl, rfl⟩

/-- C10: when the target Lexis has no part of speech, a non-absent pos predicate is
vacuously satisfied (the source's `if let Some(pos)` falls to the `else {true}` branch),
so the match outcome equals that of the same matcher with the pos predicate removed —
even when the predicate is a `Not(..)` that would reject every actual part of speech. -/
theorem c10_pos_vacuous_on_posless_lexis (m : LexisMatch) (x : Lexis) (h : x.pos = none) :
    m.eqLexis x = LexisMatch.eqLexis { m with pos := none } x := by
  simp [LexisMatch.eqLexis, h]

theorem c10_pos_vacuous_witness :
    (Lexis.default.pos = none) ∧
    LexisMatch.eqLexis
      { LexisMatch.default with pos := some (.isNot (.equals (.string "noun"))) }
      Lexis.default =
    LexisMatch.eqLexis { LexisMatch.default with pos := none } Lexis.default :=
  ⟨rfl,
   c10_pos_vacuous_on_posless_lexis
     { LexisMatch.default with pos := some (.isNot (.equals (.string "noun"))) }
     Lexis.default rfl⟩

/-- C5: a Transform whose guard evaluates to false on a Lexis leaves every field of the
Lexis unchanged (the very same Lexis is returned) and reports "not applied":
transform_option returns Ok(false) and transform returns the untouched Lexis. -/
theorem c5_guard_reject_is_noop (mrep : List Char → List Char → List Char → List Char)
    (rhai : String → Lexis → Except TransformError Lemma)
    (t : Transform) (lex : Lexis) (lm : LexisMatch)
    (hm : t.lex_match = some lm) (hguard : lm.matches lex = false) :
    t.transform_option mrep rhai lex = .ok (false, lex) ∧
    t.transform mrep rhai lex = .ok lex := by
  have h1 : t.transform_option mrep rhai lex = .ok (false, lex) := by
    unfold Transform.transform_option
    rw [hm]
    simp [hguard]
  refine ⟨h1, ?_⟩
  unfold Transform.transform
  rw [h1]

theorem c5_guard_reject_witness :
    (({ name := "t",
        lex_match := some { LexisMatch.default with
                            language := some (.isMatch (.equals (.string "x"))) },
        transforms := [TransformFunc.loanword] } : Transform).lex_match =
      some { LexisMatch.default with language := some (.isMatch (.equals (.string "x"))) }) ∧
    (LexisMatch.matches
      { LexisMatch.default with language := some (.isMatch (.equals (.string "x"))) }
      Lexis.default = false) ∧
    Transform.transform_option idMrep failRhai
      { name := "t",
        lex_match := some { LexisMatch.default with
                            language := some (.isMatch (.equals (.string "x"))) },
        transforms := [TransformFunc.loanword] }
      Lexis.default = .ok (false, Lexis.default) :=
  ⟨rfl, rfl,
   (c5_guard_reject_is_noop idMrep failRhai _ Lexis.default
     { LexisMatch.default with language := some (.isMatch (.equals (.string "x"))) }
     rfl rfl).1⟩

/-- C6: every transform primitive applied to a Lexis without a word returns Ok and leaves
the Lexis unchanged (the source returns before touching anything); and every primitive
other than RhaiScript returns Ok on every input (each arm is a total rewrite of the word;
only the RhaiScript arm can propagate a TransformError). -/
theorem c6_primitives_total (mrep : List Char → List Char → List Char → List Char)
    (rhai : String → Lexis → Except TransformError Lemma)
    (tf : TransformFunc) (lex : Lexis) :
    (lex.word = none → tf.transform mrep rhai lex = .ok lex) ∧
    ((∀ file, tf ≠ TransformFunc.rhaiScript file) →
      ∃ lex', tf.transform mrep rhai lex = .ok lex') := by
  constructor
  · intro h
    unfold TransformFunc.transform
    rw [h]
  · intro h
    unfold TransformFunc.transform
    cases hw : lex.word with
    | none => exact ⟨lex, rfl⟩
    | some current =>
      cases tf
      case rhaiScript file => exact absurd rfl (h file)
      all_goals exact ⟨_, rfl⟩

theorem c6_primitives_witness :
    TransformFunc.loanword.transform idMrep failRhai Lexis.default = .ok Lexis.default ∧
    (∃ lex', (TransformFunc.prefixF ⟨[]⟩).transform idMrep failRhai
      { Lexis.default with word := some (Lemma.fromStr "a".data) } = .ok lex') :=
  ⟨(c6_primitives_total idMrep failRhai .loanword Lexis.default).1 rfl,
   (c6_primitives_total idMrep failRhai (.prefixF ⟨[]⟩)
     { Lexis.default with word := some (Lemma.fromStr "a".data) }).2
     (fun file => by simp)⟩

/-- A single-byte (ASCII) character has UTF-8 size 1, so Rust's byte-length test
`value.len() == 1` holds exactly for one-ASCII-character tokens. -/
theorem utf8Size_eq_one_of_ascii {c : Char} (h : c.toNat < 128) : c.utf8Size = 1 := by
  unfold Char.utf8Size
  have hv : c.val ≤ UInt32.ofNatCore 127 Char.utf8Size.proof_1 := by
    change c.val.toNat ≤ _
    exact Nat.le_of_lt_succ h
  rw [if_pos hv]

/-- The byte length of an all-ASCII string equals its character count. -/
theorem utf8Len_ascii {t : List Char} (h : ∀ c ∈ t, c.toNat < 128) :
    utf8Len t = t.length := by
  induction t with
  | nil => rfl
  | cons c rest ih =>
    have h1 : c.utf8Size = 1 := utf8Size_eq_one_of_ascii (h c (List.mem_cons_self c rest))
    have h2 := ih (fun x hx => h x (List.mem_cons_of_mem c hx))
    simp [utf8Len] at h2 ⊢
    omega

/-- C8 (counterexample): the claim says that in the character-by-character path every
non-uppercase character becomes a phoneme token, but the source's `From<char>` sends every
non-LOWERCASE character to a reference, so the digit in "a3" (no spaces, hence the
character path) parses as `Reference('3')`, not as the phoneme "3". -/
theorem c8_counterexample_digit_is_reference :
    PhoneticReference.tryFromStr "a3".data =
      .ok ⟨[CreateValue.phoneme ['a'], CreateValue.reference '3']⟩ ∧
    CreateValue.reference '3' ≠ CreateValue.phoneme ['3'] :=
  ⟨rfl, by simp⟩

/-- C8 (amended): parsing an ASCII PhoneticReference string with at most one space goes
character by character, where a LOWERCASE character becomes a phoneme and any other
character becomes a reference; a string with two or more spaces is split on whitespace
and parsed token-wise, where a single (one-byte) uppercase character is a reference, a
token without uppercase characters is a phoneme, and any other token — mixed-case or
multi-character containing an uppercase — is a PhoneticParsingError. -/
theorem c8_phonetic_reference_parsing :
    (∀ s : List Char, (∀ c ∈ s, c.toNat < 128) → s.count ' ' ≤ 1 →
      PhoneticReference.tryFromStr s =
        .ok ⟨s.map (fun c => if rustIsLowercase c then CreateValue.phoneme [c]
                             else CreateValue.reference c)⟩) ∧
    (∀ s : List Char, ∀ toks, s.count ' ' > 1 →
      (PhoneticReference.tryFromStr s = .ok ⟨toks⟩ ↔
        (splitWhitespaceL s).mapM CreateValue.tryFromStr = .ok toks)) ∧
    (∀ c : Char, c.toNat < 128 → rustIsUppercase c = true →
      CreateValue.tryFromStr [c] = .ok (.reference c)) ∧
    (∀ t : List Char, (∀ c ∈ t, rustIsUppercase c = false) →
      CreateValue.tryFromStr t = .ok (.phoneme t)) ∧
    (∀ t : List Char, (∀ c ∈ t, c.toNat < 128) → (∃ c ∈ t, rustIsUppercase c = true) →
      2 ≤ t.length → ∃ e, CreateValue.tryFromStr t = .error e) := by
  refine ⟨?_, ?_, ?_, ?_, ?_⟩
  · intro s _ h2
    unfold PhoneticReference.tryFromStr
    rw [if_neg (by omega)]
    rfl
  · intro s toks hs
    unfold PhoneticReference.tryFromStr
    rw [if_pos hs]
    constructor
    · intro h
      cases hm : (splitWhitespaceL s).mapM CreateValue.tryFromStr with
      | ok r => rw [hm] at h; cases h; rfl
      | error e => rw [hm] at h; cases h
    · intro h
      rw [h]
  · intro c hascii hupper
    unfold CreateValue.tryFromStr
    have h1 : utf8Len [c] = 1 := by
      simp [utf8Len, utf8Size_eq_one_of_ascii hascii]
    have h2 : (List.filter (fun c => rustIsUppercase c) [c]).length = 1 := by
      simp [List.filter, hupper]
    rw [h1, h2]
    simp
  · intro t hnone
    unfold CreateValue.tryFromStr
    have h2 : (List.filter (fun c => rustIsUppercase c) t).length = 0 := by
      simp only [List.length_eq_zero]
      rw [List.filter_eq_nil_iff]
      intro c hc
      simp [hnone c hc]
    rw [h2]
    rw [if_neg (by omega)]
    simp
  · intro t hascii ⟨c, hc, hupper⟩ hlen
    unfold CreateValue.tryFromStr
    have h1 : utf8Len t = t.length := utf8Len_ascii hascii
    have h2 : 0 < (List.filter (fun c => rustIsUppercase c) t).length := by
      rw [List.length_pos]
      intro hnil
      have : c ∈ List.filter (fun c => rustIsUppercase c) t :=
        List.mem_filter.2 ⟨hc, hupper⟩
      rw [hnil] at this
      cases this
    rw [h1]
    rw [if_neg (by omega)]
    rw [if_neg (by omega)]
    exact ⟨_, rfl⟩

theorem c8_phonetic_reference_parsing_witness :
    PhoneticReference.tryFromStr "CVa".data =
      .ok ⟨[CreateValue.reference 'C', CreateValue.reference 'V', CreateValue.phoneme ['a']]⟩ ∧
    CreateValue.tryFromStr "C".data = .ok (.reference 'C') ∧
    CreateValue.tryFromStr "rw".data = .ok (.phoneme "rw".data) ∧
    (∃ e, CreateValue.tryFromStr "Ci".data = .error e) ∧
    (PhoneticReference.tryFromStr "C V rw".data =
        .ok ⟨[CreateValue.reference 'C', CreateValue.reference 'V', CreateValue.phoneme "rw".data]⟩ ↔
      (splitWhitespaceL "C V rw".data).mapM CreateValue.tryFromStr =
        .ok [CreateValue.reference 'C', CreateValue.reference 'V', CreateValue.phoneme "rw".data]) :=
  ⟨c8_phonetic_reference_parsing.1 "CVa".data (by decide) (by decide),
   c8_phonetic_reference_parsing.2.2.1 'C' (by decide) (by decide),
   c8_phonetic_reference_parsing.2.2.2.1 "rw".data (by decide),
   c8_phonetic_reference_parsing.2.2.2.2 "Ci".data (by decide) (by decide) (by decide),
   c8_phonetic_reference_parsing.2.1 "C V rw".data _ (by decide)⟩

/-- The one-step unfolding of the walk at a reference token. -/
theorem resolveWalkGo_ref_unfold (pick : List PhoneticReference → Option PhoneticReference)
    (phon : LexPhonology) (sub : List CreateValue → Lemma → Option (Option Lemma))
    (c : Char) (rest : List CreateValue) (acc : Lemma) :
    resolveWalkGo pick phon sub (.reference c :: rest) acc =
      match phon.groups c with
      | none => some none
      | some type_val =>
        match pick type_val with
        | none => some none
        | some picked =>
          match sub picked.toks ⟨[]⟩ with
          | none => none
          | some none => some none
          | some (some sub_acc) =>
            if sub_acc.is_empty then some none
            else resolveWalkGo pick phon sub rest (acc.push sub_acc) := rfl

/-- Reference step when the group key is missing: the walk aborts. -/
theorem resolveWalkGo_ref_groups_none {pick : List PhoneticReference → Option PhoneticReference}
    {phon : LexPhonology} {sub : List CreateValue → Lemma → Option (Option Lemma)}
    {c : Char} {rest : List CreateValue} {acc : Lemma}
    (hg : phon.groups c = none) :
    resolveWalkGo pick phon sub (.reference c :: rest) acc = some none := by
  rw [resolveWalkGo_ref_unfold, hg]

/-- Reference step when the chooser returns none: the walk aborts. -/
theorem resolveWalkGo_ref_pick_none {pick : List PhoneticReference → Option PhoneticReference}
    {phon : LexPhonology} {sub : List CreateValue → Lemma → Option (Option Lemma)}
    {c : Char} {rest : List CreateValue} {acc : Lemma} {alts : List PhoneticReference}
    (hg : phon.groups c = some alts) (hp : pick alts = none) :
    resolveWalkGo pick phon sub (.reference c :: rest) acc = some none := by
  rw [resolveWalkGo_ref_unfold, hg]
  show (match pick alts with
        | none => some none
        | some picked =>
          match sub picked.toks ⟨[]⟩ with
          | none => none
          | some none => some none
          | some (some sub_acc) =>
            if sub_acc.is_empty then some none
            else resolveWalkGo pick phon sub rest (acc.push sub_acc)) = some none
  rw [hp]

/-- Reference step when an alternative is chosen: the walk continues with its
resolution. -/
theorem resolveWalkGo_ref_picked {pick : List PhoneticReference → Option PhoneticReference}
    {phon : LexPhonology} {sub : List CreateValue → Lemma → Option (Option Lemma)}
    {c : Char} {rest : List CreateValue} {acc : Lemma} {alts : List PhoneticReference}
    {alt : PhoneticReference}
    (hg : phon.groups c = some alts) (hp : pick alts = some alt) :
    resolveWalkGo pick phon sub (.reference c :: rest) acc =
      match sub alt.toks ⟨[]⟩ with
      | none => none
      | some none => some none
      | some (some sub_acc) =>
        if sub_acc.is_empty then some none
        else resolveWalkGo pick phon sub rest (acc.push sub_acc) := by
  rw [resolveWalkGo_ref_unfold, hg]
  show (match pick alts with
        | none => some none
        | some picked =>
          match sub picked.toks ⟨[]⟩ with
          | none => none
          | some none => some none
          | some (some sub_acc) =>
            if sub_acc.is_empty then some none
            else resolveWalkGo pick phon sub rest (acc.push sub_acc)) = _
  rw [hp]

/-- Composition of the token walk over an append: the walk of `pre ++ rest` is the walk
of `pre` continued, on success, with the walk of `rest` from the reached accumulator. -/
theorem resolveWalkGo_append (pick : List PhoneticReference → Option PhoneticReference)
    (phon : LexPhonology) (sub : List CreateValue → Lemma → Option (Option Lemma))
    (pre rest : List CreateValue) (acc : Lemma) :
    resolveWalkGo pick phon sub (pre ++ rest) acc =
      match resolveWalkGo pick phon sub pre acc with
      | none => none
      | some none => some none
      | some (some acc') => resolveWalkGo pick phon sub rest acc' := by
  induction pre generalizing acc with
  | nil => rfl
  | cons t pre' ih =>
    cases t with
    | phoneme p => exact ih _
    | reference c =>
      rw [List.cons_append]
      cases hg : phon.groups c with
      | none =>
        rw [resolveWalkGo_ref_groups_none hg, resolveWalkGo_ref_groups_none hg]
      | some alts =>
        cases hp : pick alts with
        | none =>
          rw [resolveWalkGo_ref_pick_none hg hp, resolveWalkGo_ref_pick_none hg hp]
        | some alt =>
          rw [resolveWalkGo_ref_picked hg hp, resolveWalkGo_ref_picked hg hp]
          split
          · rfl
          · rfl
          next suba _ =>
            by_cases he : suba.is_empty = true
            · rw [if_pos he, if_pos he]
            · rw [if_neg he, if_neg he]
              exact ih _

/-- The failure of one reference token: its key is missing from groups, its alternative
list makes the chooser return none, or the chosen alternative itself resolves to none
(aborting, or completing with an empty Lemma). -/
def refFails (pick : List PhoneticReference → Option PhoneticReference)
    (phon : LexPhonology) (sub : List CreateValue → Lemma → Option (Option Lemma))
    (c : Char) : Prop :=
  phon.groups c = none ∨
  (∃ alts, phon.groups c = some alts ∧ pick alts = none) ∨
  (∃ alts alt, phon.groups c = some alts ∧ pick alts = some alt ∧
    (sub alt.toks ⟨[]⟩ = some none ∨
     ∃ s, sub alt.toks ⟨[]⟩ = some (some s) ∧ s.is_empty = true))

/-- A walk that terminates in the aborted state did so at a reference token: the tokens
split into a prefix whose walk completes, one failing reference, and a remainder that is
never reached (so no partial word is produced). -/
theorem resolveWalkGo_abort_split (pick : List PhoneticReference → Option PhoneticReference)
    (phon : LexPhonology) (sub : List CreateValue → Lemma → Option (Option Lemma)) :
    ∀ (toks : List CreateValue) (acc : Lemma),
    resolveWalkGo pick phon sub toks acc = some none →
    ∃ pre c post acc', toks = pre ++ .reference c :: post ∧
      resolveWalkGo pick phon sub pre acc = some (some acc') ∧
      refFails pick phon sub c := by
  intro toks
  induction toks with
  | nil =>
    intro acc h
    cases h
  | cons t rest ih =>
    intro acc h
    cases t with
    | phoneme p =>
      obtain ⟨pre', c, post, acc', hsplit, hpre, hfail⟩ := ih _ h
      exact ⟨.phoneme p :: pre', c, post, acc', by rw [hsplit]; rfl, hpre, hfail⟩
    | reference c =>
      have hnil : resolveWalkGo pick phon sub [] acc = some (some acc) := rfl
      cases hg : phon.groups c with
      | none =>
        exact ⟨[], c, rest, acc, rfl, hnil, Or.inl hg⟩
      | some alts =>
        cases hp : pick alts with
        | none =>
          exact ⟨[], c, rest, acc, rfl, hnil, Or.inr (Or.inl ⟨alts, hg, hp⟩)⟩
        | some alt =>
          rw [resolveWalkGo_ref_picked hg hp] at h
          cases hw : sub alt.toks ⟨[]⟩ with
          | none => rw [hw] at h; cases h
          | some r =>
            rw [hw] at h
            cases r with
            | none =>
              exact ⟨[], c, rest, acc, rfl, hnil,
                Or.inr (Or.inr ⟨alts, alt, hg, hp, Or.inl hw⟩)⟩
            | some suba =>
              change (if suba.is_empty = true then some none
                      else resolveWalkGo pick phon sub rest (acc.push suba)) = some none at h
              by_cases he : suba.is_empty = true
              · rw [if_pos he] at h
                exact ⟨[], c, rest, acc, rfl, hnil,
                  Or.inr (Or.inr ⟨alts, alt, hg, hp, Or.inr ⟨suba, hw, he⟩⟩)⟩
              · rw [if_neg he] at h
                obtain ⟨pre', c', post, acc', hsplit, hpre, hfail⟩ := ih _ h
                refine ⟨.reference c :: pre', c', post, acc', by rw [hsplit]; rfl, ?_, hfail⟩
                rw [resolveWalkGo_ref_picked hg hp, hw]
                change (if suba.is_empty = true then some none
                        else resolveWalkGo pick phon sub pre' (acc.push suba)) = some (some acc')
                rw [if_neg he]
                exact hpre

/-- Conversely, a completed prefix walk followed by a failing reference aborts the whole
walk. -/
theorem resolveWalkGo_abort_of_split (pick : List PhoneticReference → Option PhoneticReference)
    (phon : LexPhonology) (sub : List CreateValue → Lemma → Option (Option Lemma))
    (pre post : List CreateValue) (c : Char) (acc acc' : Lemma)
    (hpre : resolveWalkGo pick phon sub pre acc = some (some acc'))
    (hfail : refFails pick phon sub c) :
    resolveWalkGo pick phon sub (pre ++ .reference c :: post) acc = some none := by
  rw [resolveWalkGo_append, hpre]
  change resolveWalkGo pick phon sub (.reference c :: post) acc' = some none
  rcases hfail with hg | ⟨alts, hg, hp⟩ | ⟨alts, alt, hg, hp, hsub⟩
  · exact resolveWalkGo_ref_groups_none hg
  · exact resolveWalkGo_ref_pick_none hg hp
  · rw [resolveWalkGo_ref_picked hg hp]
    rcases hsub with hw | ⟨s, hw, he⟩
    · rw [hw]
    · rw [hw]
      change (if s.is_empty = true then some none
              else resolveWalkGo pick phon sub post (acc'.push s)) = some none
      rw [if_pos he]

/-- The fuelled walk at positive fuel is the walk with one descent unit consumed by the
sub-resolver. -/
theorem resolveWalk_succ (pick : List PhoneticReference → Option PhoneticReference)
    (phon : LexPhonology) (f : Nat) :
    resolveWalk pick phon (f + 1) = resolveWalkGo pick phon (resolveWalk pick phon f) := rfl

/-- create_word when the lexis type is missing. -/
theorem create_word_types_none {pick : List PhoneticReference → Option PhoneticReference}
    {phon : LexPhonology} {f : Nat} {key : String}
    (hlt : phon.lexis_types key = none) :
    LexPhonology.create_word pick phon f key = some none := by
  unfold LexPhonology.create_word
  rw [hlt]

/-- create_word when the chooser returns none on the type's alternative list. -/
theorem create_word_pick_none {pick : List PhoneticReference → Option PhoneticReference}
    {phon : LexPhonology} {f : Nat} {key : String} {lst : List PhoneticReference}
    (hlt : phon.lexis_types key = some lst) (hp : pick lst = none) :
    LexPhonology.create_word pick phon f key = some none := by
  unfold LexPhonology.create_word
  rw [hlt]
  show (match pick lst with
        | some selected_phon => phon.resolve_phonetic_reference pick f selected_phon
        | none => some none) = some none
  rw [hp]

/-- create_word when an alternative is chosen: resolve it. -/
theorem create_word_picked {pick : List PhoneticReference → Option PhoneticReference}
    {phon : LexPhonology} {f : Nat} {key : String} {lst : List PhoneticReference}
    {pref : PhoneticReference}
    (hlt : phon.lexis_types key = some lst) (hp : pick lst = some pref) :
    LexPhonology.create_word pick phon f key =
      phon.resolve_phonetic_reference pick f pref := by
  unfold LexPhonology.create_word
  rw [hlt]
  show (match pick lst with
        | some selected_phon => phon.resolve_phonetic_reference pick f selected_phon
        | none => some none) = _
  rw [hp]

/-- C7 (amended): create_word returns none exactly when the type key is absent from
lexis_types or its alternative list is empty, or some reference token reached during
resolution fails to resolve — its key missing from groups, its alternative list empty,
or the chosen alternative itself resolving to none by these same rules, including
resolving to an empty Lemma — in which case the entire attempt yields none rather than a
partial word (the failing reference splits the tokens into a completed prefix and an
unreached remainder), or the fully resolved Lemma is empty; otherwise it returns some
non-empty Lemma.  `pick` is this run's denotation of `SliceRandom::choose`, hence the
hypothesis that it returns none exactly on the empty list; `fuel` bounds the reference
recursion (the sub-resolution runs at one unit less, and a cut-off run corresponds to no
terminating source behavior, never to the some-none cases below). -/
theorem c7_create_word_none_characterization
    (pick : List PhoneticReference → Option PhoneticReference) (phon : LexPhonology)
    (key : String) (fuel : Nat)
    (hpick : ∀ l, pick l = none ↔ l = []) :
    (∀ w, LexPhonology.create_word pick phon fuel key = some (some w) →
      w.is_empty = false) ∧
    (LexPhonology.create_word pick phon fuel key = some none ↔
      phon.lexis_types key = none ∨
      phon.lexis_types key = some [] ∨
      (∃ lst pref, phon.lexis_types key = some lst ∧ pick lst = some pref ∧
        ((∃ acc, resolveWalk pick phon fuel pref.toks ⟨[]⟩ = some (some acc) ∧
            acc.is_empty = true) ∨
         (∃ pre c post acc, pref.toks = pre ++ .reference c :: post ∧
           resolveWalk pick phon fuel pre ⟨[]⟩ = some (some acc) ∧
           (phon.groups c = none ∨
            phon.groups c = some [] ∨
            (∃ alts alt, phon.groups c = some alts ∧ pick alts = some alt ∧
              (resolveWalk pick phon (fuel - 1) alt.toks ⟨[]⟩ = some none ∨
               ∃ sub, resolveWalk pick phon (fuel - 1) alt.toks ⟨[]⟩ = some (some sub) ∧
                 sub.is_empty = true))))))) := by
  have hpick_empty : pick [] = none := (hpick []).2 rfl
  constructor
  · -- a successful generation is non-empty
    intro w h
    cases hlt : phon.lexis_types key with
    | none => rw [create_word_types_none hlt] at h; cases h
    | some lst =>
      cases hpk : pick lst with
      | none => rw [create_word_pick_none hlt hpk] at h; cases h
      | some pref =>
        rw [create_word_picked hlt hpk] at h
        unfold LexPhonology.resolve_phonetic_reference at h
        cases hw : resolveWalk pick phon fuel pref.toks ⟨[]⟩ with
        | none => rw [hw] at h; cases h
        | some r =>
          rw [hw] at h
          cases r with
          | none => cases h
          | some acc =>
            change (if acc.is_empty = true then some none else some (some acc)) =
              some (some w) at h
            by_cases he : acc.is_empty = true
            · rw [if_pos he] at h; cases h
            · rw [if_neg he] at h
              cases h
              simp only [Bool.not_eq_true] at he
              exact he
  · -- the none characterization
    cases hlt : phon.lexis_types key with
    | none =>
      rw [create_word_types_none hlt]
      simp [hlt]
    | some lst =>
      cases hpk : pick lst with
      | none =>
        have hl : lst = [] := (hpick lst).1 hpk
        rw [create_word_pick_none hlt hpk]
        subst hl
        simp [hlt]
      | some pref =>
        have hlstne : lst ≠ [] := by
          intro hnil
          rw [hnil, hpick_empty] at hpk
          cases hpk
        rw [create_word_picked hlt hpk]
        unfold LexPhonology.resolve_phonetic_reference
        constructor
        · intro h
          refine Or.inr (Or.inr ⟨lst, pref, rfl, hpk, ?_⟩)
          cases fuel with
          | zero => cases h
          | succ n =>
            rw [resolveWalk_succ] at h
            cases hw : resolveWalkGo pick phon (resolveWalk pick phon n) pref.toks ⟨[]⟩ with
            | none => rw [hw] at h; cases h
            | some r =>
              rw [hw] at h
              cases r with
              | none =>
                obtain ⟨pre, c, post, acc, hsplit, hpre, hfail⟩ :=
                  resolveWalkGo_abort_split pick phon (resolveWalk pick phon n) _ _ hw
                refine Or.inr ⟨pre, c, post, acc, hsplit, by rw [resolveWalk_succ]; exact hpre, ?_⟩
                rcases hfail with hg | ⟨alts, hg, hpa⟩ | ⟨alts, alt, hg, hpa, hsub⟩
                · exact Or.inl hg
                · have : alts = [] := (hpick alts).1 hpa
                  subst this
                  exact Or.inr (Or.inl hg)
                · exact Or.inr (Or.inr ⟨alts, alt, hg, hpa, hsub⟩)
              | some acc =>
                change (if acc.is_empty = true then some none else some (some acc)) =
                  some none at h
                by_cases he : acc.is_empty = true
                · exact Or.inl ⟨acc, by rw [resolveWalk_succ]; exact hw, he⟩
                · rw [if_neg he] at h
                  cases h
        · intro h
          rcases h with hnone | hsome | ⟨lst', pref', hlt', hpk', hfail⟩
          · cases hnone
          · injection hsome with h2
            exact absurd h2 hlstne
          · injection hlt' with h2
            subst h2
            rw [hpk] at hpk'
            injection hpk' with h3
            subst h3
            cases fuel with
            | zero =>
              rcases hfail with ⟨acc, hw, _⟩ | ⟨pre, c, post, acc, _, hpre, _⟩
              · cases hw
              · cases hpre
            | succ n =>
              rw [resolveWalk_succ]
              rcases hfail with ⟨acc, hw, he⟩ | ⟨pre, c, post, acc, hsplit, hpre, hf⟩
              · rw [resolveWalk_succ] at hw
                rw [hw]
                change (if acc.is_empty = true then some none else some (some acc)) =
                  some none
                rw [if_pos he]
              · rw [resolveWalk_succ] at hpre
                have hfails : refFails pick phon (resolveWalk pick phon n) c := by
                  rcases hf with hg | hg | ⟨alts, alt, hg, hpa, hsub⟩
                  · exact Or.inl hg
                  · exact Or.inr (Or.inl ⟨[], hg, hpick_empty⟩)
                  · exact Or.inr (Or.inr ⟨alts, alt, hg, hpa, hsub⟩)
                rw [hsplit]
                rw [resolveWalkGo_abort_of_split pick phon (resolveWalk pick phon n)
                  pre post c ⟨[]⟩ acc hpre hfails]

/-- random_phoneme when the group key is missing. -/
theorem random_phoneme_groups_none {pick : List PhoneticReference → Option PhoneticReference}
    {phon : LexPhonology} {n : Nat} {c : Char}
    (hg : phon.groups c = none) :
    phon.random_phoneme pick n c = some none := by
  unfold LexPhonology.random_phoneme
  rw [hg]

/-- random_phoneme when the chooser returns none. -/
theorem random_phoneme_pick_none {pick : List PhoneticReference → Option PhoneticReference}
    {phon : LexPhonology} {n : Nat} {c : Char} {alts : List PhoneticReference}
    (hg : phon.groups c = some alts) (hp : pick alts = none) :
    phon.random_phoneme pick n c = some none := by
  unfold LexPhonology.random_phoneme
  rw [hg]
  show (match pick alts with
        | some picked => phon.resolve_phonetic_reference pick n picked
        | none => some none) = some none
  rw [hp]

/-- random_phoneme when an alternative is chosen. -/
theorem random_phoneme_picked {pick : List PhoneticReference → Option PhoneticReference}
    {phon : LexPhonology} {n : Nat} {c : Char} {alts : List PhoneticReference}
    {alt : PhoneticReference}
    (hg : phon.groups c = some alts) (hp : pick alts = some alt) :
    phon.random_phoneme pick n c = phon.resolve_phonetic_reference pick n alt := by
  unfold LexPhonology.random_phoneme
  rw [hg]
  show (match pick alts with
        | some picked => phon.resolve_phonetic_reference pick n picked
        | none => some none) = _
  rw [hp]

/-- Faithfulness of the inlined reference case: the walk at a reference token is exactly
group lookup, choice, and recursive resolution through random_phoneme (with the failure
of a sub-resolution collapsing the walk and a success pushed onto the accumulator). -/
theorem resolveWalk_ref_via_random_phoneme
    (pick : List PhoneticReference → Option PhoneticReference) (phon : LexPhonology)
    (n : Nat) (c : Char) (rest : List CreateValue) (acc : Lemma) :
    resolveWalk pick phon (n + 1) (.reference c :: rest) acc =
      match phon.random_phoneme pick n c with
      | none => none
      | some none => some none
      | some (some found_ref) =>
        resolveWalk pick phon (n + 1) rest (acc.push found_ref) := by
  rw [resolveWalk_succ]
  cases hg : phon.groups c with
  | none => rw [resolveWalkGo_ref_groups_none hg, random_phoneme_groups_none hg]
  | some alts =>
    cases hp : pick alts with
    | none => rw [resolveWalkGo_ref_pick_none hg hp, random_phoneme_pick_none hg hp]
    | some alt =>
      rw [resolveWalkGo_ref_picked hg hp, random_phoneme_picked hg hp]
      unfold LexPhonology.resolve_phonetic_reference
      cases hw : resolveWalk pick phon n alt.toks ⟨[]⟩ with
      | none => rfl
      | some r =>
        cases r with
        | none => rfl
        | some sub =>
          change (if sub.is_empty = true then some none
                  else resolveWalkGo pick phon (resolveWalk pick phon n) rest (acc.push sub)) =
            match (if sub.is_empty = true then some none else some (some sub)) with
            | none => none
            | some none => some none
            | some (some found_ref) =>
              resolveWalkGo pick phon (resolveWalk pick phon n) rest (acc.push found_ref)
          by_cases he : sub.is_empty = true
          · rw [if_pos he, if_pos he]
          · rw [if_neg he, if_neg he]

/-- The phonology exhibiting the corner case the claim misses: lexis type "w" maps to the
single reference sequence "aC", and group C has exactly one alternative — the empty
PhoneticReference, which resolves to an empty Lemma and therefore to None. -/
def c7phonCE : LexPhonology :=
  { groups := fun c => if c = 'C' then some [⟨[]⟩] else none,
    lexis_types := fun s =>
      if s = "w" then some [⟨[.phoneme ['a'], .reference 'C']⟩] else none }

/-- C7 (counterexample): create_word returns none here although every condition the
claim enumerates fails: the type key "w" is present with a non-empty alternative list;
the only reference token ever reached is 'C', whose key is present in groups with a
non-empty alternative list; and no fully resolved Lemma exists (resolution aborts inside
the reference, discarding the already-accumulated "a" — the opposite of the claim's
"otherwise it returns some non-empty Lemma"). -/
theorem c7_counterexample_empty_subresolution :
    LexPhonology.create_word headPick c7phonCE 3 "w" = some none ∧
    c7phonCE.lexis_types "w" = some [⟨[.phoneme ['a'], .reference 'C']⟩] ∧
    c7phonCE.groups 'C' = some [⟨[]⟩] ∧
    (∀ t ∈ [CreateValue.phoneme ['a'], CreateValue.reference 'C'],
      t = .phoneme ['a'] ∨ t = .reference 'C') ∧
    ([(⟨[]⟩ : PhoneticReference)] ≠ ([] : List PhoneticReference)) :=
  ⟨rfl, rfl, rfl, by decide, by decide⟩

/-- A phonology with no entries at all, and one with a single phoneme alternative. -/
def c7phonMissing : LexPhonology :=
  { groups := fun _ => none, lexis_types := fun _ => none }

def c7phonSingle : LexPhonology :=
  { groups := fun _ => none,
    lexis_types := fun s => if s = "w" then some [⟨[.phoneme ['a']]⟩] else none }

theorem c7_create_word_witness :
    LexPhonology.create_word headPick c7phonMissing 2 "x" = some none ∧
    (Lemma.mk ['a']).is_empty = false :=
  ⟨(c7_create_word_none_characterization headPick c7phonMissing "x" 2
      (fun l => by cases l <;> simp [headPick])).2.mpr (Or.inl rfl),
   (c7_create_word_none_characterization headPick c7phonSingle "w" 2
      (fun l => by cases l <;> simp [headPick])).1 ⟨['a']⟩ rfl⟩

/-! Supporting lemmas for the compute_lexicon proofs: list indexing, the
characterization of the incoming/outgoing edge lists, and frame lemmas. -/

theorem list_getD_set_ne {α : Type} (l : List α) (i j : Nat) (x d : α) (h : j ≠ i) :
    (l.set i x).getD j d = l.getD j d := by
  induction l generalizing i j with
  | nil => cases i <;> rfl
  | cons a t ih =>
    cases i with
    | zero =>
      cases j with
      | zero => exact absurd rfl h
      | succ j' => rfl
    | succ i' =>
      cases j with
      | zero => rfl
      | succ j' => exact ih i' j' (fun hh => h (by rw [hh]))

theorem list_getD_set_self {α : Type} (l : List α) (i : Nat) (x d : α) (h : i < l.length) :
    (l.set i x).getD i d = x := by
  induction l generalizing i with
  | nil => cases h
  | cons a t ih =>
    cases i with
    | zero => rfl
    | succ i' => exact ih i' (Nat.lt_of_succ_lt_succ h)

theorem list_set_getD_self {α : Type} (l : List α) (i : Nat) (d : α) (h : i < l.length) :
    l.set i (l.getD i d) = l := by
  induction l generalizing i with
  | nil => cases h
  | cons a t ih =>
    cases i with
    | zero => rfl
    | succ i' =>
      show a :: t.set i' (t.getD i' d) = a :: t
      rw [ih i' (Nat.lt_of_succ_lt_succ h)]

theorem list_getD_of_ge {α : Type} (l : List α) (i : Nat) (d : α) (h : l.length ≤ i) :
    l.getD i d = d := by
  induction l generalizing i with
  | nil => cases i <;> rfl
  | cons a t ih =>
    cases i with
    | zero => cases h
    | succ i' => exact ih i' (Nat.le_of_succ_le_succ h)

theorem enumFrom_eq_map_range {α : Type} [Inhabited α] (l : List α) :
    ∀ n, l.enumFrom n = (List.range l.length).map (fun i => (n + i, l.getD i default)) := by
  induction l with
  | nil => intro n; rfl
  | cons a t ih =>
    intro n
    show (n, a) :: t.enumFrom (n + 1) = _
    rw [ih (n + 1)]
    simp only [List.length_cons, List.range_succ_eq_map]
    simp only [List.map_cons, List.map_map]
    refine congrArg₂ _ (by simp) ?_
    refine (List.map_congr_left ?_).symm
    intro i _
    simp only [Function.comp, List.getD_cons_succ]
    congr 1
    omega

theorem enum_eq_map_range {α : Type} [Inhabited α] (l : List α) :
    l.enum = (List.range l.length).map (fun i => (i, l.getD i default)) := by
  rw [show l.enum = l.enumFrom 0 from rfl, enumFrom_eq_map_range]
  simp

/-- The incoming edge list, characterized by edge indices: the reversed list of
(index, edge) pairs over the indices whose edge targets `v`. -/
theorem incoming_eq (g : LanguageTree) (v : Nat) :
    g.incoming v =
      (((List.range g.edges.length).filter (fun i => (g.edge i).dst = v)).map
        (fun i => (i, g.edge i))).reverse := by
  unfold LanguageTree.incoming
  rw [enum_eq_map_range, List.filter_map]
  rfl

/-- The outgoing edge list, characterized by edge indices. -/
theorem outgoing_eq (g : LanguageTree) (v : Nat) :
    g.outgoing v =
      (((List.range g.edges.length).filter (fun i => (g.edge i).src = v)).map
        (fun i => (i, g.edge i))).reverse := by
  unfold LanguageTree.outgoing
  rw [enum_eq_map_range, List.filter_map]
  rfl

/-- The evolution relation maintained by compute_lexicon on the tree: node and edge
counts, the graph shape (edge endpoints, transform lists, agglutination orders) and the
global transforms are constant, and a populated edge intermediate is never
overwritten. -/
def treeStep (g g' : LanguageTree) : Prop :=
  g'.nodes.length = g.nodes.length ∧
  g'.edges.length = g.edges.length ∧
  g'.global_transforms = g.global_transforms ∧
  (∀ i, (g'.edge i).src = (g.edge i).src ∧ (g'.edge i).dst = (g.edge i).dst ∧
    (g'.edge i).te.transforms = (g.edge i).te.transforms ∧
    (g'.edge i).te.agglutination_order = (g.edge i).te.agglutination_order) ∧
  (∀ i w, (g.edge i).te.intermediate_word = some w →
    (g'.edge i).te.intermediate_word = some w)

theorem treeStep_refl (g : LanguageTree) : treeStep g g :=
  ⟨rfl, rfl, rfl, fun _ => ⟨rfl, rfl, rfl, rfl⟩, fun _ _ h => h⟩

theorem treeStep_trans {g g' g'' : LanguageTree} (h1 : treeStep g g') (h2 : treeStep g' g'') :
    treeStep g g'' := by
  obtain ⟨a1, b1, c1, d1, e1⟩ := h1
  obtain ⟨a2, b2, c2, d2, e2⟩ := h2
  refine ⟨a2.trans a1, b2.trans b1, c2.trans c1, fun i => ?_, fun i w h => e2 i w (e1 i w h)⟩
  obtain ⟨p1, q1, r1, s1⟩ := d1 i
  obtain ⟨p2, q2, r2, s2⟩ := d2 i
  exact ⟨p2.trans p1, q2.trans q1, r2.trans r1, s2.trans s1⟩

theorem setNode_node_self (g : LanguageTree) (v : Nat) (lx : Lexis) (h : v < g.nodes.length) :
    (g.setNode v lx).node v = lx :=
  list_getD_set_self _ _ _ _ h

theorem setNode_node_ne (g : LanguageTree) (v w : Nat) (lx : Lexis) (h : w ≠ v) :
    (g.setNode v lx).node w = g.node w :=
  list_getD_set_ne _ _ _ _ _ h

theorem setNode_edges (g : LanguageTree) (v : Nat) (lx : Lexis) :
    (g.setNode v lx).edges = g.edges := rfl

theorem setNode_globals (g : LanguageTree) (v : Nat) (lx : Lexis) :
    (g.setNode v lx).global_transforms = g.global_transforms := rfl

theorem setNode_nodes_length (g : LanguageTree) (v : Nat) (lx : Lexis) :
    (g.setNode v lx).nodes.length = g.nodes.length := by
  show (g.nodes.set v lx).length = g.nodes.length
  exact List.length_set g.nodes v lx

theorem setNode_self (g : LanguageTree) (v : Nat) (h : v < g.nodes.length) :
    g.setNode v (g.node v) = g := by
  show { g with nodes := g.nodes.set v (g.nodes.getD v Lexis.default) } = g
  rw [list_set_getD_self _ _ _ h]

theorem setNode_setNode (g : LanguageTree) (v : Nat) (x y : Lexis) :
    (g.setNode v x).setNode v y = g.setNode v y := by
  show { g with nodes := (g.nodes.set v x).set v y } = _
  rw [List.set_set]
  rfl

theorem edgeRec_ext_eq {a b : EdgeRec} (h1 : a.src = b.src) (h2 : a.dst = b.dst)
    (h3 : a.te.transforms = b.te.transforms)
    (h4 : a.te.intermediate_word = b.te.intermediate_word)
    (h5 : a.te.agglutination_order = b.te.agglutination_order) : a = b := by
  obtain ⟨s1, d1, t1⟩ := a
  obtain ⟨s2, d2, t2⟩ := b
  obtain ⟨x1, y1, z1⟩ := t1
  obtain ⟨x2, y2, z2⟩ := t2
  simp only at h1 h2 h3 h4 h5
  simp [h1, h2, h3, h4, h5]

theorem setNode_treeStep (g : LanguageTree) (v : Nat) (lx : Lexis) :
    treeStep g (g.setNode v lx) :=
  ⟨setNode_nodes_length g v lx, rfl, rfl, fun _ => ⟨rfl, rfl, rfl, rfl⟩, fun _ _ h => h⟩

theorem setNode_incoming (g : LanguageTree) (v : Nat) (lx : Lexis) (w : Nat) :
    (g.setNode v lx).incoming w = g.incoming w := rfl

theorem setNode_outgoing (g : LanguageTree) (v : Nat) (lx : Lexis) (w : Nat) :
    (g.setNode v lx).outgoing w = g.outgoing w := rfl

theorem setEdgeWord_nodes (g : LanguageTree) (i : Nat) (w : Option Lemma) :
    (g.setEdgeWord i w).nodes = g.nodes := rfl

theorem setEdgeWord_globals (g : LanguageTree) (i : Nat) (w : Option Lemma) :
    (g.setEdgeWord i w).global_transforms = g.global_transforms := rfl

theorem setEdgeWord_edges_length (g : LanguageTree) (i : Nat) (w : Option Lemma) :
    (g.setEdgeWord i w).edges.length = g.edges.length :=
  List.length_set _ _ _

theorem setEdgeWord_edge_ne (g : LanguageTree) (i j : Nat) (w : Option Lemma) (h : j ≠ i) :
    (g.setEdgeWord i w).edge j = g.edge j :=
  list_getD_set_ne _ _ _ _ _ h

theorem setEdgeWord_edge_self (g : LanguageTree) (i : Nat) (w : Option Lemma)
    (h : i < g.edges.length) :
    (g.setEdgeWord i w).edge i =
      { g.edge i with te := { (g.edge i).te with intermediate_word := w } } :=
  list_getD_set_self _ _ _ _ h

theorem setEdgeWord_treeStep (g : LanguageTree) (i : Nat) (w : Option Lemma)
    (hempty : (g.edge i).te.intermediate_word = none) :
    treeStep g (g.setEdgeWord i w) := by
  refine ⟨rfl, setEdgeWord_edges_length g i w, rfl, fun j => ?_, fun j w0 hw0 => ?_⟩
  · by_cases hj : j = i
    · subst hj
      by_cases hlt : j < g.edges.length
      · rw [setEdgeWord_edge_self g j w hlt]
        exact ⟨rfl, rfl, rfl, rfl⟩
      · have : (g.setEdgeWord j w).edge j = g.edge j := by
          show (g.edges.set j _).getD j default = g.edges.getD j default
          rw [list_getD_of_ge _ _ _ (by rw [List.length_set]; omega),
            list_getD_of_ge _ _ _ (by omega)]
        rw [this]
        exact ⟨rfl, rfl, rfl, rfl⟩
    · rw [setEdgeWord_edge_ne g i j w hj]
      exact ⟨rfl, rfl, rfl, rfl⟩
  · by_cases hj : j = i
    · subst hj
      rw [hempty] at hw0
      cases hw0
    · rw [setEdgeWord_edge_ne g i j w hj]
      exact hw0

/-- Under tree evolution, the incoming index list of every node is unchanged, and each
incoming edge record changes at most in its intermediate word. -/
theorem treeStep_incoming_idx {g g' : LanguageTree} (h : treeStep g g') (v : Nat) :
    (g'.incoming v).map Prod.fst = (g.incoming v).map Prod.fst := by
  obtain ⟨_, hel, _, hsk, _⟩ := h
  rw [incoming_eq, incoming_eq, hel]
  rw [List.map_reverse, List.map_reverse, List.map_map, List.map_map]
  have hf : (List.range g.edges.length).filter (fun i => (g'.edge i).dst = v) =
      (List.range g.edges.length).filter (fun i => (g.edge i).dst = v) := by
    refine List.filter_congr ?_
    intro i _
    rw [(hsk i).2.1]
  rw [hf]
  rfl

/-- Under tree evolution, a node whose incoming intermediates are all populated keeps its
incoming edge list exactly. -/
theorem treeStep_incoming_populated {g g' : LanguageTree} (h : treeStep g g') (v : Nat)
    (hpop : ∀ p ∈ g.incoming v, (p.2.te.intermediate_word).isSome = true) :
    g'.incoming v = g.incoming v := by
  obtain ⟨_, hel, _, hsk, hpp⟩ := h
  rw [incoming_eq, incoming_eq, hel]
  have hf : (List.range g.edges.length).filter (fun i => (g'.edge i).dst = v) =
      (List.range g.edges.length).filter (fun i => (g.edge i).dst = v) := by
    refine List.filter_congr ?_
    intro i _
    rw [(hsk i).2.1]
  rw [hf]
  refine congrArg _ (List.map_congr_left ?_)
  intro i hi
  rw [List.mem_filter] at hi
  have hmem : (i, g.edge i) ∈ g.incoming v := by
    rw [incoming_eq, List.mem_reverse, List.mem_map]
    exact ⟨i, List.mem_filter.2 hi, rfl⟩
  have hsome := hpop _ hmem
  obtain ⟨w0, hw0⟩ := Option.isSome_iff_exists.1 hsome
  have hpres := hpp i w0 hw0
  obtain ⟨hsrc, hdst, htr, hagg⟩ := hsk i
  rw [edgeRec_ext_eq hsrc hdst htr (by rw [hpres, hw0]) hagg]

/-- A transform primitive only ever writes the `word` field, and keeps a present word
present. -/
theorem transformFunc_frame (mrep : List Char → List Char → List Char → List Char)
    (rhai : String → Lexis → Except TransformError Lemma)
    (tf : TransformFunc) (lex lex' : Lexis)
    (h : tf.transform mrep rhai lex = .ok lex') :
    lex' = { lex with word := lex'.word } ∧
    (lex.word.isSome = true → lex'.word.isSome = true) := by
  unfold TransformFunc.transform at h
  cases hw : lex.word with
  | none =>
    rw [hw] at h
    cases h
    exact ⟨rfl, fun hs => Bool.noConfusion hs⟩
  | some current =>
    rw [hw] at h
    cases tf with
    | rhaiScript file =>
      simp only [] at h
      cases hr : rhai file lex with
      | ok upd => rw [hr] at h; cases h; exact ⟨rfl, fun _ => rfl⟩
      | error e => rw [hr] at h; cases h
    | letterReplace letter replace => cases h; exact ⟨rfl, fun _ => rfl⟩
    | letterArray letters => cases h; exact ⟨rfl, fun _ => rfl⟩
    | postfixF value => cases h; exact ⟨rfl, fun _ => rfl⟩
    | prefixF value => cases h; exact ⟨rfl, fun _ => rfl⟩
    | loanword => cases h; exact ⟨rfl, fun _ => by rw [hw]; rfl⟩
    | letterRemove letter position => cases h; exact ⟨rfl, fun _ => rfl⟩
    | double letter position => cases h; exact ⟨rfl, fun _ => rfl⟩
    | dedouble letter position => cases h; exact ⟨rfl, fun _ => rfl⟩
    | matchReplace old new => cases h; exact ⟨rfl, fun _ => rfl⟩

/-- A fold of transform primitives only ever writes the `word` field. -/
theorem foldTransformFuncs_frame (mrep : List Char → List Char → List Char → List Char)
    (rhai : String → Lexis → Except TransformError Lemma)
    (tfs : List TransformFunc) : ∀ (lex lex' : Lexis),
    tfs.foldlM (fun l tf => tf.transform mrep rhai l) lex = .ok lex' →
    lex' = { lex with word := lex'.word } ∧
    (lex.word.isSome = true → lex'.word.isSome = true) := by
  induction tfs with
  | nil =>
    intro lex lex' h
    cases h
    exact ⟨rfl, fun hs => hs⟩
  | cons tf rest ih =>
    intro lex lex' h
    rw [List.foldlM_cons] at h
    cases htf : tf.transform mrep rhai lex with
    | error e => rw [htf] at h; cases h
    | ok l1 =>
      rw [htf] at h
      obtain ⟨hfr1, hs1⟩ := transformFunc_frame mrep rhai tf lex l1 htf
      obtain ⟨hfr2, hs2⟩ := ih l1 lex' h
      constructor
      · rw [hfr2, hfr1]
      · exact fun hs => hs2 (hs1 hs)

/-- A global transform only ever writes the `word` field of its target. -/
theorem globalTransform_frame (mrep : List Char → List Char → List Char → List Char)
    (rhai : String → Lexis → Except TransformError Lemma)
    (gt : GlobalTransform) (lex lex' : Lexis) (etys : Option (List Lexis))
    (h : gt.transform mrep rhai lex etys = .ok lex') :
    lex' = { lex with word := lex'.word } ∧
    (lex.word.isSome = true → lex'.word.isSome = true) := by
  dsimp only [GlobalTransform.transform] at h
  split at h
  · exact foldTransformFuncs_frame mrep rhai gt.transforms lex lex' h
  · cases h
    exact ⟨rfl, fun hs => hs⟩

/-- A fold of global transforms only ever writes the `word` field of its target. -/
theorem foldGlobals_frame (mrep : List Char → List Char → List Char → List Char)
    (rhai : String → Lexis → Except TransformError Lemma)
    (gts : List GlobalTransform) (etys : Option (List Lexis)) : ∀ (lex lex' : Lexis),
    gts.foldlM (fun l gt => gt.transform mrep rhai l etys) lex = .ok lex' →
    lex' = { lex with word := lex'.word } ∧
    (lex.word.isSome = true → lex'.word.isSome = true) := by
  induction gts with
  | nil =>
    intro lex lex' h
    cases h
    exact ⟨rfl, fun hs => hs⟩
  | cons gt rest ih =>
    intro lex lex' h
    rw [List.foldlM_cons] at h
    cases hgt : gt.transform mrep rhai lex etys with
    | error e => rw [hgt] at h; cases h
    | ok l1 =>
      rw [hgt] at h
      obtain ⟨hfr1, hs1⟩ := globalTransform_frame mrep rhai gt lex l1 etys hgt
      obtain ⟨hfr2, hs2⟩ := ih l1 lex' h
      constructor
      · rw [hfr2, hfr1]
      · exact fun hs => hs2 (hs1 hs)

/-- collectUpstreams over all-populated edges: count them all, stay ready, and append
every (order, intermediate) pair in order. -/
theorem collect_all_populated (l : List EdgeRec) : ∀ (n : Nat) (ups : List (Int × Lemma)),
    (∀ e ∈ l, (e.te.intermediate_word).isSome = true) →
    collectUpstreams l n ups = (n + l.length, true,
      ups ++ l.map (fun e => (e.te.agglutination_order.getD 0,
        e.te.intermediate_word.getD default))) := by
  induction l with
  | nil => intro n ups _; simp [collectUpstreams]
  | cons e rest ih =>
    intro n ups hpop
    have hs := hpop e (List.mem_cons_self e rest)
    obtain ⟨w, hw⟩ := Option.isSome_iff_exists.1 hs
    unfold collectUpstreams
    rw [hw]
    simp only []
    rw [ih (n + 1) _ (fun x hx => hpop x (List.mem_cons_of_mem e hx))]
    simp [hw]
    omega

/-- collectUpstreams reports ready only when every listed edge is populated. -/
theorem collect_ready_populated (l : List EdgeRec) : ∀ (n k : Nat)
    (ups ups' : List (Int × Lemma)),
    collectUpstreams l n ups = (k, true, ups') →
    ∀ e ∈ l, (e.te.intermediate_word).isSome = true := by
  induction l with
  | nil => intro n k ups ups' _ e he; cases he
  | cons e rest ih =>
    intro n k ups ups' h x hx
    unfold collectUpstreams at h
    cases hw : e.te.intermediate_word with
    | none => rw [hw] at h; cases h
    | some w =>
      rw [hw] at h
      cases hx with
      | head => rw [hw]; rfl
      | tail _ hx' => exact ih (n + 1) k _ ups' h x hx'

/-- collectUpstreams counts at least one edge on a non-empty list. -/
theorem collect_count_pos (l : List EdgeRec) (n : Nat) (ups : List (Int × Lemma))
    (h : l ≠ []) : n < (collectUpstreams l n ups).1 := by
  cases l with
  | nil => exact absurd rfl h
  | cons e rest =>
    unfold collectUpstreams
    cases e.te.intermediate_word with
    | none => simp
    | some w =>
      have : ∀ (l : List EdgeRec) (m : Nat) (u : List (Int × Lemma)),
          m ≤ (collectUpstreams l m u).1 := by
        intro l
        induction l with
        | nil => intro m u; exact Nat.le_refl m
        | cons x xs ih =>
          intro m u
          unfold collectUpstreams
          cases x.te.intermediate_word with
          | none => simp
          | some w' => exact Nat.le_trans (Nat.le_succ m) (ih (m + 1) _)
      exact Nat.lt_of_lt_of_le (Nat.lt_succ_self n) (this rest (n + 1) _)

/-- resolveStep either errors or replaces exactly the resolved node. -/
theorem resolveStep_shape (mrep : List Char → List Char → List Char → List Char)
    (rhai : String → Lexis → Except TransformError Lemma)
    (g : LanguageTree) (v : Nat) (ups : List (Int × Lemma)) (g' : LanguageTree)
    (h : resolveStep mrep rhai g v ups = .ok g') :
    ∃ X, g' = g.setNode v X := by
  dsimp only [resolveStep, LanguageTree.combine_maps_for_lex_idx] at h
  rw [setNode_setNode, setNode_globals] at h
  cases hgl : g.global_transforms with
  | none =>
    rw [hgl] at h
    simp only [] at h
    cases h
    exact ⟨_, rfl⟩
  | some gt =>
    rw [hgl] at h
    simp only [] at h
    dsimp only [applyGlobals] at h
    split at h
    · cases h
      rw [setNode_setNode]
      exact ⟨_, rfl⟩
    · cases h

/-- Transform::transform only ever writes the `word` field, and keeps a present word
present. -/
theorem transform_frame (mrep : List Char → List Char → List Char → List Char)
    (rhai : String → Lexis → Except TransformError Lemma)
    (t : Transform) (lex lex' : Lexis)
    (h : t.transform mrep rhai lex = .ok lex') :
    lex' = { lex with word := lex'.word } ∧
    (lex.word.isSome = true → lex'.word.isSome = true) := by
  dsimp only [Transform.transform, Transform.transform_option] at h
  by_cases hc : (match t.lex_match with
    | some lex_match => lex_match.matches lex
    | none => true) = true
  · rw [if_pos hc] at h
    cases hfold : t.transforms.foldlM (fun lex tf => tf.transform mrep rhai lex) lex with
    | ok l1 =>
      rw [hfold] at h
      simp only [] at h
      cases h
      exact foldTransformFuncs_frame mrep rhai t.transforms lex _ hfold
    | error e =>
      rw [hfold] at h
      simp only [] at h
      cases h
  · rw [if_neg hc] at h
    simp only [] at h
    cases h
    exact ⟨rfl, fun hs => hs⟩

/-- A fold of Transforms (an edge's transform pipeline) only ever writes the `word`
field, and keeps a present word present. -/
theorem applyTransforms_frame (mrep : List Char → List Char → List Char → List Char)
    (rhai : String → Lexis → Except TransformError Lemma)
    (te : TreeEtymology) : ∀ (lex lex' : Lexis),
    te.apply_transforms mrep rhai lex = .ok lex' →
    lex' = { lex with word := lex'.word } ∧
    (lex.word.isSome = true → lex'.word.isSome = true) := by
  unfold TreeEtymology.apply_transforms
  induction te.transforms with
  | nil =>
    intro lex lex' h
    cases h
    exact ⟨rfl, fun hs => hs⟩
  | cons t rest ih =>
    intro lex lex' h
    rw [List.foldlM_cons] at h
    cases ht : t.transform mrep rhai lex with
    | error e => rw [ht] at h; cases h
    | ok l1 =>
      rw [ht] at h
      obtain ⟨hfr1, hs1⟩ := transform_frame mrep rhai t lex l1 ht
      obtain ⟨hfr2, hs2⟩ := ih l1 lex' h
      constructor
      · rw [hfr2, hfr1]
      · exact fun hs => hs2 (hs1 hs)

/-! createStep structure lemmas. -/

/-- createStep either leaves the tree alone or writes a generated word into the node. -/
theorem createStep_cases (gen : String → Option Lemma) (g : LanguageTree) (v : Nat) :
    createStep gen g v = g ∨
    ∃ w, gen ((g.node v).word_create.getD "") = some w ∧ (g.node v).word = none ∧
      createStep gen g v = g.setNode v { g.node v with word := some w } := by
  unfold createStep
  by_cases hc : (g.node v).word_create.isSome = true ∧ (g.node v).word = none
  · rw [if_pos hc]
    cases hg : gen ((g.node v).word_create.getD "") with
    | none => exact Or.inl rfl
    | some w => exact Or.inr ⟨w, rfl, hc.2, rfl⟩
  · rw [if_neg hc]
    exact Or.inl rfl

theorem createStep_node_ne (gen : String → Option Lemma) (g : LanguageTree) (v w : Nat)
    (h : w ≠ v) : (createStep gen g v).node w = g.node w := by
  rcases createStep_cases gen g v with hcs | ⟨x, _, _, hcs⟩
  · rw [hcs]
  · rw [hcs, setNode_node_ne _ _ _ _ h]

theorem createStep_edges (gen : String → Option Lemma) (g : LanguageTree) (v : Nat) :
    (createStep gen g v).edges = g.edges := by
  rcases createStep_cases gen g v with hcs | ⟨x, _, _, hcs⟩
  · rw [hcs]
  · rw [hcs, setNode_edges]

theorem createStep_globals (gen : String → Option Lemma) (g : LanguageTree) (v : Nat) :
    (createStep gen g v).global_transforms = g.global_transforms := by
  rcases createStep_cases gen g v with hcs | ⟨x, _, _, hcs⟩
  · rw [hcs]
  · rw [hcs, setNode_globals]

theorem createStep_nodes_length (gen : String → Option Lemma) (g : LanguageTree) (v : Nat) :
    (createStep gen g v).nodes.length = g.nodes.length := by
  rcases createStep_cases gen g v with hcs | ⟨x, _, _, hcs⟩
  · rw [hcs]
  · rw [hcs, setNode_nodes_length]

theorem createStep_treeStep (gen : String → Option Lemma) (g : LanguageTree) (v : Nat) :
    treeStep g (createStep gen g v) := by
  rcases createStep_cases gen g v with hcs | ⟨x, _, _, hcs⟩
  · rw [hcs]; exact treeStep_refl g
  · rw [hcs]; exact setNode_treeStep g v _

theorem createStep_incoming (gen : String → Option Lemma) (g : LanguageTree) (v w : Nat) :
    (createStep gen g v).incoming w = g.incoming w := by
  rcases createStep_cases gen g v with hcs | ⟨x, _, _, hcs⟩
  · rw [hcs]
  · rw [hcs, setNode_incoming]

theorem createStep_outgoing (gen : String → Option Lemma) (g : LanguageTree) (v w : Nat) :
    (createStep gen g v).outgoing w = g.outgoing w := by
  rcases createStep_cases gen g v with hcs | ⟨x, _, _, hcs⟩
  · rw [hcs]
  · rw [hcs, setNode_outgoing]

/-- createStep is a no-op on a node that already carries a word. -/
theorem createStep_of_some (gen : String → Option Lemma) (g : LanguageTree) (v : Nat)
    (h : ((g.node v).word).isSome = true) : createStep gen g v = g := by
  unfold createStep
  rw [if_neg]
  rintro ⟨-, hnone⟩
  rw [hnone] at h
  cases h

/-- A node index beyond the node list reads as the default Lexis. -/
theorem node_of_ge (g : LanguageTree) (v : Nat) (h : g.nodes.length ≤ v) :
    g.node v = Lexis.default :=
  list_getD_of_ge _ _ _ h

/-- setNode beyond the node list is a no-op. -/
theorem setNode_of_ge (g : LanguageTree) (v : Nat) (lx : Lexis) (h : g.nodes.length ≤ v) :
    g.setNode v lx = g := by
  show { g with nodes := g.nodes.set v lx } = g
  rw [List.set_eq_of_length_le h]

/-- Once a node holds createStep's output value, createStep is a no-op on it (the
generator is a fixed function of the key). -/
theorem createStep_stable (gen : String → Option Lemma) (g g' : LanguageTree) (v : Nat)
    (h : g'.node v = (createStep gen g v).node v) : createStep gen g' v = g' := by
  by_cases hc : (g'.node v).word_create.isSome = true ∧ (g'.node v).word = none
  · -- the guard holds at g'; show the generator returns none for this key
    rcases createStep_cases gen g v with hcs | ⟨w, hw, hword, hcs⟩
    · -- first createStep was a no-op, so g'.node v = g.node v
      rw [hcs] at h
      have hgen : gen ((g'.node v).word_create.getD "") = none := by
        rw [h]
        by_cases hc0 : (g.node v).word_create.isSome = true ∧ (g.node v).word = none
        · cases hg : gen ((g.node v).word_create.getD "") with
          | none => rfl
          | some w =>
            -- the first run would have generated, contradicting that it was a no-op
            exfalso
            have hcs' : createStep gen g v = g := hcs
            unfold createStep at hcs'
            rw [if_pos hc0, hg] at hcs'
            simp only [] at hcs'
            by_cases hlt : v < g.nodes.length
            · have hnode := congrArg (fun t => (t.node v).word) hcs'
              simp only [] at hnode
              rw [setNode_node_self _ _ _ hlt, hc0.2] at hnode
              cases hnode
            · rw [node_of_ge g v (Nat.le_of_not_lt hlt)] at hc0
              cases hc0.1
        · rw [h] at hc
          exact absurd hc hc0
      unfold createStep
      rw [if_pos hc, hgen]
    · -- first createStep generated: the node now holds some word, guard cannot hold
      exfalso
      rw [hcs] at h
      by_cases hlt : v < g.nodes.length
      · rw [setNode_node_self _ _ _ hlt] at h
        have hw2 := hc.2
        rw [h] at hw2
        cases hw2
      · rw [setNode_of_ge g v _ (Nat.le_of_not_lt hlt)] at h
        rw [h, node_of_ge g v (Nat.le_of_not_lt hlt)] at hc
        cases hc.1
  · unfold createStep
    rw [if_neg hc]

theorem setEdgeWord_node (g : LanguageTree) (i : Nat) (w : Option Lemma) (v : Nat) :
    (g.setEdgeWord i w).node v = g.node v := rfl

theorem setEdgeWord_incoming (g : LanguageTree) (i : Nat) (w : Option Lemma) (v : Nat)
    (hpop : ∀ p ∈ g.incoming v, (p.2.te.intermediate_word).isSome = true)
    (hempty : (g.edge i).te.intermediate_word = none) :
    (g.setEdgeWord i w).incoming v = g.incoming v :=
  treeStep_incoming_populated (setEdgeWord_treeStep g i w hempty) v hpop

/-- pure on Except is Ok. -/
theorem epure {ε α : Type} (a : α) : (pure a : Except ε α) = Except.ok a := rfl

/-- bind on an Ok reduces. -/
theorem ebind_ok {ε α β : Type} (a : α) (f : α → Except ε β) :
    (Except.ok a >>= f) = f a := rfl

/-- bind on an error reduces. -/
theorem ebind_error {ε α β : Type} (e : ε) (f : α → Except ε β) :
    ((Except.error e : Except ε α) >>= f) = Except.error e := rfl

/-! trickleEdges structure lemmas. -/

/-- The trickle loop writes only edge intermediates at the listed indices: nodes, the
updated map and all other edges are untouched, and the changes counter never drops. -/
theorem trickle_frame (mrep : List Char → List Char → List Char → List Char)
    (rhai : String → Lexis → Except TransformError Lemma)
    (v : Nat) : ∀ (idxs : List Nat) (s s' : CState),
    trickleEdges mrep rhai v idxs s = .ok s' →
    s'.g.nodes = s.g.nodes ∧ s'.updated = s.updated ∧ s.changes ≤ s'.changes ∧
    treeStep s.g s'.g ∧
    (∀ j, j ∉ idxs → s'.g.edge j = s.g.edge j) ∧
    (∀ j, ((s.g.edge j).te.intermediate_word).isSome = true → s'.g.edge j = s.g.edge j) := by
  intro idxs
  induction idxs with
  | nil =>
    intro s s' h
    cases h
    exact ⟨rfl, rfl, Nat.le_refl _, treeStep_refl _, fun _ _ => rfl, fun _ _ => rfl⟩
  | cons i rest ih =>
    intro s s' h
    unfold trickleEdges at h
    cases hw : (s.g.edge i).te.intermediate_word with
    | some w =>
      rw [hw] at h
      simp only [] at h
      obtain ⟨h1, h2, h3, h4, h5, h6⟩ := ih s s' h
      refine ⟨h1, h2, h3, h4, fun j hj => ?_, h6⟩
      by_cases hji : j = i
      · subst hji
        exact h6 j (by rw [hw]; rfl)
      · exact h5 j (fun hm => hj (List.mem_cons_of_mem _ hm))
    | none =>
      rw [hw] at h
      simp only [] at h
      cases ht : (s.g.edge i).te.apply_transforms mrep rhai (s.g.node v) with
      | error e => rw [ht] at h; cases h
      | ok temp =>
        rw [ht] at h
        simp only [] at h
        obtain ⟨h1, h2, h3, h4, h5, h6⟩ := ih _ s' h
        refine ⟨?_, h2, ?_, ?_, ?_, ?_⟩
        · rw [h1]; exact setEdgeWord_nodes _ _ _
        · exact Nat.le_trans (Nat.le_succ _) h3
        · exact treeStep_trans (setEdgeWord_treeStep s.g i temp.word hw) h4
        · intro j hj
          have hji : j ≠ i := fun he => hj (he ▸ List.mem_cons_self i rest)
          rw [h5 j (fun hm => hj (List.mem_cons_of_mem _ hm))]
          exact setEdgeWord_edge_ne _ _ _ _ hji
        · intro j hp
          have hji : j ≠ i := by
            rintro rfl
            rw [hw] at hp
            cases hp
          have hne : (s.g.setEdgeWord i temp.word).edge j = s.g.edge j :=
            setEdgeWord_edge_ne _ _ _ _ hji
          rw [h6 j (by rw [hne]; exact hp)]
          exact hne

/-- A trickle that reports no change did nothing at all. -/
theorem trickle_changes_eq (mrep : List Char → List Char → List Char → List Char)
    (rhai : String → Lexis → Except TransformError Lemma)
    (v : Nat) : ∀ (idxs : List Nat) (s s' : CState),
    trickleEdges mrep rhai v idxs s = .ok s' → s'.changes = s.changes → s' = s := by
  intro idxs
  induction idxs with
  | nil =>
    intro s s' h _
    cases h
    rfl
  | cons i rest ih =>
    intro s s' h hch
    unfold trickleEdges at h
    cases hw : (s.g.edge i).te.intermediate_word with
    | some w =>
      rw [hw] at h
      simp only [] at h
      exact ih s s' h hch
    | none =>
      rw [hw] at h
      simp only [] at h
      cases ht : (s.g.edge i).te.apply_transforms mrep rhai (s.g.node v) with
      | error e => rw [ht] at h; cases h
      | ok temp =>
        rw [ht] at h
        simp only [] at h
        have hle := (trickle_frame mrep rhai v rest _ s' h).2.2.1
        exfalso
        simp only [] at hle
        omega

/-- After a trickle from a worded node, every listed in-range edge is populated. -/
theorem trickle_fills (mrep : List Char → List Char → List Char → List Char)
    (rhai : String → Lexis → Except TransformError Lemma)
    (v : Nat) : ∀ (idxs : List Nat) (s s' : CState),
    trickleEdges mrep rhai v idxs s = .ok s' →
    ((s.g.node v).word).isSome = true →
    (∀ i ∈ idxs, i < s.g.edges.length) →
    ∀ i ∈ idxs, ((s'.g.edge i).te.intermediate_word).isSome = true := by
  intro idxs
  induction idxs with
  | nil =>
    intro s s' _ _ _ i hi
    cases hi
  | cons i rest ih =>
    intro s s' h hword hbnd j hj
    unfold trickleEdges at h
    cases hw : (s.g.edge i).te.intermediate_word with
    | some w =>
      rw [hw] at h
      simp only [] at h
      cases hj with
      | head =>
        rw [(trickle_frame mrep rhai v rest s s' h).2.2.2.2.2 i (by rw [hw]; rfl)]
        rw [hw]
        rfl
      | tail _ hj' =>
        exact ih s s' h hword (fun x hx => hbnd x (List.mem_cons_of_mem _ hx)) _ hj'
    | none =>
      rw [hw] at h
      simp only [] at h
      cases ht : (s.g.edge i).te.apply_transforms mrep rhai (s.g.node v) with
      | error e => rw [ht] at h; cases h
      | ok temp =>
        rw [ht] at h
        simp only [] at h
        have htw : temp.word.isSome = true :=
          (applyTransforms_frame mrep rhai _ _ _ ht).2 hword
        have hilt : i < s.g.edges.length := hbnd i (List.mem_cons_self i rest)
        cases hj with
        | head =>
          have hpop : ((s.g.setEdgeWord i temp.word).edge i).te.intermediate_word.isSome
              = true := by
            rw [setEdgeWord_edge_self _ _ _ hilt]
            exact htw
          rw [(trickle_frame mrep rhai v rest _ s' h).2.2.2.2.2 i hpop]
          exact hpop
        | tail _ hj' =>
          refine ih _ s' h ?_ ?_ _ hj'
          · rw [setEdgeWord_node]
            exact hword
          · intro x hx
            rw [setEdgeWord_edges_length]
            exact hbnd x (List.mem_cons_of_mem _ hx)

/-! mainStep and processNode equation lemmas. -/

/-- mainStep on a node with incoming edges not all populated: only the generation step
happens. -/
theorem mainStep_eq_notready (gen : String → Option Lemma)
    (mrep : List Char → List Char → List Char → List Char)
    (rhai : String → Lexis → Except TransformError Lemma)
    (s : CState) (v : Nat) (n : Nat) (ups : List (Int × Lemma))
    (hc : collectUpstreams (((createStep gen s.g v).incoming v).map (fun p => p.2)) 0 []
      = (n, false, ups))
    (hn : 0 < n) :
    mainStep gen mrep rhai s v = .ok ⟨createStep gen s.g v, s.updated, s.changes⟩ := by
  unfold mainStep
  dsimp only []
  rw [hc]
  split
  · rename_i hcond
    exact absurd hcond.2 (fun hh => Bool.noConfusion hh)
  · rw [epure, ebind_ok]
    dsimp only []
    split
    · rename_i hcond
      have h0 : n = 0 := hcond.2
      omega
    · rfl

/-- mainStep on a ready node (incoming edges present and all populated): generation,
then resolution, a mark and a counted change. -/
theorem mainStep_eq_resolve (gen : String → Option Lemma)
    (mrep : List Char → List Char → List Char → List Char)
    (rhai : String → Lexis → Except TransformError Lemma)
    (s : CState) (v : Nat) (n : Nat) (ups : List (Int × Lemma)) (g' : LanguageTree)
    (hc : collectUpstreams (((createStep gen s.g v).incoming v).map (fun p => p.2)) 0 []
      = (n, true, ups))
    (hn : 0 < n)
    (hres : resolveStep mrep rhai (createStep gen s.g v) v ups = .ok g') :
    mainStep gen mrep rhai s v = .ok ⟨g', s.updated ++ [v], s.changes + 1⟩ := by
  unfold mainStep
  dsimp only []
  rw [hc]
  split
  · rw [hres, ebind_ok, epure, ebind_ok]
    dsimp only []
    split
    · rename_i hcond
      have h0 : n = 0 := hcond.2
      omega
    · rfl
  · rename_i hcond
    exact absurd ⟨hn, rfl⟩ hcond

/-- mainStep on a ready node whose resolution errors. -/
theorem mainStep_eq_resolve_error (gen : String → Option Lemma)
    (mrep : List Char → List Char → List Char → List Char)
    (rhai : String → Lexis → Except TransformError Lemma)
    (s : CState) (v : Nat) (n : Nat) (ups : List (Int × Lemma)) (e : TransformError)
    (hc : collectUpstreams (((createStep gen s.g v).incoming v).map (fun p => p.2)) 0 []
      = (n, true, ups))
    (hn : 0 < n)
    (hres : resolveStep mrep rhai (createStep gen s.g v) v ups = .error e) :
    mainStep gen mrep rhai s v = .error e := by
  unfold mainStep
  dsimp only []
  rw [hc]
  split
  · rw [hres, ebind_error]
  · rename_i hcond
    exact absurd ⟨hn, rfl⟩ hcond

/-- mainStep on a node with no incoming edges and a word after generation: the lone
mark. -/
theorem mainStep_eq_lone_mark (gen : String → Option Lemma)
    (mrep : List Char → List Char → List Char → List Char)
    (rhai : String → Lexis → Except TransformError Lemma)
    (s : CState) (v : Nat) (rdy : Bool) (ups : List (Int × Lemma))
    (hc : collectUpstreams (((createStep gen s.g v).incoming v).map (fun p => p.2)) 0 []
      = (0, rdy, ups))
    (hword : (((createStep gen s.g v).node v).word).isSome = true) :
    mainStep gen mrep rhai s v
      = .ok ⟨createStep gen s.g v, s.updated ++ [v], s.changes + 1⟩ := by
  unfold mainStep
  dsimp only []
  rw [hc]
  split
  · rename_i hcond
    have h0 : (0 : Nat) > 0 := hcond.1
    omega
  · rw [epure, ebind_ok]
    dsimp only []
    split
    · rfl
    · rename_i hcond
      exact absurd ⟨hword, rfl⟩ hcond

/-- mainStep on a node with no incoming edges and still no word: a full no-op. -/
theorem mainStep_eq_lone_skip (gen : String → Option Lemma)
    (mrep : List Char → List Char → List Char → List Char)
    (rhai : String → Lexis → Except TransformError Lemma)
    (s : CState) (v : Nat) (rdy : Bool) (ups : List (Int × Lemma))
    (hc : collectUpstreams (((createStep gen s.g v).incoming v).map (fun p => p.2)) 0 []
      = (0, rdy, ups))
    (hword : (((createStep gen s.g v).node v).word).isSome = false) :
    mainStep gen mrep rhai s v = .ok ⟨createStep gen s.g v, s.updated, s.changes⟩ := by
  unfold mainStep
  dsimp only []
  rw [hc]
  split
  · rename_i hcond
    have h0 : (0 : Nat) > 0 := hcond.1
    omega
  · rw [epure, ebind_ok]
    dsimp only []
    split
    · rename_i hcond
      have hs : ((createStep gen s.g v).node v).word.isSome = true := hcond.1
      rw [hword] at hs
      cases hs
    · rfl

/-- processNode on an already-updated node goes straight to the trickle loop. -/
theorem processNode_eq_skip (gen : String → Option Lemma)
    (mrep : List Char → List Char → List Char → List Char)
    (rhai : String → Lexis → Except TransformError Lemma)
    (s : CState) (v : Nat) (h : s.updated.contains v = true) :
    processNode gen mrep rhai s v
      = trickleEdges mrep rhai v ((s.g.outgoing v).map (fun p => p.1)) s := by
  unfold processNode
  dsimp only []
  rw [if_pos h, epure, ebind_ok]
  rw [if_pos h]

/-- processNode on a not-yet-updated node runs mainStep, then trickles if the node got
marked. -/
theorem processNode_eq_main (gen : String → Option Lemma)
    (mrep : List Char → List Char → List Char → List Char)
    (rhai : String → Lexis → Except TransformError Lemma)
    (s s' : CState) (v : Nat) (hcon : s.updated.contains v = false)
    (hms : mainStep gen mrep rhai s v = .ok s') :
    processNode gen mrep rhai s v
      = if s'.updated.contains v = true then
          trickleEdges mrep rhai v ((s'.g.outgoing v).map (fun p => p.1)) s'
        else .ok s' := by
  unfold processNode
  dsimp only []
  have hneg : ¬(s.updated.contains v = true) := fun hh => Bool.noConfusion (hcon ▸ hh)
  rw [if_neg hneg, hms, ebind_ok, epure]

/-- processNode on a not-yet-updated node whose mainStep errors. -/
theorem processNode_eq_main_error (gen : String → Option Lemma)
    (mrep : List Char → List Char → List Char → List Char)
    (rhai : String → Lexis → Except TransformError Lemma)
    (s : CState) (v : Nat) (e : TransformError) (hcon : s.updated.contains v = false)
    (hms : mainStep gen mrep rhai s v = .error e) :
    processNode gen mrep rhai s v = .error e := by
  unfold processNode
  dsimp only []
  have hneg : ¬(s.updated.contains v = true) := fun hh => Bool.noConfusion (hcon ▸ hh)
  rw [if_neg hneg, hms, ebind_error]

/-- Under tree evolution a node with no incoming edges keeps having none. -/
theorem treeStep_incoming_nil {g g' : LanguageTree} (h : treeStep g g') (v : Nat)
    (hnil : g.incoming v = []) : g'.incoming v = [] := by
  have hidx := treeStep_incoming_idx h v
  rw [hnil] at hidx
  exact List.map_eq_nil_iff.mp (by rw [hidx]; rfl)

/-- A list always contains its appended last element. -/
theorem contains_append_self (l : List Nat) (v : Nat) : (l ++ [v]).contains v = true := by
  simp

/-- createStep reads only the node it writes: equal node values give equal results at
that node (tree sizes being equal). -/
theorem createStep_node_congr (gen : String → Option Lemma) (g g' : LanguageTree) (v : Nat)
    (hlen : g'.nodes.length = g.nodes.length) (hnode : g'.node v = g.node v) :
    (createStep gen g' v).node v = (createStep gen g v).node v := by
  unfold createStep
  rw [hnode]
  by_cases hc : (g.node v).word_create.isSome = true ∧ (g.node v).word = none
  · rw [if_pos hc, if_pos hc]
    cases hg : gen ((g.node v).word_create.getD "") with
    | none => exact hnode
    | some w =>
      simp only []
      by_cases hlt : v < g.nodes.length
      · rw [setNode_node_self _ _ _ (by rw [hlen]; exact hlt),
          setNode_node_self _ _ _ hlt]
      · rw [setNode_of_ge _ _ _ (by rw [hlen]; exact Nat.le_of_not_lt hlt),
          setNode_of_ge _ _ _ (Nat.le_of_not_lt hlt)]
        exact hnode
  · rw [if_neg hc, if_neg hc]
    exact hnode

/-- The shape of a successful mainStep: graph skeleton kept, only the processed node
written, the updated map at most extended by that node, changes never dropped. -/
theorem mainStep_shape (gen : String → Option Lemma)
    (mrep : List Char → List Char → List Char → List Char)
    (rhai : String → Lexis → Except TransformError Lemma)
    (s s' : CState) (w : Nat)
    (h : mainStep gen mrep rhai s w = .ok s') :
    treeStep s.g s'.g ∧ s'.g.edges = s.g.edges ∧
    (∀ u, u ≠ w → s'.g.node u = s.g.node u) ∧
    (s'.updated = s.updated ∨ s'.updated = s.updated ++ [w]) ∧
    s.changes ≤ s'.changes := by
  rcases hcol : collectUpstreams (((createStep gen s.g w).incoming w).map (fun p => p.2))
      0 [] with ⟨n, rdy, ups⟩
  rcases Nat.eq_zero_or_pos n with hn | hn
  · subst hn
    cases hword : ((createStep gen s.g w).node w).word.isSome with
    | true =>
      rw [mainStep_eq_lone_mark gen mrep rhai s w rdy ups hcol hword] at h
      cases h
      exact ⟨createStep_treeStep gen s.g w, createStep_edges gen s.g w,
        fun u hu => createStep_node_ne gen s.g w u hu, Or.inr rfl, Nat.le_succ _⟩
    | false =>
      rw [mainStep_eq_lone_skip gen mrep rhai s w rdy ups hcol hword] at h
      cases h
      exact ⟨createStep_treeStep gen s.g w, createStep_edges gen s.g w,
        fun u hu => createStep_node_ne gen s.g w u hu, Or.inl rfl, Nat.le_refl _⟩
  · cases rdy with
    | false =>
      rw [mainStep_eq_notready gen mrep rhai s w n ups hcol hn] at h
      cases h
      exact ⟨createStep_treeStep gen s.g w, createStep_edges gen s.g w,
        fun u hu => createStep_node_ne gen s.g w u hu, Or.inl rfl, Nat.le_refl _⟩
    | true =>
      cases hres : resolveStep mrep rhai (createStep gen s.g w) w ups with
      | error e =>
        rw [mainStep_eq_resolve_error gen mrep rhai s w n ups e hcol hn hres] at h
        cases h
      | ok g2 =>
        rw [mainStep_eq_resolve gen mrep rhai s w n ups g2 hcol hn hres] at h
        cases h
        obtain ⟨X, hX⟩ := resolveStep_shape mrep rhai _ w ups g2 hres
        subst hX
        refine ⟨treeStep_trans (createStep_treeStep gen s.g w)
          (setNode_treeStep _ w X), ?_, fun u hu => ?_, Or.inr rfl, Nat.le_succ _⟩
        · rw [setNode_edges, createStep_edges]
        · rw [setNode_node_ne _ _ _ _ hu, createStep_node_ne gen s.g w u hu]

/-- The shape of a successful processNode: graph skeleton kept, only the processed node
written, the updated map at most extended by that node, changes never dropped. -/
theorem processNode_shape (gen : String → Option Lemma)
    (mrep : List Char → List Char → List Char → List Char)
    (rhai : String → Lexis → Except TransformError Lemma)
    (s s' : CState) (w : Nat)
    (h : processNode gen mrep rhai s w = .ok s') :
    treeStep s.g s'.g ∧
    (∀ u, u ≠ w → s'.g.node u = s.g.node u) ∧
    (s'.updated = s.updated ∨ s'.updated = s.updated ++ [w]) ∧
    s.changes ≤ s'.changes := by
  cases hcon : s.updated.contains w with
  | true =>
    rw [processNode_eq_skip gen mrep rhai s w hcon] at h
    obtain ⟨h1, h2, h3, h4, _, _⟩ := trickle_frame mrep rhai w _ s s' h
    refine ⟨h4, fun u _ => ?_, Or.inl h2, h3⟩
    unfold LanguageTree.node
    rw [h1]
  | false =>
    cases hms : mainStep gen mrep rhai s w with
    | error e =>
      rw [processNode_eq_main_error gen mrep rhai s w e hcon hms] at h
      cases h
    | ok s1 =>
      rw [processNode_eq_main gen mrep rhai s s1 w hcon hms] at h
      obtain ⟨ht1, _, hn1, hu1, hc1⟩ := mainStep_shape gen mrep rhai s s1 w hms
      split at h
      · obtain ⟨h1, h2, h3, h4, _, _⟩ := trickle_frame mrep rhai w _ s1 s' h
        refine ⟨treeStep_trans ht1 h4, fun u hu => ?_, ?_, Nat.le_trans hc1 h3⟩
        · have : s'.g.node u = s1.g.node u := by
            unfold LanguageTree.node
            rw [h1]
          rw [this, hn1 u hu]
        · rw [h2]
          exact hu1
      · cases h
        exact ⟨ht1, hn1, hu1, hc1⟩

/-- Membership in an appended singleton with a different last element. -/
theorem contains_append_ne (l : List Nat) (w v : Nat) (hne : v ≠ w)
    (h : (l ++ [w]).contains v = true) : l.contains v = true := by
  rw [List.contains_eq_any_beq] at h ⊢
  simp only [List.any_append, List.any_cons, List.any_nil, Bool.or_false, Bool.or_eq_true,
    beq_iff_eq] at h
  rcases h with h | h
  · simp only [List.any_eq_true, beq_iff_eq] at h ⊢
    exact h
  · exact absurd h hne

/-- The invariant behind C9: a node with no incoming edges carries either its original
value or exactly the value the generation step gives it, and the latter as soon as it is
marked updated. -/
def loneInv (gen : String → Option Lemma) (g0 : LanguageTree) (v : Nat) (s : CState) :
    Prop :=
  s.g.incoming v = [] ∧ s.g.nodes.length = g0.nodes.length ∧
  (s.g.node v = g0.node v ∨ s.g.node v = (createStep gen g0 v).node v) ∧
  (s.updated.contains v = true → s.g.node v = (createStep gen g0 v).node v)

theorem processNode_pres_lone (gen : String → Option Lemma)
    (mrep : List Char → List Char → List Char → List Char)
    (rhai : String → Lexis → Except TransformError Lemma)
    (g0 : LanguageTree) (v : Nat) (s s' : CState) (w : Nat)
    (h : processNode gen mrep rhai s w = .ok s')
    (hinv : loneInv gen g0 v s) :
    loneInv gen g0 v s' ∧
    (w = v → s'.g.node v = (createStep gen g0 v).node v) ∧
    (s.g.node v = (createStep gen g0 v).node v →
      s'.g.node v = (createStep gen g0 v).node v) := by
  obtain ⟨hnil, hlen, hP, hupd⟩ := hinv
  by_cases hwv : w = v
  · subst hwv
    cases hcon : s.updated.contains w with
    | true =>
      rw [processNode_eq_skip gen mrep rhai s w hcon] at h
      obtain ⟨h1, _, _, h4, _, _⟩ := trickle_frame mrep rhai w _ s s' h
      have hnode : ∀ u, s'.g.node u = s.g.node u := fun u => by
        unfold LanguageTree.node
        rw [h1]
      have hQ := hupd hcon
      exact ⟨⟨treeStep_incoming_nil h4 w hnil, by rw [h4.1, hlen],
        Or.inr (by rw [hnode w]; exact hQ), fun _ => by rw [hnode w]; exact hQ⟩,
        fun _ => by rw [hnode w]; exact hQ, fun _ => by rw [hnode w]; exact hQ⟩
    | false =>
      have hcinc : (createStep gen s.g w).incoming w = [] := by
        rw [createStep_incoming]
        exact hnil
      have hcol : collectUpstreams
          (((createStep gen s.g w).incoming w).map (fun p => p.2)) 0 [] = (0, true, []) := by
        rw [hcinc]
        rfl
      have hQ1 : (createStep gen s.g w).node w = (createStep gen g0 w).node w := by
        rcases hP with hp | hp
        · exact createStep_node_congr gen g0 s.g w hlen hp
        · rw [createStep_stable gen g0 s.g w hp]
          exact hp
      cases hms : mainStep gen mrep rhai s w with
      | error e =>
        rw [processNode_eq_main_error gen mrep rhai s w e hcon hms] at h
        cases h
      | ok s1 =>
        have hg1 : s1.g = createStep gen s.g w := by
          cases hword : ((createStep gen s.g w).node w).word.isSome with
          | true =>
            rw [mainStep_eq_lone_mark gen mrep rhai s w true [] hcol hword] at hms
            cases hms
            rfl
          | false =>
            rw [mainStep_eq_lone_skip gen mrep rhai s w true [] hcol hword] at hms
            cases hms
            rfl
        rw [processNode_eq_main gen mrep rhai s s1 w hcon hms] at h
        have hnil1 : s1.g.incoming w = [] := by
          rw [hg1]
          exact hcinc
        have hlen1 : s1.g.nodes.length = g0.nodes.length := by
          rw [hg1, createStep_nodes_length, hlen]
        have hQs1 : s1.g.node w = (createStep gen g0 w).node w := by
          rw [hg1]
          exact hQ1
        split at h
        · obtain ⟨h1, _, _, h4, _, _⟩ := trickle_frame mrep rhai w _ s1 s' h
          have hnode : ∀ u, s'.g.node u = s1.g.node u := fun u => by
            unfold LanguageTree.node
            rw [h1]
          exact ⟨⟨treeStep_incoming_nil h4 w hnil1, by rw [h4.1, hlen1],
            Or.inr (by rw [hnode w]; exact hQs1), fun _ => by rw [hnode w]; exact hQs1⟩,
            fun _ => by rw [hnode w]; exact hQs1, fun _ => by rw [hnode w]; exact hQs1⟩
        · cases h
          exact ⟨⟨hnil1, hlen1, Or.inr hQs1, fun _ => hQs1⟩, fun _ => hQs1, fun _ => hQs1⟩
  · obtain ⟨ht, hn, hu, _⟩ := processNode_shape gen mrep rhai s s' w h
    have hnv : s'.g.node v = s.g.node v := hn v (fun he => hwv he.symm)
    refine ⟨⟨treeStep_incoming_nil ht v hnil, by rw [ht.1, hlen], ?_, ?_⟩,
      fun he => absurd he hwv, fun hq => by rw [hnv]; exact hq⟩
    · rw [hnv]
      exact hP
    · intro hcv
      rw [hnv]
      apply hupd
      rcases hu with hu | hu
      · rw [← hu]
        exact hcv
      · rw [hu] at hcv
        exact contains_append_ne s.updated w v (fun he => hwv he.symm) hcv

theorem passNodes_pres_lone (gen : String → Option Lemma)
    (mrep : List Char → List Char → List Char → List Char)
    (rhai : String → Lexis → Except TransformError Lemma)
    (g0 : LanguageTree) (v : Nat) : ∀ (vs : List Nat) (s s' : CState),
    passNodes gen mrep rhai vs s = .ok s' → loneInv gen g0 v s →
    loneInv gen g0 v s' ∧
    (v ∈ vs → s'.g.node v = (createStep gen g0 v).node v) ∧
    (s.g.node v = (createStep gen g0 v).node v →
      s'.g.node v = (createStep gen g0 v).node v) := by
  intro vs
  induction vs with
  | nil =>
    intro s s' h hi
    cases h
    exact ⟨hi, fun hm => absurd hm (List.not_mem_nil v), fun hq => hq⟩
  | cons w rest ih =>
    intro s s' h hi
    unfold passNodes at h
    cases hpn : processNode gen mrep rhai s w with
    | error e =>
      rw [hpn] at h
      cases h
    | ok s1 =>
      rw [hpn] at h
      simp only [] at h
      obtain ⟨hi1, hQw, hQp⟩ := processNode_pres_lone gen mrep rhai g0 v s s1 w hpn hi
      obtain ⟨hi2, hQrest, hQp2⟩ := ih s1 s' h hi1
      refine ⟨hi2, fun hm => ?_, fun hq => hQp2 (hQp hq)⟩
      rcases List.mem_cons.mp hm with he | hm'
      · exact hQp2 (hQw he.symm)
      · exact hQrest hm'

theorem computeLoop_pres_lone (gen : String → Option Lemma)
    (mrep : List Char → List Char → List Char → List Char)
    (rhai : String → Lexis → Except TransformError Lemma)
    (g0 : LanguageTree) (v : Nat) (hv : v < g0.nodes.length) : ∀ (fuel : Nat)
    (s : CState) (gF : LanguageTree),
    computeLoop gen mrep rhai fuel s = .ok (some gF) → loneInv gen g0 v s →
    gF.node v = (createStep gen g0 v).node v := by
  intro fuel
  induction fuel with
  | zero =>
    intro s gF h _
    exact Option.noConfusion (Except.ok.inj h)
  | succ fuel ih =>
    intro s gF h hi
    unfold computeLoop at h
    cases hp : passOnce gen mrep rhai s with
    | error e =>
      rw [hp] at h
      cases h
    | ok s2 =>
      rw [hp] at h
      simp only [] at h
      have hp' : passNodes gen mrep rhai (List.range s.g.nodes.length)
          ⟨s.g, s.updated, 0⟩ = .ok s2 := hp
      have hi0 : loneInv gen g0 v ⟨s.g, s.updated, 0⟩ := hi
      obtain ⟨hi2, hQin, _⟩ := passNodes_pres_lone gen mrep rhai g0 v _ _ s2 hp' hi0
      have hQ : s2.g.node v = (createStep gen g0 v).node v :=
        hQin (List.mem_range.mpr (by rw [hi.2.1]; exact hv))
      split at h
      · cases h
        exact hQ
      · exact ih s2 gF h hi2

/-- C9 (confirmed): during compute_lexicon, global transforms are applied only inside
the resolution of a node with at least one incoming etymology edge.  A node with no
incoming edges — whether its word was user-supplied or freshly generated — ends any
successful run carrying exactly the value the generation step gives it on the initial
tree, so no GlobalTransform ever modifies it, even when the transform's lex guard
matches it. -/
theorem c9_no_incoming_no_global (gen : String → Option Lemma)
    (mrep : List Char → List Char → List Char → List Char)
    (rhai : String → Lexis → Except TransformError Lemma)
    (fuel : Nat) (g gF : LanguageTree) (v : Nat)
    (hv : v < g.nodes.length) (hinc : g.incoming v = [])
    (hrun : compute_lexicon gen mrep rhai fuel g = .ok (some gF)) :
    gF.node v = (createStep gen g v).node v :=
  computeLoop_pres_lone gen mrep rhai g v hv fuel ⟨g, [], 0⟩ gF hrun
    ⟨hinc, rfl, Or.inl rfl, fun hc => Bool.noConfusion hc⟩

/-- The C9 witness scenario: one lone worded node under a global transform whose guard
matches it and whose primitive would append to its word. -/
def c9wGT : GlobalTransform :=
  { lex_match := LexisMatch.default,
    etymon_match := none,
    transforms := [TransformFunc.postfixF (Lemma.fromStr ['u', 'm'])] }

def c9wG : LanguageTree :=
  { nodes := [{ Lexis.default with word := some (Lemma.fromStr ['k', 'i', 'r']) }],
    edges := [],
    global_transforms := some [c9wGT] }

def c9wOut : LanguageTree :=
  match compute_lexicon noGen idMrep failRhai 2 c9wG with
  | .ok (some t) => t
  | _ => c9wG

/-- Witness for C9: on the concrete one-node tree, the run succeeds and the lone node
keeps its value although the global transform's guard matches it. -/
theorem c9_no_incoming_no_global_witness :
    0 < c9wG.nodes.length ∧ c9wG.incoming 0 = [] ∧
    c9wGT.lex_match.matches (c9wG.node 0) = true ∧
    c9wOut.node 0 = (createStep noGen c9wG 0).node 0 :=
  ⟨by decide, rfl, rfl,
    c9_no_incoming_no_global noGen idMrep failRhai 2 c9wG c9wOut 0 (by decide) rfl rfl⟩

/-! Stability and order of the insertion sort modelling sort_by_key. -/

theorem insKey_perm (x : Int × Lemma) : ∀ l, (insKey x l).Perm (x :: l) := by
  intro l
  induction l with
  | nil => exact List.Perm.refl _
  | cons y ys ih =>
    unfold insKey
    by_cases hxy : x.1 ≤ y.1
    · rw [if_pos hxy]
    · rw [if_neg hxy]
      exact (ih.cons y).trans (List.Perm.swap x y ys)

theorem mem_insKey {z x : Int × Lemma} {l : List (Int × Lemma)} :
    z ∈ insKey x l ↔ z = x ∨ z ∈ l := by
  rw [(insKey_perm x l).mem_iff]
  exact List.mem_cons

theorem insKey_pairwise (x : Int × Lemma) : ∀ l,
    List.Pairwise (fun a b : Int × Lemma => a.1 ≤ b.1) l →
    List.Pairwise (fun a b : Int × Lemma => a.1 ≤ b.1) (insKey x l) := by
  intro l
  induction l with
  | nil => intro _; exact List.pairwise_singleton _ x
  | cons y ys ih =>
    intro hp
    obtain ⟨hy, hys⟩ := List.pairwise_cons.mp hp
    unfold insKey
    by_cases hxy : x.1 ≤ y.1
    · rw [if_pos hxy]
      refine List.pairwise_cons.mpr ⟨?_, hp⟩
      intro z hz
      rcases List.mem_cons.mp hz with rfl | hz'
      · exact hxy
      · exact le_trans hxy (hy z hz')
    · rw [if_neg hxy]
      refine List.pairwise_cons.mpr ⟨?_, ih hys⟩
      intro z hz
      rcases mem_insKey.mp hz with rfl | hz'
      · exact le_of_lt (not_le.mp hxy)
      · exact hy z hz'

theorem insKey_filter (x : Int × Lemma) (k : Int) : ∀ l,
    (insKey x l).filter (fun p => p.1 = k) = (x :: l).filter (fun p => p.1 = k) := by
  intro l
  induction l with
  | nil => rfl
  | cons y ys ih =>
    unfold insKey
    by_cases hxy : x.1 ≤ y.1
    · rw [if_pos hxy]
    · rw [if_neg hxy]
      by_cases hxk : x.1 = k
      · have hyk : ¬(y.1 = k) := fun hyk =>
          absurd (hyk.trans hxk.symm) (ne_of_lt (not_le.mp hxy))
        simp [List.filter_cons, hxk, hyk, ih]
      · simp [List.filter_cons, hxk, ih]

theorem sortByKey_pairwise : ∀ l : List (Int × Lemma),
    List.Pairwise (fun a b : Int × Lemma => a.1 ≤ b.1) (sortByKey l) := by
  intro l
  induction l with
  | nil => exact List.Pairwise.nil
  | cons x xs ih => exact insKey_pairwise x _ ih

theorem sortByKey_perm : ∀ l : List (Int × Lemma), (sortByKey l).Perm l := by
  intro l
  induction l with
  | nil => exact List.Perm.refl _
  | cons x xs ih => exact (insKey_perm x (sortByKey xs)).trans (ih.cons x)

theorem sortByKey_filter (k : Int) : ∀ l : List (Int × Lemma),
    (sortByKey l).filter (fun p => p.1 = k) = l.filter (fun p => p.1 = k) := by
  intro l
  induction l with
  | nil => rfl
  | cons x xs ih =>
    show (insKey x (sortByKey xs)).filter _ = _
    rw [insKey_filter]
    simp only [List.filter_cons, ih]

/-- combine_maps_for_lex_idx characterized as a single node write: the node's metadata
extended by each incoming etymon's metadata in iteration order. -/
theorem combine_char (g : LanguageTree) (v : Nat) :
    g.combine_maps_for_lex_idx v = g.setNode v
      { g.node v with
        historical_metadata := (g.incoming v).foldl
          (fun acc p => extendMeta acc ((g.node p.2.src).historical_metadata))
          (g.node v).historical_metadata } := by
  dsimp only [LanguageTree.combine_maps_for_lex_idx]
  rw [List.foldl_map]

/-- Pointwise-equal fold functions on a list's members give equal folds. -/
theorem foldl_ext_mem {α β : Type} (l : List α) (f g : β → α → β)
    (h : ∀ a ∈ l, ∀ b, f b a = g b a) : ∀ b, l.foldl f b = l.foldl g b := by
  induction l with
  | nil => intro b; rfl
  | cons a t ih =>
    intro b
    show t.foldl f (f b a) = t.foldl g (g b a)
    rw [h a (List.mem_cons_self a t) b]
    exact ih (fun x hx b' => h x (List.mem_cons_of_mem a hx) b') _

/-- resolveStep on a tree without global transforms: a single node write setting the
word to the joined upstreams and folding the incoming etymons' metadata over the node's
own. -/
theorem resolveStep_noglobals (mrep : List Char → List Char → List Char → List Char)
    (rhai : String → Lexis → Except TransformError Lemma)
    (g : LanguageTree) (v : Nat) (ups : List (Int × Lemma))
    (hvlen : v < g.nodes.length)
    (hglob : g.global_transforms = none) :
    resolveStep mrep rhai g v ups = .ok (g.setNode v
      { g.node v with
        word := some (join_string_vectors ups),
        historical_metadata := (g.incoming v).foldl
          (fun acc p => extendMeta acc ((g.node p.2.src).historical_metadata))
          (g.node v).historical_metadata }) := by
  have hstep : resolveStep mrep rhai g v ups =
      (match ((g.setNode v { g.node v with word := some (join_string_vectors ups)
        }).combine_maps_for_lex_idx v).global_transforms with
      | some gt => applyGlobals mrep rhai gt ((g.setNode v { g.node v with
          word := some (join_string_vectors ups) }).combine_maps_for_lex_idx v) v
      | none => .ok ((g.setNode v { g.node v with
          word := some (join_string_vectors ups) }).combine_maps_for_lex_idx v)) := rfl
  rw [hstep, combine_char]
  rw [setNode_globals, setNode_globals, hglob]
  simp only []
  rw [setNode_setNode]
  have hn1 : (g.setNode v { g.node v with word := some (join_string_vectors ups) }).node v
      = { g.node v with word := some (join_string_vectors ups) } :=
    setNode_node_self _ _ _ hvlen
  rw [setNode_incoming, hn1]
  have hfold : (g.incoming v).foldl
      (fun acc p => extendMeta acc
        (((g.setNode v { g.node v with word := some (join_string_vectors ups) }).node
          p.2.src).historical_metadata))
      ({ g.node v with word := some (join_string_vectors ups) } : Lexis).historical_metadata
      = (g.incoming v).foldl
        (fun acc p => extendMeta acc ((g.node p.2.src).historical_metadata))
        (g.node v).historical_metadata := by
    refine foldl_ext_mem _ _ _ ?_ _
    intro p _ acc
    by_cases hsv : p.2.src = v
    · rw [hsv, hn1]
    · rw [setNode_node_ne _ _ _ _ hsv]
  rw [hfold]

/-- C3 (confirmed): when compute_lexicon processes a not-yet-updated node that has
incoming edges, all populated, on a tree without global transforms, the node's word
becomes the concatenation of the incoming intermediates sorted ascending by
agglutination_order (absent orders read as 0); the sort is a permutation that preserves
the relative order of equal keys (stability) — the embedding's insertion sort, which is
extensionally Rust's stable sort_by_key. -/
theorem c3_ready_node_word (gen : String → Option Lemma)
    (mrep : List Char → List Char → List Char → List Char)
    (rhai : String → Lexis → Except TransformError Lemma)
    (s s' : CState) (v : Nat)
    (hvlen : v < s.g.nodes.length)
    (hglob : s.g.global_transforms = none)
    (hcon : s.updated.contains v = false)
    (hne : 0 < (s.g.incoming v).length)
    (hpop : ∀ p ∈ s.g.incoming v, (p.2.te.intermediate_word).isSome = true)
    (h : processNode gen mrep rhai s v = .ok s') :
    ∃ sorted : List (Int × Lemma),
      sortByKey ((s.g.incoming v).map (fun p => (p.2.te.agglutination_order.getD 0,
        p.2.te.intermediate_word.getD default))) = sorted ∧
      List.Pairwise (fun a b : Int × Lemma => a.1 ≤ b.1) sorted ∧
      sorted.Perm ((s.g.incoming v).map (fun p => (p.2.te.agglutination_order.getD 0,
        p.2.te.intermediate_word.getD default))) ∧
      (∀ k : Int, sorted.filter (fun p => p.1 = k)
        = ((s.g.incoming v).map (fun p => (p.2.te.agglutination_order.getD 0,
            p.2.te.intermediate_word.getD default))).filter (fun p => p.1 = k)) ∧
      (s'.g.node v).word
        = some (Lemma.fromTokens ((sorted.map (fun p => p.2.chars)).flatten)) := by
  refine ⟨sortByKey ((s.g.incoming v).map (fun p => (p.2.te.agglutination_order.getD 0,
    p.2.te.intermediate_word.getD default))), rfl, sortByKey_pairwise _, sortByKey_perm _,
    fun k => sortByKey_filter k _, ?_⟩
  have hinc_c : (createStep gen s.g v).incoming v = s.g.incoming v :=
    createStep_incoming gen s.g v v
  have hpop' : ∀ e ∈ (s.g.incoming v).map (fun p => p.2),
      (e.te.intermediate_word).isSome = true := by
    intro e he
    obtain ⟨p, hp, rfl⟩ := List.mem_map.mp he
    exact hpop p hp
  have hcol0 := collect_all_populated ((s.g.incoming v).map (fun p => p.2)) 0 [] hpop'
  have hcol : collectUpstreams
      (((createStep gen s.g v).incoming v).map (fun p => p.2)) 0 []
      = ((s.g.incoming v).length, true,
        (s.g.incoming v).map (fun p => (p.2.te.agglutination_order.getD 0,
          p.2.te.intermediate_word.getD default))) := by
    rw [hinc_c, hcol0]
    simp only [List.nil_append, List.map_map, List.length_map, Nat.zero_add]
    rfl
  have hvlen' : v < (createStep gen s.g v).nodes.length := by
    rw [createStep_nodes_length]
    exact hvlen
  have hglob' : (createStep gen s.g v).global_transforms = none := by
    rw [createStep_globals]
    exact hglob
  have hres := resolveStep_noglobals mrep rhai (createStep gen s.g v) v
    ((s.g.incoming v).map (fun p => (p.2.te.agglutination_order.getD 0,
      p.2.te.intermediate_word.getD default))) hvlen' hglob'
  have hms := mainStep_eq_resolve gen mrep rhai s v _ _ _ hcol hne hres
  rw [processNode_eq_main gen mrep rhai s _ v hcon hms] at h
  rw [if_pos (contains_append_self s.updated v)] at h
  obtain ⟨h1, _, _, _, _, _⟩ := trickle_frame mrep rhai v _ _ s' h
  have hnode : s'.g.node v = ((createStep gen s.g v).setNode v
      { (createStep gen s.g v).node v with
        word := some (join_string_vectors ((s.g.incoming v).map
          (fun p => (p.2.te.agglutination_order.getD 0,
            p.2.te.intermediate_word.getD default)))),
        historical_metadata := ((createStep gen s.g v).incoming v).foldl
          (fun acc p => extendMeta acc
            (((createStep gen s.g v).node p.2.src).historical_metadata))
          ((createStep gen s.g v).node v).historical_metadata }).node v := by
    unfold LanguageTree.node
    rw [h1]
    rfl
  rw [hnode, setNode_node_self _ _ _ hvlen']
  rfl

/-- The C3 witness scenario: two parents whose edges into node 2 are populated, with
agglutination orders 2 and absent (read as 0). -/
def c3wG : LanguageTree :=
  { nodes := [Lexis.default, Lexis.default, Lexis.default],
    edges := [⟨0, 2, ⟨[], some (Lemma.fromStr ['b']), some 2⟩⟩,
      ⟨1, 2, ⟨[], some (Lemma.fromStr ['a']), none⟩⟩],
    global_transforms := none }

def c3wS : CState := ⟨c3wG, [], 0⟩

def c3wS' : CState :=
  match processNode noGen idMrep failRhai c3wS 2 with
  | .ok t => t
  | _ => c3wS

/-- Witness for C3: on the concrete tree the processed node's word is the stable
key-sorted concatenation of the two intermediates. -/
theorem c3_ready_node_word_witness :
    2 < c3wS.g.nodes.length ∧ 0 < (c3wS.g.incoming 2).length ∧
    (∃ sorted : List (Int × Lemma),
      sortByKey ((c3wS.g.incoming 2).map (fun p => (p.2.te.agglutination_order.getD 0,
        p.2.te.intermediate_word.getD default))) = sorted ∧
      List.Pairwise (fun a b : Int × Lemma => a.1 ≤ b.1) sorted ∧
      sorted.Perm ((c3wS.g.incoming 2).map (fun p => (p.2.te.agglutination_order.getD 0,
        p.2.te.intermediate_word.getD default))) ∧
      (∀ k : Int, sorted.filter (fun p => p.1 = k)
        = ((c3wS.g.incoming 2).map (fun p => (p.2.te.agglutination_order.getD 0,
            p.2.te.intermediate_word.getD default))).filter (fun p => p.1 = k)) ∧
      (c3wS'.g.node 2).word
        = some (Lemma.fromTokens ((sorted.map (fun p => p.2.chars)).flatten))) :=
  ⟨by decide, by decide,
    c3_ready_node_word noGen idMrep failRhai c3wS c3wS' 2 (by decide) rfl rfl
      (by decide) (by decide) rfl⟩

/-- combine_maps_for_lex_idx right after the node's word was set: one node write with
both the word and the merged metadata. -/
theorem combine_after_word (g : LanguageTree) (v : Nat) (w : Option Lemma)
    (hvlen : v < g.nodes.length) :
    ((g.setNode v { g.node v with word := w }).combine_maps_for_lex_idx v)
    = g.setNode v
      { g.node v with
        word := w,
        historical_metadata := (g.incoming v).foldl
          (fun acc p => extendMeta acc ((g.node p.2.src).historical_metadata))
          (g.node v).historical_metadata } := by
  rw [combine_char, setNode_setNode, setNode_incoming]
  have hn1 : (g.setNode v { g.node v with word := w }).node v = { g.node v with word := w } :=
    setNode_node_self _ _ _ hvlen
  rw [hn1]
  have hfold : (g.incoming v).foldl
      (fun acc p => extendMeta acc
        (((g.setNode v { g.node v with word := w }).node p.2.src).historical_metadata))
      ({ g.node v with word := w } : Lexis).historical_metadata
      = (g.incoming v).foldl
        (fun acc p => extendMeta acc ((g.node p.2.src).historical_metadata))
        (g.node v).historical_metadata := by
    refine foldl_ext_mem _ _ _ ?_ _
    intro p _ acc
    by_cases hsv : p.2.src = v
    · rw [hsv, hn1]
    · rw [setNode_node_ne _ _ _ _ hsv]
  rw [hfold]

/-- Whatever the global transforms do afterwards, a successful resolveStep gives the
node the merged metadata (its own extended by each incoming etymon's, in iteration
order) and some word. -/
theorem resolveStep_metadata (mrep : List Char → List Char → List Char → List Char)
    (rhai : String → Lexis → Except TransformError Lemma)
    (g : LanguageTree) (v : Nat) (ups : List (Int × Lemma)) (g' : LanguageTree)
    (hvlen : v < g.nodes.length)
    (h : resolveStep mrep rhai g v ups = .ok g') :
    (g'.node v).historical_metadata = (g.incoming v).foldl
      (fun acc p => extendMeta acc ((g.node p.2.src).historical_metadata))
      (g.node v).historical_metadata ∧
    ((g'.node v).word).isSome = true := by
  have hstep : resolveStep mrep rhai g v ups =
      (match ((g.setNode v { g.node v with word := some (join_string_vectors ups)
        }).combine_maps_for_lex_idx v).global_transforms with
      | some gt => applyGlobals mrep rhai gt ((g.setNode v { g.node v with
          word := some (join_string_vectors ups) }).combine_maps_for_lex_idx v) v
      | none => .ok ((g.setNode v { g.node v with
          word := some (join_string_vectors ups) }).combine_maps_for_lex_idx v)) := rfl
  rw [hstep, combine_after_word g v _ hvlen, setNode_globals] at h
  cases hglob0 : g.global_transforms with
  | none =>
    rw [hglob0] at h
    simp only [] at h
    cases h
    rw [setNode_node_self _ _ _ hvlen]
    exact ⟨rfl, rfl⟩
  | some gt =>
    rw [hglob0] at h
    simp only [] at h
    dsimp only [applyGlobals] at h
    split at h
    · rename_i u hfold
      cases h
      obtain ⟨hfr, hs⟩ := foldGlobals_frame mrep rhai gt _ _ u hfold
      rw [setNode_setNode, setNode_node_self _ _ _ hvlen]
      have hL2 : (g.setNode v
          { g.node v with
            word := some (join_string_vectors ups),
            historical_metadata := (g.incoming v).foldl
              (fun acc p => extendMeta acc ((g.node p.2.src).historical_metadata))
              (g.node v).historical_metadata }).node v
          = { g.node v with
              word := some (join_string_vectors ups),
              historical_metadata := (g.incoming v).foldl
                (fun acc p => extendMeta acc ((g.node p.2.src).historical_metadata))
                (g.node v).historical_metadata } := setNode_node_self _ _ _ hvlen
      constructor
      · rw [hfr, hL2]
      · apply hs
        rw [hL2]
        rfl
    · cases h

/-- The last member of the list carrying the key, scanning later members first: the
extensional effect of repeated HashMap::extend. -/
def lastCarry (l : List (String → Option String)) (k : String) : Option String :=
  match l with
  | [] => none
  | a :: t =>
    match lastCarry t k with
    | some v => some v
    | none => a k

/-- A left fold of extendMeta reads, at each key, the last map carrying it, and the
base map only when none does. -/
theorem foldl_extendMeta_char (l : List (String → Option String)) :
    ∀ (m : String → Option String) (k : String),
    (l.foldl extendMeta m) k = match lastCarry l k with
      | some val => some val
      | none => m k := by
  induction l with
  | nil => intro m k; rfl
  | cons a t ih =>
    intro m k
    show (t.foldl extendMeta (extendMeta m a)) k = _
    rw [ih]
    show _ = (match (match lastCarry t k with
      | some v => some v
      | none => a k) with
      | some val => some val
      | none => m k)
    cases hc : lastCarry t k with
    | some val => rfl
    | none =>
      show extendMeta m a k = _
      unfold extendMeta
      cases a k <;> rfl

/-- createStep never touches any node's metadata. -/
theorem createStep_metadata (gen : String → Option Lemma) (g : LanguageTree) (v u : Nat) :
    ((createStep gen g v).node u).historical_metadata = (g.node u).historical_metadata := by
  rcases createStep_cases gen g v with hcs | ⟨w, _, _, hcs⟩
  · rw [hcs]
  · rw [hcs]
    by_cases huv : u = v
    · subst huv
      by_cases hlt : u < g.nodes.length
      · rw [setNode_node_self _ _ _ hlt]
      · rw [setNode_of_ge _ _ _ (Nat.le_of_not_lt hlt)]
    · rw [setNode_node_ne _ _ _ _ huv]

/-- C4 (amended): when compute_lexicon resolves a not-yet-updated node with incoming
edges all populated, the node's historical_metadata becomes its own map extended by
each direct etymon's current metadata in edge-iteration order; at every key the
last-iterated etymon carrying the key wins — over earlier etymons and over the node's
own entry alike — and the node's own value survives only at keys no etymon carries.
Ancestor metadata thus reaches a descendant only through these per-resolution merges
along chains that actually resolve. -/
theorem c4_resolution_metadata (gen : String → Option Lemma)
    (mrep : List Char → List Char → List Char → List Char)
    (rhai : String → Lexis → Except TransformError Lemma)
    (s s' : CState) (v : Nat)
    (hvlen : v < s.g.nodes.length)
    (hcon : s.updated.contains v = false)
    (hne : 0 < (s.g.incoming v).length)
    (hpop : ∀ p ∈ s.g.incoming v, (p.2.te.intermediate_word).isSome = true)
    (h : processNode gen mrep rhai s v = .ok s') :
    (s'.g.node v).historical_metadata = (s.g.incoming v).foldl
      (fun acc p => extendMeta acc ((s.g.node p.2.src).historical_metadata))
      (s.g.node v).historical_metadata ∧
    (∀ k : String, (s'.g.node v).historical_metadata k =
      match lastCarry ((s.g.incoming v).map
          (fun p => (s.g.node p.2.src).historical_metadata)) k with
      | some val => some val
      | none => (s.g.node v).historical_metadata k) := by
  have hinc_c : (createStep gen s.g v).incoming v = s.g.incoming v :=
    createStep_incoming gen s.g v v
  have hpop' : ∀ e ∈ (s.g.incoming v).map (fun p => p.2),
      (e.te.intermediate_word).isSome = true := by
    intro e he
    obtain ⟨p, hp, rfl⟩ := List.mem_map.mp he
    exact hpop p hp
  have hcol0 := collect_all_populated ((s.g.incoming v).map (fun p => p.2)) 0 [] hpop'
  have hcol : collectUpstreams
      (((createStep gen s.g v).incoming v).map (fun p => p.2)) 0 []
      = ((s.g.incoming v).length, true,
        (s.g.incoming v).map (fun p => (p.2.te.agglutination_order.getD 0,
          p.2.te.intermediate_word.getD default))) := by
    rw [hinc_c, hcol0]
    simp only [List.nil_append, List.map_map, List.length_map, Nat.zero_add]
    rfl
  have hvlen' : v < (createStep gen s.g v).nodes.length := by
    rw [createStep_nodes_length]
    exact hvlen
  cases hres : resolveStep mrep rhai (createStep gen s.g v) v
      ((s.g.incoming v).map (fun p => (p.2.te.agglutination_order.getD 0,
        p.2.te.intermediate_word.getD default))) with
  | error e =>
    rw [processNode_eq_main_error gen mrep rhai s v e hcon
      (mainStep_eq_resolve_error gen mrep rhai s v _ _ e hcol hne hres)] at h
    cases h
  | ok g2 =>
    have hms := mainStep_eq_resolve gen mrep rhai s v _ _ _ hcol hne hres
    rw [processNode_eq_main gen mrep rhai s _ v hcon hms] at h
    rw [if_pos (contains_append_self s.updated v)] at h
    obtain ⟨h1, _, _, _, _, _⟩ := trickle_frame mrep rhai v _ _ s' h
    have hnode : s'.g.node v = g2.node v := by
      unfold LanguageTree.node
      rw [h1]
    obtain ⟨hmeta, _⟩ := resolveStep_metadata mrep rhai (createStep gen s.g v) v _ g2
      hvlen' hres
    have hfold_eq : ((createStep gen s.g v).incoming v).foldl
        (fun acc p => extendMeta acc
          (((createStep gen s.g v).node p.2.src).historical_metadata))
        (((createStep gen s.g v).node v).historical_metadata)
        = (s.g.incoming v).foldl
          (fun acc p => extendMeta acc ((s.g.node p.2.src).historical_metadata))
          ((s.g.node v).historical_metadata) := by
      rw [hinc_c, createStep_metadata]
      exact foldl_ext_mem _ _ _ (fun p _ acc => by rw [createStep_metadata]) _
    have hconj1 : (s'.g.node v).historical_metadata = (s.g.incoming v).foldl
        (fun acc p => extendMeta acc ((s.g.node p.2.src).historical_metadata))
        (s.g.node v).historical_metadata := by
      rw [hnode, hmeta, hfold_eq]
    refine ⟨hconj1, fun k => ?_⟩
    rw [hconj1, ← List.foldl_map, foldl_extendMeta_char]

/-- C4 counterexample scenario: a wordless parent with metadata and a child that never
resolves; compute_lexicon still returns Ok with the tree unchanged. -/
def c4ceG : LanguageTree :=
  { nodes := [{ Lexis.default with
      historical_metadata := fun k => if k = "origin" then some "proto" else none },
    Lexis.default],
    edges := [⟨0, 1, ⟨[], none, none⟩⟩],
    global_transforms := none }

/-- C4 counterexample: after a successful compute_lexicon run, the descendant of an
ancestor carrying ("origin" to "proto") holds nothing at "origin" although it never
overrode the key: the merge never happens for a node that never resolves (here the
parent stays wordless, so the edge is never populated and the child is never ready),
refuting the claim's unconditional "for every ancestor A and every descendant D". -/
theorem c4_counterexample_unresolved_descendant :
    compute_lexicon noGen idMrep failRhai 1 c4ceG = .ok (some c4ceG) ∧
    (c4ceG.edge 0).src = 0 ∧ (c4ceG.edge 0).dst = 1 ∧
    (c4ceG.node 0).historical_metadata "origin" = some "proto" ∧
    (c4ceG.node 1).historical_metadata "origin" = none :=
  ⟨rfl, rfl, rfl, rfl, rfl⟩

/-- C4 witness scenario: two parents with metadata and a child with its own entries. -/
def c4wG : LanguageTree :=
  { nodes := [{ Lexis.default with
      historical_metadata := fun k =>
        if k = "origin" then some "proto" else if k = "tone" then some "high" else none },
    { Lexis.default with
      historical_metadata := fun k => if k = "origin" then some "late" else none },
    { Lexis.default with
      historical_metadata := fun k =>
        if k = "origin" then some "own" else if k = "local" then some "yes" else none }],
    edges := [⟨0, 2, ⟨[], some (Lemma.fromStr ['b']), none⟩⟩,
      ⟨1, 2, ⟨[], some (Lemma.fromStr ['a']), none⟩⟩],
    global_transforms := none }

def c4wS : CState := ⟨c4wG, [], 0⟩

def c4wS' : CState :=
  match processNode noGen idMrep failRhai c4wS 2 with
  | .ok t => t
  | _ => c4wS

/-- Witness for C4 (amended): the child's merged metadata takes the last-merged
ancestor's value at contested keys (node 0 is iterated last and overrides both the other
parent and the child's own "origin"), and keeps its own value at uncontested keys. -/
theorem c4_resolution_metadata_witness :
    2 < c4wS.g.nodes.length ∧ 0 < (c4wS.g.incoming 2).length ∧
    ((c4wS'.g.node 2).historical_metadata = (c4wS.g.incoming 2).foldl
      (fun acc p => extendMeta acc ((c4wS.g.node p.2.src).historical_metadata))
      (c4wS.g.node 2).historical_metadata ∧
    (∀ k : String, (c4wS'.g.node 2).historical_metadata k =
      match lastCarry ((c4wS.g.incoming 2).map
          (fun p => (c4wS.g.node p.2.src).historical_metadata)) k with
      | some val => some val
      | none => (c4wS.g.node 2).historical_metadata k)) ∧
    (c4wS'.g.node 2).historical_metadata "origin" = some "proto" ∧
    (c4wS'.g.node 2).historical_metadata "tone" = some "high" ∧
    (c4wS'.g.node 2).historical_metadata "local" = some "yes" :=
  ⟨by decide, by decide,
    c4_resolution_metadata noGen idMrep failRhai c4wS c4wS' 2 (by decide) rfl
      (by decide) (by decide) rfl,
    rfl, rfl, rfl⟩

/-! Helper lemmas towards the idempotence of compute_lexicon (C2). -/

theorem contains_append_left (l : List Nat) (w v : Nat) (h : l.contains v = true) :
    (l ++ [w]).contains v = true := by
  rw [List.contains_eq_any_beq] at h ⊢
  rw [List.any_append, h]
  rfl

theorem contains_append_cases (l : List Nat) (w v : Nat)
    (h : (l ++ [w]).contains v = true) : l.contains v = true ∨ v = w := by
  by_cases hvw : v = w
  · exact Or.inr hvw
  · exact Or.inl (contains_append_ne l w v hvw h)

/-- A trickle over already-populated edges is the identity. -/
theorem trickle_noop (mrep : List Char → List Char → List Char → List Char)
    (rhai : String → Lexis → Except TransformError Lemma)
    (v : Nat) : ∀ (idxs : List Nat) (s : CState),
    (∀ i ∈ idxs, ((s.g.edge i).te.intermediate_word).isSome = true) →
    trickleEdges mrep rhai v idxs s = .ok s := by
  intro idxs
  induction idxs with
  | nil => intro s _; rfl
  | cons i rest ih =>
    intro s hpop
    unfold trickleEdges
    obtain ⟨w, hw⟩ := Option.isSome_iff_exists.1 (hpop i (List.mem_cons_self i rest))
    rw [hw]
    simp only []
    exact ih s (fun j hj => hpop j (List.mem_cons_of_mem _ hj))

/-- Members of the outgoing list are exactly the in-range edges sourced at the node. -/
theorem mem_outgoing {g : LanguageTree} {v : Nat} {p : Nat × EdgeRec}
    (hp : p ∈ g.outgoing v) :
    p.2 = g.edge p.1 ∧ p.1 < g.edges.length ∧ (g.edge p.1).src = v := by
  rw [outgoing_eq, List.mem_reverse, List.mem_map] at hp
  obtain ⟨i, hi, rfl⟩ := hp
  rw [List.mem_filter, List.mem_range] at hi
  exact ⟨rfl, hi.1, of_decide_eq_true hi.2⟩

/-- Members of the incoming list are exactly the in-range edges targeting the node. -/
theorem mem_incoming {g : LanguageTree} {v : Nat} {p : Nat × EdgeRec}
    (hp : p ∈ g.incoming v) :
    p.2 = g.edge p.1 ∧ p.1 < g.edges.length ∧ (g.edge p.1).dst = v := by
  rw [incoming_eq, List.mem_reverse, List.mem_map] at hp
  obtain ⟨i, hi, rfl⟩ := hp
  rw [List.mem_filter, List.mem_range] at hi
  exact ⟨rfl, hi.1, of_decide_eq_true hi.2⟩

/-- Under tree evolution, a node whose outgoing intermediates are all populated keeps
its outgoing edge list exactly. -/
theorem treeStep_outgoing_populated {g g' : LanguageTree} (h : treeStep g g') (v : Nat)
    (hpop : ∀ p ∈ g.outgoing v, (p.2.te.intermediate_word).isSome = true) :
    g'.outgoing v = g.outgoing v := by
  obtain ⟨_, hel, _, hsk, hpp⟩ := h
  rw [outgoing_eq, outgoing_eq, hel]
  have hf : (List.range g.edges.length).filter (fun i => (g'.edge i).src = v) =
      (List.range g.edges.length).filter (fun i => (g.edge i).src = v) := by
    refine List.filter_congr ?_
    intro i _
    rw [(hsk i).1]
  rw [hf]
  refine congrArg _ (List.map_congr_left ?_)
  intro i hi
  rw [List.mem_filter] at hi
  have hmem : (i, g.edge i) ∈ g.outgoing v := by
    rw [outgoing_eq, List.mem_reverse, List.mem_map]
    exact ⟨i, List.mem_filter.2 hi, rfl⟩
  have hsome := hpop _ hmem
  obtain ⟨w0, hw0⟩ := Option.isSome_iff_exists.1 hsome
  have hpres := hpp i w0 hw0
  obtain ⟨hsrc, hdst, htr, hagg⟩ := hsk i
  rw [edgeRec_ext_eq hsrc hdst htr (by rw [hpres, hw0]) hagg]

/-- Field-wise equality of Lexis values. -/
theorem lexis_ext {a b : Lexis} (h1 : a.id = b.id) (h2 : a.word = b.word)
    (h3 : a.language = b.language) (h4 : a.pos = b.pos) (h5 : a.lexis_type = b.lexis_type)
    (h6 : a.definition = b.definition) (h7 : a.archaic = b.archaic) (h8 : a.tags = b.tags)
    (h9 : a.historical_metadata = b.historical_metadata)
    (h10 : a.word_create = b.word_create) : a = b := by
  obtain ⟨a1, a2, a3, a4, a5, a6, a7, a8, a9, a10⟩ := a
  obtain ⟨b1, b2, b3, b4, b5, b6, b7, b8, b9, b10⟩ := b
  simp only at h1 h2 h3 h4 h5 h6 h7 h8 h9 h10
  simp [h1, h2, h3, h4, h5, h6, h7, h8, h9, h10]

/-- Folding extendMeta over the same maps twice is folding once. -/
theorem foldl_extendMeta_idem (mds : List (String → Option String))
    (base : String → Option String) :
    mds.foldl extendMeta (mds.foldl extendMeta base) = mds.foldl extendMeta base := by
  funext k
  rw [foldl_extendMeta_char, foldl_extendMeta_char]
  cases hc : lastCarry mds k with
  | some val => rfl
  | none => rfl

/-- The node-local fact making createStep a no-op: if the node asks for generation and
has no word, the generator has nothing for its key. -/
def noGenFact (gen : String → Option Lemma) (lx : Lexis) : Prop :=
  lx.word_create.isSome = true → lx.word = none → gen (lx.word_create.getD "") = none

theorem createStep_eq_self (gen : String → Option Lemma) (g : LanguageTree) (w : Nat)
    (hf : noGenFact gen (g.node w)) : createStep gen g w = g := by
  unfold createStep
  by_cases hc : (g.node w).word_create.isSome = true ∧ (g.node w).word = none
  · rw [if_pos hc, hf hc.1 hc.2]
  · rw [if_neg hc]

/-- After createStep, the processed node always satisfies the no-generation fact. -/
theorem createStep_noGenFact (gen : String → Option Lemma) (g : LanguageTree) (w : Nat) :
    noGenFact gen ((createStep gen g w).node w) := by
  unfold createStep
  by_cases hc : (g.node w).word_create.isSome = true ∧ (g.node w).word = none
  · rw [if_pos hc]
    cases hg : gen ((g.node w).word_create.getD "") with
    | none =>
      simp only []
      intro _ _
      exact hg
    | some w' =>
      simp only []
      by_cases hlt : w < g.nodes.length
      · rw [setNode_node_self _ _ _ hlt]
        intro _ hnone
        cases hnone
      · rw [setNode_of_ge _ _ _ (Nat.le_of_not_lt hlt),
          node_of_ge _ _ (Nat.le_of_not_lt hlt)]
        intro h1 _
        cases h1
  · rw [if_neg hc]
    intro h1 h2
    exact absurd ⟨h1, h2⟩ hc

/-- The (order, intermediate) pairs a node's resolution joins. -/
def upsOf (g : LanguageTree) (v : Nat) : List (Int × Lemma) :=
  (g.incoming v).map (fun p => (p.2.te.agglutination_order.getD 0,
    p.2.te.intermediate_word.getD default))

theorem createStep_edge (gen : String → Option Lemma) (g : LanguageTree) (v i : Nat) :
    (createStep gen g v).edge i = g.edge i := by
  unfold LanguageTree.edge
  rw [createStep_edges]

/-- The Lexis value resolution writes before global transforms: joined word, merged
metadata. -/
def resolvedLexis (g : LanguageTree) (v : Nat) (ups : List (Int × Lemma)) : Lexis :=
  { g.node v with
    word := some (join_string_vectors ups),
    historical_metadata := (g.incoming v).foldl
      (fun acc p => extendMeta acc ((g.node p.2.src).historical_metadata))
      (g.node v).historical_metadata }

/-- The Lexis value resolution finally stores: resolvedLexis, then the global
transforms folded over it (receiving the direct etymons as seen after the word write). -/
def resolvedValue (mrep : List Char → List Char → List Char → List Char)
    (rhai : String → Lexis → Except TransformError Lemma)
    (g : LanguageTree) (v : Nat) (ups : List (Int × Lemma)) :
    Except TransformError Lexis :=
  match g.global_transforms with
  | none => .ok (resolvedLexis g v ups)
  | some gt => gt.foldlM (fun updating trans => trans.transform mrep rhai updating
      (some ((g.incoming v).map
        (fun p => if p.2.src = v then resolvedLexis g v ups else g.node p.2.src))))
      (resolvedLexis g v ups)

/-- resolveStep is exactly: compute the resolved value and store it at the node. -/
theorem resolveStep_eq_resolvedValue (mrep : List Char → List Char → List Char → List Char)
    (rhai : String → Lexis → Except TransformError Lemma)
    (g : LanguageTree) (v : Nat) (ups : List (Int × Lemma))
    (hvlen : v < g.nodes.length) :
    resolveStep mrep rhai g v ups =
      match resolvedValue mrep rhai g v ups with
      | .ok u => .ok (g.setNode v u)
      | .error e => .error e := by
  have hstep : resolveStep mrep rhai g v ups =
      (match ((g.setNode v { g.node v with word := some (join_string_vectors ups)
        }).combine_maps_for_lex_idx v).global_transforms with
      | some gt => applyGlobals mrep rhai gt ((g.setNode v { g.node v with
          word := some (join_string_vectors ups) }).combine_maps_for_lex_idx v) v
      | none => .ok ((g.setNode v { g.node v with
          word := some (join_string_vectors ups) }).combine_maps_for_lex_idx v)) := rfl
  rw [hstep, combine_after_word g v _ hvlen, setNode_globals]
  unfold resolvedValue resolvedLexis
  cases hglob0 : g.global_transforms with
  | none => rfl
  | some gt =>
    simp only []
    dsimp only [applyGlobals]
    rw [setNode_incoming]
    have hety : (g.incoming v).map (fun p => (g.setNode v
        { g.node v with
          word := some (join_string_vectors ups),
          historical_metadata := (g.incoming v).foldl
            (fun acc p => extendMeta acc ((g.node p.2.src).historical_metadata))
            (g.node v).historical_metadata }).node p.2.src)
        = (g.incoming v).map (fun p => if p.2.src = v then
            { g.node v with
              word := some (join_string_vectors ups),
              historical_metadata := (g.incoming v).foldl
                (fun acc p => extendMeta acc ((g.node p.2.src).historical_metadata))
                (g.node v).historical_metadata }
          else g.node p.2.src) := by
      refine List.map_congr_left ?_
      intro p _
      by_cases hsv : p.2.src = v
      · rw [hsv, if_pos rfl, setNode_node_self _ _ _ hvlen]
      · rw [if_neg hsv, setNode_node_ne _ _ _ _ hsv]
    rw [hety, setNode_node_self _ _ _ hvlen]
    dsimp only []
    split
    · rw [setNode_setNode]
    · rfl

theorem resolvedLexis_congr (g g' : LanguageTree) (v : Nat) (ups : List (Int × Lemma))
    (hnode : g'.node v = g.node v)
    (hinc : g'.incoming v = g.incoming v)
    (hsrcs : ∀ p ∈ g.incoming v, g'.node p.2.src = g.node p.2.src) :
    resolvedLexis g' v ups = resolvedLexis g v ups := by
  unfold resolvedLexis
  rw [hnode, hinc]
  have hfold : (g.incoming v).foldl
      (fun acc p => extendMeta acc ((g'.node p.2.src).historical_metadata))
      ((g.node v).historical_metadata)
      = (g.incoming v).foldl
        (fun acc p => extendMeta acc ((g.node p.2.src).historical_metadata))
        ((g.node v).historical_metadata) :=
    foldl_ext_mem _ _ _ (fun p hp acc => by rw [hsrcs p hp]) _
  rw [hfold]

theorem resolvedValue_congr (mrep : List Char → List Char → List Char → List Char)
    (rhai : String → Lexis → Except TransformError Lemma)
    (g g' : LanguageTree) (v : Nat) (ups : List (Int × Lemma))
    (hglob : g'.global_transforms = g.global_transforms)
    (hnode : g'.node v = g.node v)
    (hinc : g'.incoming v = g.incoming v)
    (hsrcs : ∀ p ∈ g.incoming v, g'.node p.2.src = g.node p.2.src) :
    resolvedValue mrep rhai g' v ups = resolvedValue mrep rhai g v ups := by
  unfold resolvedValue
  rw [hglob, hinc, resolvedLexis_congr g g' v ups hnode hinc hsrcs]
  cases g.global_transforms with
  | none => rfl
  | some gt =>
    simp only []
    have hety : (g.incoming v).map
        (fun p => if p.2.src = v then resolvedLexis g v ups else g'.node p.2.src)
        = (g.incoming v).map
          (fun p => if p.2.src = v then resolvedLexis g v ups else g.node p.2.src) := by
      refine List.map_congr_left ?_
      intro p hp
      by_cases hsv : p.2.src = v
      · rw [if_pos hsv, if_pos hsv]
      · rw [if_neg hsv, if_neg hsv, hsrcs p hp]
    rw [hety]

/-- The idempotence core: storing the resolved value and resolving again yields the
same value (no incoming self-loop; the word is present afterwards). -/
theorem resolvedValue_replay (mrep : List Char → List Char → List Char → List Char)
    (rhai : String → Lexis → Except TransformError Lemma)
    (g : LanguageTree) (v : Nat) (ups : List (Int × Lemma)) (u : Lexis)
    (hvlen : v < g.nodes.length)
    (hnoself : ∀ p ∈ g.incoming v, p.2.src ≠ v)
    (h : resolvedValue mrep rhai g v ups = .ok u) :
    resolvedValue mrep rhai (g.setNode v u) v ups = .ok u ∧ u.word.isSome = true := by
  -- the frame of the stored value: only the word differs from resolvedLexis
  have hframe : u = { resolvedLexis g v ups with word := u.word } ∧
      u.word.isSome = true := by
    unfold resolvedValue at h
    cases hglob0 : g.global_transforms with
    | none =>
      rw [hglob0] at h
      simp only [] at h
      cases h
      exact ⟨rfl, rfl⟩
    | some gt =>
      rw [hglob0] at h
      simp only [] at h
      obtain ⟨hfr, hs⟩ := foldGlobals_frame mrep rhai gt _ _ u h
      exact ⟨hfr, hs (by rfl)⟩
  obtain ⟨hfr, hs⟩ := hframe
  refine ⟨?_, hs⟩
  -- the resolved Lexis recomputed at the updated tree equals the original one
  have hsrcs : ∀ p ∈ g.incoming v, (g.setNode v u).node p.2.src = g.node p.2.src :=
    fun p hp => setNode_node_ne _ _ _ _ (hnoself p hp)
  have hL2 : resolvedLexis (g.setNode v u) v ups = resolvedLexis g v ups := by
    unfold resolvedLexis
    rw [setNode_incoming, setNode_node_self _ _ _ hvlen]
    have hfold : (g.incoming v).foldl
        (fun acc p => extendMeta acc (((g.setNode v u).node p.2.src).historical_metadata))
        (u.historical_metadata)
        = (g.incoming v).foldl
          (fun acc p => extendMeta acc ((g.node p.2.src).historical_metadata))
          (u.historical_metadata) :=
      foldl_ext_mem _ _ _ (fun p hp acc => by rw [hsrcs p hp]) _
    rw [hfold]
    -- u's metadata is already the merged map; merging again is the identity
    have humeta : u.historical_metadata = (g.incoming v).foldl
        (fun acc p => extendMeta acc ((g.node p.2.src).historical_metadata))
        ((g.node v).historical_metadata) := by
      rw [hfr]
      rfl
    have hidem : (g.incoming v).foldl
        (fun acc p => extendMeta acc ((g.node p.2.src).historical_metadata))
        ((g.incoming v).foldl
          (fun acc p => extendMeta acc ((g.node p.2.src).historical_metadata))
          ((g.node v).historical_metadata))
        = (g.incoming v).foldl
          (fun acc p => extendMeta acc ((g.node p.2.src).historical_metadata))
          ((g.node v).historical_metadata) := by
      have hm : ∀ (init : String → Option String),
          (g.incoming v).foldl
            (fun acc p => extendMeta acc ((g.node p.2.src).historical_metadata)) init
          = ((g.incoming v).map
              (fun p => (g.node p.2.src).historical_metadata)).foldl extendMeta init :=
        fun init => (List.foldl_map _ _ _ _).symm
      simp only [hm]
      exact foldl_extendMeta_idem _ _
    rw [humeta, hidem]
    refine lexis_ext ?_ rfl ?_ ?_ ?_ ?_ ?_ ?_ rfl ?_ <;> rw [hfr] <;> rfl
  -- now recompute resolvedValue at the updated tree
  unfold resolvedValue
  rw [setNode_globals, setNode_incoming, hL2]
  unfold resolvedValue at h
  cases hglob0 : g.global_transforms with
  | none =>
    rw [hglob0] at h
    simp only [] at h
    exact h
  | some gt =>
    rw [hglob0] at h
    simp only [] at h
    have hety : (g.incoming v).map
        (fun p => if p.2.src = v then resolvedLexis g v ups
          else (g.setNode v u).node p.2.src)
        = (g.incoming v).map
          (fun p => if p.2.src = v then resolvedLexis g v ups else g.node p.2.src) := by
      refine List.map_congr_left ?_
      intro p hp
      by_cases hsv : p.2.src = v
      · rw [if_pos hsv, if_pos hsv]
      · rw [if_neg hsv, if_neg hsv, hsrcs p hp]
    rw [hety]
    exact h

theorem outgoing_mem_of (g : LanguageTree) (v i : Nat) (hlt : i < g.edges.length)
    (hsrc : (g.edge i).src = v) : (i, g.edge i) ∈ g.outgoing v := by
  rw [outgoing_eq, List.mem_reverse, List.mem_map]
  exact ⟨i, List.mem_filter.2 ⟨List.mem_range.2 hlt, decide_eq_true hsrc⟩, rfl⟩

theorem incoming_congr_edges {g g' : LanguageTree} (h : g'.edges = g.edges) (v : Nat) :
    g'.incoming v = g.incoming v := by
  unfold LanguageTree.incoming
  rw [h]

theorem outgoing_congr_edges {g g' : LanguageTree} (h : g'.edges = g.edges) (v : Nat) :
    g'.outgoing v = g.outgoing v := by
  unfold LanguageTree.outgoing
  rw [h]

theorem edge_congr_edges {g g' : LanguageTree} (h : g'.edges = g.edges) (i : Nat) :
    g'.edge i = g.edge i := by
  unfold LanguageTree.edge
  rw [h]

/-- The state invariant compute_lexicon maintains (starting from a tree with empty
intermediates): updated nodes are in range, worded, have their outgoing edges all
populated and their incoming edges all populated (unless they have none), every
populated edge's source is updated, and every updated node with incoming edges is a
fixpoint of its own resolution. -/
def Inv2 (mrep : List Char → List Char → List Char → List Char)
    (rhai : String → Lexis → Except TransformError Lemma) (s : CState) : Prop :=
  (∀ v, s.updated.contains v = true → v < s.g.nodes.length) ∧
  (∀ v, s.updated.contains v = true → ((s.g.node v).word).isSome = true) ∧
  (∀ v, s.updated.contains v = true →
    ∀ p ∈ s.g.outgoing v, ((p.2.te.intermediate_word)).isSome = true) ∧
  (∀ i, ((s.g.edge i).te.intermediate_word).isSome = true →
    s.updated.contains (s.g.edge i).src = true) ∧
  (∀ v, s.updated.contains v = true →
    ∀ p ∈ s.g.incoming v, ((p.2.te.intermediate_word)).isSome = true) ∧
  (∀ v, s.updated.contains v = true → s.g.incoming v ≠ [] →
    resolvedValue mrep rhai s.g v (upsOf s.g v) = .ok (s.g.node v))

/-- Trickling the outgoing edges of a freshly marked node from a tree that changed only
at that node preserves the invariant. -/
theorem trickle_post_inv2 (mrep : List Char → List Char → List Char → List Char)
    (rhai : String → Lexis → Except TransformError Lemma)
    (s s' : CState) (w : Nat) (g2 : LanguageTree)
    (hinv : Inv2 mrep rhai s)
    (hcon : s.updated.contains w = false)
    (hwlen : w < s.g.nodes.length)
    (hedges : g2.edges = s.g.edges)
    (hnode_ne : ∀ u, u ≠ w → g2.node u = s.g.node u)
    (hlen2 : g2.nodes.length = s.g.nodes.length)
    (hglob2 : g2.global_transforms = s.g.global_transforms)
    (hwword : ((g2.node w).word).isSome = true)
    (hwH : ∀ p ∈ g2.incoming w, ((p.2.te.intermediate_word)).isSome = true)
    (hwF : g2.incoming w ≠ [] →
      resolvedValue mrep rhai g2 w (upsOf g2 w) = .ok (g2.node w))
    (h : trickleEdges mrep rhai w ((g2.outgoing w).map (fun p => p.1))
      ⟨g2, s.updated ++ [w], s.changes + 1⟩ = .ok s') :
    Inv2 mrep rhai s' := by
  obtain ⟨ht1, ht2, ht3, ht4, ht5, ht6⟩ := trickle_frame mrep rhai w _ _ s' h
  obtain ⟨hB, hC, hD, hE, hH, hF⟩ := hinv
  have ht1' : s'.g.nodes = g2.nodes := ht1
  have ht4' : treeStep g2 s'.g := ht4
  have ht5' : ∀ j, j ∉ (g2.outgoing w).map (fun p => p.1) → s'.g.edge j = g2.edge j := ht5
  have ht6' : ∀ j, ((g2.edge j).te.intermediate_word).isSome = true →
      s'.g.edge j = g2.edge j := ht6
  -- basic translations
  have hnodes : ∀ u, s'.g.node u = g2.node u := fun u => by
    unfold LanguageTree.node
    rw [ht1']
  have hupd : s'.updated = s.updated ++ [w] := ht2
  have hlen' : s'.g.nodes.length = s.g.nodes.length := by
    rw [show s'.g.nodes.length = g2.nodes.length from by rw [ht1'], hlen2]
  -- the composite evolution s.g to s'.g
  have hstep2 : treeStep s.g g2 := by
    refine ⟨hlen2, by rw [hedges], hglob2, fun i => ?_, fun i w0 hw0 => ?_⟩
    · rw [edge_congr_edges hedges]
      exact ⟨rfl, rfl, rfl, rfl⟩
    · rw [edge_congr_edges hedges]
      exact hw0
  have hts : treeStep s.g s'.g := treeStep_trans hstep2 ht4'
  -- populated-at-s edges are unchanged through the trickle
  have hpres : ∀ i, ((s.g.edge i).te.intermediate_word).isSome = true →
      s'.g.edge i = s.g.edge i := fun i hi => by
    rw [ht6' i (by rw [edge_congr_edges hedges]; exact hi), edge_congr_edges hedges]
  -- a newly populated edge got filled by this trickle, so its source is w
  have hnew : ∀ i, ((s'.g.edge i).te.intermediate_word).isSome = true →
      ((s.g.edge i).te.intermediate_word).isSome = true ∨ (s.g.edge i).src = w := by
    intro i hi
    by_cases hold : ((s.g.edge i).te.intermediate_word).isSome = true
    · exact Or.inl hold
    · refine Or.inr ?_
      by_cases hmem : i ∈ (g2.outgoing w).map (fun p => p.1)
      · rw [List.mem_map] at hmem
        obtain ⟨p, hp, rfl⟩ := hmem
        obtain ⟨_, _, hsrc⟩ := mem_outgoing hp
        rw [← edge_congr_edges hedges]
        exact hsrc
      · exfalso
        rw [ht5' i hmem] at hi
        rw [edge_congr_edges hedges] at hi
        exact hold hi
  -- incoming lists of updated nodes are frozen
  have hinc_frozen : ∀ u, s.updated.contains u = true →
      s'.g.incoming u = s.g.incoming u :=
    fun u hu => treeStep_incoming_populated hts u (hH u hu)
  have hout_frozen : ∀ u, s.updated.contains u = true →
      s'.g.outgoing u = s.g.outgoing u :=
    fun u hu => treeStep_outgoing_populated hts u (hD u hu)
  -- nodes other than w are untouched
  have hnode_old : ∀ u, u ≠ w → s'.g.node u = s.g.node u := fun u hu => by
    rw [hnodes u, hnode_ne u hu]
  have hwne : ∀ u, s.updated.contains u = true → u ≠ w := fun u hu he => by
    rw [he, hcon] at hu
    cases hu
  -- the incoming edges of w keep their records
  have hincw : s'.g.incoming w = g2.incoming w :=
    treeStep_incoming_populated ht4' w hwH
  refine ⟨?_, ?_, ?_, ?_, ?_, ?_⟩
  · -- B: range
    intro v hv
    rw [hupd] at hv
    rcases contains_append_cases _ _ _ hv with hv | rfl
    · rw [hlen']
      exact hB v hv
    · rw [hlen']
      exact hwlen
  · -- C: words
    intro v hv
    rw [hupd] at hv
    rcases contains_append_cases _ _ _ hv with hv | rfl
    · rw [hnode_old v (hwne v hv)]
      exact hC v hv
    · rw [hnodes v]
      exact hwword
  · -- D: outgoing populated
    intro v hv p hp
    rw [hupd] at hv
    rcases contains_append_cases _ _ _ hv with hv | rfl
    · rw [hout_frozen v hv] at hp
      exact hD v hv p hp
    · -- the freshly trickled node: every outgoing edge is now populated
      obtain ⟨hp2, hp1, hpsrc⟩ := mem_outgoing hp
      have hg2lt : p.1 < g2.edges.length := by
        rw [← ht4'.2.1]
        exact hp1
      have hg2src : (g2.edge p.1).src = v := by
        have hsame := (ht4'.2.2.2.1 p.1).1
        rw [hsame] at hpsrc
        exact hpsrc
      have hfill := trickle_fills mrep rhai v ((g2.outgoing v).map (fun q => q.1))
        _ s' h (by rw [show (⟨g2, s.updated ++ [v], s.changes + 1⟩ : CState).g.node v
          = g2.node v from rfl]; exact hwword)
        (fun i hi => by
          rw [List.mem_map] at hi
          obtain ⟨q, hq, rfl⟩ := hi
          exact (mem_outgoing hq).2.1)
        p.1 (List.mem_map.2 ⟨(p.1, g2.edge p.1), outgoing_mem_of g2 v p.1 hg2lt hg2src, rfl⟩)
      rw [hp2]
      exact hfill
  · -- E: populated edges have updated sources
    intro i hi
    rw [hupd]
    rcases hnew i hi with hold | hsrc
    · have := hE i hold
      have hsame : (s'.g.edge i).src = (s.g.edge i).src := (hts.2.2.2.1 i).1
      rw [hsame]
      exact contains_append_left _ _ _ this
    · have hsame : (s'.g.edge i).src = (s.g.edge i).src := (hts.2.2.2.1 i).1
      rw [hsame, hsrc]
      exact contains_append_self _ _
  · -- H: incoming populated
    intro v hv p hp
    rw [hupd] at hv
    rcases contains_append_cases _ _ _ hv with hv | rfl
    · rw [hinc_frozen v hv] at hp
      exact hH v hv p hp
    · rw [hincw] at hp
      exact hwH p hp
  · -- F: resolution fixpoints
    intro v hv hvne
    rw [hupd] at hv
    rcases contains_append_cases _ _ _ hv with hv | rfl
    · -- an old updated node: everything it reads is frozen
      have hFold := hF v hv (by
        intro hnil
        rw [hinc_frozen v hv] at hvne
        exact hvne hnil)
      have hsrcs : ∀ p ∈ s.g.incoming v, s'.g.node p.2.src = s.g.node p.2.src := by
        intro p hp
        have hpop := hH v hv p hp
        obtain ⟨hp2, hp1, _⟩ := mem_incoming hp
        have : s.updated.contains (s.g.edge p.1).src = true := by
          apply hE
          rw [← hp2]
          exact hpop
        rw [hp2]
        exact hnode_old _ (hwne _ this)
      have hcongr := resolvedValue_congr mrep rhai s.g s'.g v (upsOf s.g v)
        (by rw [hts.2.2.1]) (hnode_old v (hwne v hv)) (hinc_frozen v hv) hsrcs
      have hups : upsOf s'.g v = upsOf s.g v := by
        unfold upsOf
        rw [hinc_frozen v hv]
      rw [hups, hcongr, hFold, hnode_old v (hwne v hv)]
    · -- the fresh node
      have hvne2 : g2.incoming v ≠ [] := by
        rw [← hincw]
        exact hvne
      have hFnew := hwF hvne2
      have hsrcs : ∀ p ∈ g2.incoming v, s'.g.node p.2.src = g2.node p.2.src := by
        intro p hp
        have hpop := hwH p hp
        obtain ⟨hp2, hp1, _⟩ := mem_incoming hp
        have hsrcupd : s.updated.contains (s.g.edge p.1).src = true := by
          apply hE
          rw [← edge_congr_edges hedges, ← hp2]
          exact hpop
        have hsrcne : (g2.edge p.1).src ≠ v := by
          rw [edge_congr_edges hedges]
          exact hwne _ hsrcupd
        rw [hp2]
        rw [hnode_old _ hsrcne, hnode_ne _ hsrcne]
      have hcongr := resolvedValue_congr mrep rhai g2 s'.g v (upsOf g2 v)
        (by rw [hts.2.2.1, hglob2]) (hnodes v) hincw hsrcs
      have hups : upsOf s'.g v = upsOf g2 v := by
        unfold upsOf
        rw [hincw]
      rw [hups, hcongr, hFnew, hnodes v]

/-- processNode preserves the compute_lexicon invariant. -/
theorem processNode_inv2 (gen : String → Option Lemma)
    (mrep : List Char → List Char → List Char → List Char)
    (rhai : String → Lexis → Except TransformError Lemma)
    (s s' : CState) (w : Nat)
    (hwlen : w < s.g.nodes.length)
    (h : processNode gen mrep rhai s w = .ok s')
    (hinv : Inv2 mrep rhai s) : Inv2 mrep rhai s' := by
  obtain ⟨hB, hC, hD, hE, hH, hF⟩ := hinv
  cases hcon : s.updated.contains w with
  | true =>
    rw [processNode_eq_skip gen mrep rhai s w hcon] at h
    rw [trickle_noop mrep rhai w _ s (by
      intro i hi
      obtain ⟨p, hp, rfl⟩ := List.mem_map.mp hi
      obtain ⟨hp2, _, _⟩ := mem_outgoing hp
      rw [← hp2]
      exact hD w hcon p hp)] at h
    cases h
    exact ⟨hB, hC, hD, hE, hH, hF⟩
  | false =>
    have hgcinc : ∀ u, (createStep gen s.g w).incoming u = s.g.incoming u :=
      createStep_incoming gen s.g w
    have hvlen' : w < (createStep gen s.g w).nodes.length := by
      rw [createStep_nodes_length]
      exact hwlen
    by_cases hinc : s.g.incoming w = []
    · -- no incoming edges: at most the generation step and a lone mark happen
      have hcol : collectUpstreams
          (((createStep gen s.g w).incoming w).map (fun p => p.2)) 0 []
          = (0, true, []) := by
        rw [hgcinc, hinc]
        rfl
      cases hword : (((createStep gen s.g w).node w).word).isSome with
      | false =>
        have hgc : createStep gen s.g w = s.g := by
          rcases createStep_cases gen s.g w with hcs | ⟨x, hx, hword0, hcs⟩
          · exact hcs
          · exfalso
            rw [hcs, setNode_node_self _ _ _ hwlen] at hword
            cases hword
        have hms := mainStep_eq_lone_skip gen mrep rhai s w true [] hcol hword
        rw [processNode_eq_main gen mrep rhai s _ w hcon hms] at h
        rw [if_neg (fun hh => Bool.noConfusion (hcon ▸ hh))] at h
        cases h
        rw [hgc]
        exact ⟨hB, hC, hD, hE, hH, hF⟩
      | true =>
        have hms := mainStep_eq_lone_mark gen mrep rhai s w true [] hcol hword
        rw [processNode_eq_main gen mrep rhai s _ w hcon hms] at h
        rw [if_pos (contains_append_self s.updated w)] at h
        exact trickle_post_inv2 mrep rhai s s' w (createStep gen s.g w)
          ⟨hB, hC, hD, hE, hH, hF⟩ hcon hwlen
          (createStep_edges gen s.g w)
          (fun u hu => createStep_node_ne gen s.g w u hu)
          (createStep_nodes_length gen s.g w)
          (createStep_globals gen s.g w)
          hword
          (by rw [hgcinc, hinc]; intro p hp; cases hp)
          (fun hne => absurd (by rw [hgcinc, hinc] : (createStep gen s.g w).incoming w = []) hne)
          h
    · by_cases hready : ∀ p ∈ s.g.incoming w, ((p.2.te.intermediate_word)).isSome = true
      · -- ready: the node resolves
        have hpop' : ∀ e ∈ (s.g.incoming w).map (fun p => p.2),
            (e.te.intermediate_word).isSome = true := by
          intro e he
          obtain ⟨p, hp, rfl⟩ := List.mem_map.mp he
          exact hready p hp
        have hcol0 := collect_all_populated ((s.g.incoming w).map (fun p => p.2)) 0 [] hpop'
        have hcol : collectUpstreams
            (((createStep gen s.g w).incoming w).map (fun p => p.2)) 0 []
            = ((s.g.incoming w).length, true,
              (s.g.incoming w).map (fun p => (p.2.te.agglutination_order.getD 0,
                p.2.te.intermediate_word.getD default))) := by
          rw [hgcinc, hcol0]
          simp only [List.nil_append, List.map_map, List.length_map, Nat.zero_add]
          rfl
        have hne0 : 0 < (s.g.incoming w).length := List.length_pos.2 hinc
        have hnoself : ∀ p ∈ (createStep gen s.g w).incoming w, p.2.src ≠ w := by
          rw [hgcinc]
          intro p hp hsrceq
          obtain ⟨hp2, hp1, _⟩ := mem_incoming hp
          have hupd := hE p.1 (by rw [← hp2]; exact hready p hp)
          rw [← hp2, hsrceq, hcon] at hupd
          cases hupd
        cases hrv : resolvedValue mrep rhai (createStep gen s.g w) w
            ((s.g.incoming w).map (fun p => (p.2.te.agglutination_order.getD 0,
              p.2.te.intermediate_word.getD default))) with
        | error e =>
          have hres : resolveStep mrep rhai (createStep gen s.g w) w
              ((s.g.incoming w).map (fun p => (p.2.te.agglutination_order.getD 0,
                p.2.te.intermediate_word.getD default))) = .error e := by
            rw [resolveStep_eq_resolvedValue mrep rhai _ w _ hvlen', hrv]
          rw [processNode_eq_main_error gen mrep rhai s w e hcon
            (mainStep_eq_resolve_error gen mrep rhai s w _ _ e hcol hne0 hres)] at h
          cases h
        | ok u =>
          have hres : resolveStep mrep rhai (createStep gen s.g w) w
              ((s.g.incoming w).map (fun p => (p.2.te.agglutination_order.getD 0,
                p.2.te.intermediate_word.getD default)))
              = .ok ((createStep gen s.g w).setNode w u) := by
            rw [resolveStep_eq_resolvedValue mrep rhai _ w _ hvlen', hrv]
          have hms := mainStep_eq_resolve gen mrep rhai s w _ _ _ hcol hne0 hres
          rw [processNode_eq_main gen mrep rhai s _ w hcon hms] at h
          rw [if_pos (contains_append_self s.updated w)] at h
          obtain ⟨hrep, huword⟩ := resolvedValue_replay mrep rhai (createStep gen s.g w)
            w _ u hvlen' hnoself hrv
          have hg2inc : ((createStep gen s.g w).setNode w u).incoming w
              = s.g.incoming w := by
            rw [setNode_incoming, hgcinc]
          refine trickle_post_inv2 mrep rhai s s' w ((createStep gen s.g w).setNode w u)
            ⟨hB, hC, hD, hE, hH, hF⟩ hcon hwlen
            (by rw [setNode_edges, createStep_edges])
            (fun u' hu' => by
              rw [setNode_node_ne _ _ _ _ hu', createStep_node_ne gen s.g w u' hu'])
            (by rw [setNode_nodes_length, createStep_nodes_length])
            (by rw [setNode_globals, createStep_globals])
            (by rw [setNode_node_self _ _ _ hvlen']; exact huword)
            (by rw [hg2inc]; exact hready)
            (fun hne => ?_) h
          have hups : upsOf ((createStep gen s.g w).setNode w u) w
              = (s.g.incoming w).map (fun p => (p.2.te.agglutination_order.getD 0,
                p.2.te.intermediate_word.getD default)) := by
            unfold upsOf
            rw [hg2inc]
          rw [hups, setNode_node_self _ _ _ hvlen']
          exact hrep
      · -- not ready: nothing happens beyond the generation step
        rcases hcoltup : collectUpstreams
            (((createStep gen s.g w).incoming w).map (fun p => p.2)) 0 [] with ⟨n, rdy, ups0⟩
        cases rdy with
        | true =>
          exfalso
          apply hready
          intro p hp
          have := collect_ready_populated _ _ _ _ _ hcoltup p.2
            (by rw [hgcinc]; exact List.mem_map.2 ⟨p, hp, rfl⟩)
          exact this
        | false =>
          have hlne : ((createStep gen s.g w).incoming w).map (fun p => p.2) ≠ [] := by
            rw [hgcinc]
            intro hnil
            exact hinc (List.map_eq_nil_iff.mp hnil)
          have hn : 0 < n := by
            have := collect_count_pos (((createStep gen s.g w).incoming w).map
              (fun p => p.2)) 0 [] hlne
            rw [hcoltup] at this
            exact this
          have hms := mainStep_eq_notready gen mrep rhai s w n ups0 hcoltup hn
          rw [processNode_eq_main gen mrep rhai s _ w hcon hms] at h
          rw [if_neg (fun hh => Bool.noConfusion (hcon ▸ hh))] at h
          cases h
          have hwne : ∀ u, s.updated.contains u = true → u ≠ w := fun u hu he => by
            rw [he, hcon] at hu
            cases hu
          refine ⟨?_, ?_, ?_, ?_, ?_, ?_⟩
          · intro v hv
            rw [show ((⟨createStep gen s.g w, s.updated, s.changes⟩ : CState).g.nodes.length)
              = s.g.nodes.length from createStep_nodes_length gen s.g w]
            exact hB v hv
          · intro v hv
            rw [show ((⟨createStep gen s.g w, s.updated, s.changes⟩ : CState).g.node v)
              = s.g.node v from createStep_node_ne gen s.g w v (hwne v hv)]
            exact hC v hv
          · intro v hv p hp
            rw [show ((⟨createStep gen s.g w, s.updated, s.changes⟩ : CState).g.outgoing v)
              = s.g.outgoing v from createStep_outgoing gen s.g w v] at hp
            exact hD v hv p hp
          · intro i hi
            rw [show ((⟨createStep gen s.g w, s.updated, s.changes⟩ : CState).g.edge i)
              = s.g.edge i from createStep_edge gen s.g w i] at hi ⊢
            exact hE i hi
          · intro v hv p hp
            rw [show ((⟨createStep gen s.g w, s.updated, s.changes⟩ : CState).g.incoming v)
              = s.g.incoming v from hgcinc v] at hp
            exact hH v hv p hp
          · intro v hv hvne
            rw [show ((⟨createStep gen s.g w, s.updated, s.changes⟩ : CState).g.incoming v)
              = s.g.incoming v from hgcinc v] at hvne
            have hsrcs : ∀ p ∈ s.g.incoming v,
                (createStep gen s.g w).node p.2.src = s.g.node p.2.src := by
              intro p hp
              have hpop := hH v hv p hp
              obtain ⟨hp2, hp1, _⟩ := mem_incoming hp
              have hsu := hE p.1 (by rw [← hp2]; exact hpop)
              rw [hp2]
              exact createStep_node_ne gen s.g w _ (hwne _ hsu)
            have hcongr := resolvedValue_congr mrep rhai s.g (createStep gen s.g w) v
              (upsOf s.g v) (createStep_globals gen s.g w)
              (createStep_node_ne gen s.g w v (hwne v hv)) (hgcinc v) hsrcs
            have hups : upsOf (createStep gen s.g w) v = upsOf s.g v := by
              unfold upsOf
              rw [hgcinc]
            show resolvedValue mrep rhai (createStep gen s.g w) v
              (upsOf (createStep gen s.g w) v)
              = .ok ((createStep gen s.g w).node v)
            rw [hups, hcongr, createStep_node_ne gen s.g w v (hwne v hv)]
            exact hF v hv hvne

/-- The shape of a successful pass: skeleton kept, untouched nodes preserved, changes
monotone, the updated map only grows and only by processed nodes. -/
theorem passNodes_shape (gen : String → Option Lemma)
    (mrep : List Char → List Char → List Char → List Char)
    (rhai : String → Lexis → Except TransformError Lemma) :
    ∀ (vs : List Nat) (s s' : CState),
    passNodes gen mrep rhai vs s = .ok s' →
    treeStep s.g s'.g ∧ (∀ u, u ∉ vs → s'.g.node u = s.g.node u) ∧
    s.changes ≤ s'.changes ∧
    (∀ u, s.updated.contains u = true → s'.updated.contains u = true) ∧
    (∀ u, s'.updated.contains u = true → s.updated.contains u = true ∨ u ∈ vs) := by
  intro vs
  induction vs with
  | nil =>
    intro s s' h
    cases h
    exact ⟨treeStep_refl _, fun _ _ => rfl, Nat.le_refl _, fun _ hu => hu,
      fun u hu => Or.inl hu⟩
  | cons w rest ih =>
    intro s s' h
    unfold passNodes at h
    cases hpn : processNode gen mrep rhai s w with
    | error e =>
      rw [hpn] at h
      cases h
    | ok s1 =>
      rw [hpn] at h
      simp only [] at h
      obtain ⟨t1, n1, u1, c1⟩ := processNode_shape gen mrep rhai s s1 w hpn
      obtain ⟨t2, n2, c2, m2, o2⟩ := ih s1 s' h
      refine ⟨treeStep_trans t1 t2, ?_, Nat.le_trans c1 c2, ?_, ?_⟩
      · intro u hu
        rw [n2 u (fun hm => hu (List.mem_cons_of_mem _ hm)),
          n1 u (fun he => hu (he ▸ List.mem_cons_self w rest))]
      · intro u hu
        apply m2
        rcases u1 with hu1 | hu1
        · rw [hu1]
          exact hu
        · rw [hu1]
          exact contains_append_left _ _ _ hu
      · intro u hu
        rcases o2 u hu with hu' | hm
        · rcases u1 with hu1 | hu1
          · rw [hu1] at hu'
            exact Or.inl hu'
          · rw [hu1] at hu'
            rcases contains_append_cases _ _ _ hu' with hh | rfl
            · exact Or.inl hh
            · exact Or.inr (List.mem_cons_self _ _)
        · exact Or.inr (List.mem_cons_of_mem _ hm)

/-- A pass over in-range nodes preserves the invariant. -/
theorem passNodes_inv2 (gen : String → Option Lemma)
    (mrep : List Char → List Char → List Char → List Char)
    (rhai : String → Lexis → Except TransformError Lemma) :
    ∀ (vs : List Nat) (s s' : CState),
    passNodes gen mrep rhai vs s = .ok s' →
    (∀ w ∈ vs, w < s.g.nodes.length) →
    Inv2 mrep rhai s → Inv2 mrep rhai s' := by
  intro vs
  induction vs with
  | nil =>
    intro s s' h _ hinv
    cases h
    exact hinv
  | cons w rest ih =>
    intro s s' h hb hinv
    unfold passNodes at h
    cases hpn : processNode gen mrep rhai s w with
    | error e =>
      rw [hpn] at h
      cases h
    | ok s1 =>
      rw [hpn] at h
      simp only [] at h
      have hinv1 := processNode_inv2 gen mrep rhai s s1 w
        (hb w (List.mem_cons_self w rest)) hpn hinv
      have hlen1 : s1.g.nodes.length = s.g.nodes.length :=
        (processNode_shape gen mrep rhai s s1 w hpn).1.1
      exact ih s1 s' h (fun x hx => by rw [hlen1]; exact hb x (List.mem_cons_of_mem _ hx))
        hinv1

/-- processNode with an unchanged changes counter: classification of what the final
pass can have done to each not-yet-updated node. -/
theorem processNode_nochange (gen : String → Option Lemma)
    (mrep : List Char → List Char → List Char → List Char)
    (rhai : String → Lexis → Except TransformError Lemma)
    (s s1 : CState) (w : Nat) (hwlen : w < s.g.nodes.length)
    (hpn : processNode gen mrep rhai s w = .ok s1)
    (hch : s1.changes = s.changes) :
    s1.updated = s.updated ∧ s1.g.edges = s.g.edges ∧
    (∀ u, u ≠ w → s1.g.node u = s.g.node u) ∧
    (s.updated.contains w = false →
      noGenFact gen (s1.g.node w) ∧
      ¬(((s1.g.node w).word).isSome = true ∧ s1.g.incoming w = []) ∧
      (s1.g.incoming w ≠ [] →
        ¬(∀ p ∈ s1.g.incoming w, ((p.2.te.intermediate_word)).isSome = true))) := by
  cases hcon : s.updated.contains w with
  | true =>
    rw [processNode_eq_skip gen mrep rhai s w hcon] at hpn
    have hs1 := trickle_changes_eq mrep rhai w _ s s1 hpn hch
    subst hs1
    exact ⟨rfl, rfl, fun _ _ => rfl, fun hfalse => Bool.noConfusion hfalse⟩
  | false =>
    have hgcinc : ∀ u, (createStep gen s.g w).incoming u = s.g.incoming u :=
      createStep_incoming gen s.g w
    by_cases hinc : s.g.incoming w = []
    · have hcol : collectUpstreams
          (((createStep gen s.g w).incoming w).map (fun p => p.2)) 0 []
          = (0, true, []) := by
        rw [hgcinc, hinc]
        rfl
      cases hword : (((createStep gen s.g w).node w).word).isSome with
      | true =>
        exfalso
        have hms := mainStep_eq_lone_mark gen mrep rhai s w true [] hcol hword
        rw [processNode_eq_main gen mrep rhai s _ w hcon hms] at hpn
        rw [if_pos (contains_append_self s.updated w)] at hpn
        have := (trickle_frame mrep rhai w _ _ s1 hpn).2.2.1
        simp only [] at this
        omega
      | false =>
        have hgc : createStep gen s.g w = s.g := by
          rcases createStep_cases gen s.g w with hcs | ⟨x, hx, hword0, hcs⟩
          · exact hcs
          · exfalso
            rw [hcs, setNode_node_self _ _ _ hwlen] at hword
            cases hword
        have hms := mainStep_eq_lone_skip gen mrep rhai s w true [] hcol hword
        rw [processNode_eq_main gen mrep rhai s _ w hcon hms] at hpn
        rw [if_neg (fun hh => Bool.noConfusion (hcon ▸ hh))] at hpn
        cases hpn
        refine ⟨rfl, by rw [createStep_edges], fun u hu => createStep_node_ne gen s.g w u hu,
          fun _ => ⟨createStep_noGenFact gen s.g w, ?_, ?_⟩⟩
        · rintro ⟨hws, -⟩
          rw [show ((⟨createStep gen s.g w, s.updated, s.changes⟩ : CState).g.node w)
            = (createStep gen s.g w).node w from rfl, hword] at hws
          cases hws
        · intro hne
          exfalso
          apply hne
          rw [show ((⟨createStep gen s.g w, s.updated, s.changes⟩ : CState).g.incoming w)
            = (createStep gen s.g w).incoming w from rfl, hgcinc]
          exact hinc
    · by_cases hready : ∀ p ∈ s.g.incoming w, ((p.2.te.intermediate_word)).isSome = true
      · exfalso
        have hpop' : ∀ e ∈ (s.g.incoming w).map (fun p => p.2),
            (e.te.intermediate_word).isSome = true := by
          intro e he
          obtain ⟨p, hp, rfl⟩ := List.mem_map.mp he
          exact hready p hp
        have hcol0 := collect_all_populated ((s.g.incoming w).map (fun p => p.2)) 0 [] hpop'
        have hcol : collectUpstreams
            (((createStep gen s.g w).incoming w).map (fun p => p.2)) 0 []
            = ((s.g.incoming w).length, true,
              (s.g.incoming w).map (fun p => (p.2.te.agglutination_order.getD 0,
                p.2.te.intermediate_word.getD default))) := by
          rw [hgcinc, hcol0]
          simp only [List.nil_append, List.map_map, List.length_map, Nat.zero_add]
          rfl
        have hne0 : 0 < (s.g.incoming w).length := List.length_pos.2 hinc
        have hvlen' : w < (createStep gen s.g w).nodes.length := by
          rw [createStep_nodes_length]
          exact hwlen
        cases hrv : resolvedValue mrep rhai (createStep gen s.g w) w
            ((s.g.incoming w).map (fun p => (p.2.te.agglutination_order.getD 0,
              p.2.te.intermediate_word.getD default))) with
        | error e =>
          have hres : resolveStep mrep rhai (createStep gen s.g w) w
              ((s.g.incoming w).map (fun p => (p.2.te.agglutination_order.getD 0,
                p.2.te.intermediate_word.getD default))) = .error e := by
            rw [resolveStep_eq_resolvedValue mrep rhai _ w _ hvlen', hrv]
          rw [processNode_eq_main_error gen mrep rhai s w e hcon
            (mainStep_eq_resolve_error gen mrep rhai s w _ _ e hcol hne0 hres)] at hpn
          cases hpn
        | ok u =>
          have hres : resolveStep mrep rhai (createStep gen s.g w) w
              ((s.g.incoming w).map (fun p => (p.2.te.agglutination_order.getD 0,
                p.2.te.intermediate_word.getD default)))
              = .ok ((createStep gen s.g w).setNode w u) := by
            rw [resolveStep_eq_resolvedValue mrep rhai _ w _ hvlen', hrv]
          have hms := mainStep_eq_resolve gen mrep rhai s w _ _ _ hcol hne0 hres
          rw [processNode_eq_main gen mrep rhai s _ w hcon hms] at hpn
          rw [if_pos (contains_append_self s.updated w)] at hpn
          have := (trickle_frame mrep rhai w _ _ s1 hpn).2.2.1
          simp only [] at this
          omega
      · rcases hcoltup : collectUpstreams
            (((createStep gen s.g w).incoming w).map (fun p => p.2)) 0 [] with ⟨n, rdy, ups0⟩
        cases rdy with
        | true =>
          exfalso
          apply hready
          intro p hp
          exact collect_ready_populated _ _ _ _ _ hcoltup p.2
            (by rw [hgcinc]; exact List.mem_map.2 ⟨p, hp, rfl⟩)
        | false =>
          have hlne : ((createStep gen s.g w).incoming w).map (fun p => p.2) ≠ [] := by
            rw [hgcinc]
            intro hnil
            exact hinc (List.map_eq_nil_iff.mp hnil)
          have hn : 0 < n := by
            have := collect_count_pos (((createStep gen s.g w).incoming w).map
              (fun p => p.2)) 0 [] hlne
            rw [hcoltup] at this
            exact this
          have hms := mainStep_eq_notready gen mrep rhai s w n ups0 hcoltup hn
          rw [processNode_eq_main gen mrep rhai s _ w hcon hms] at hpn
          rw [if_neg (fun hh => Bool.noConfusion (hcon ▸ hh))] at hpn
          cases hpn
          refine ⟨rfl, by rw [createStep_edges], fun u hu => createStep_node_ne gen s.g w u hu,
            fun _ => ⟨createStep_noGenFact gen s.g w, ?_, ?_⟩⟩
          · rintro ⟨-, hnil⟩
            rw [show ((⟨createStep gen s.g w, s.updated, s.changes⟩ : CState).g.incoming w)
              = (createStep gen s.g w).incoming w from rfl, hgcinc] at hnil
            exact hinc hnil
          · intro _ hall
            apply hready
            intro p hp
            exact hall p (by
              rw [show ((⟨createStep gen s.g w, s.updated, s.changes⟩ : CState).g.incoming w)
                = (createStep gen s.g w).incoming w from rfl, hgcinc]
              exact hp)

/-- Inversion of a changeless pass: nothing moved, and every node that is still not
updated is a generation fixpoint, not a markable lone worded node, and not ready. -/
theorem passNodes_nochange (gen : String → Option Lemma)
    (mrep : List Char → List Char → List Char → List Char)
    (rhai : String → Lexis → Except TransformError Lemma) :
    ∀ (vs : List Nat) (s s' : CState),
    passNodes gen mrep rhai vs s = .ok s' → s'.changes = s.changes →
    (∀ w ∈ vs, w < s.g.nodes.length) → vs.Nodup →
    s'.updated = s.updated ∧ s'.g.edges = s.g.edges ∧
    (∀ u, u ∉ vs → s'.g.node u = s.g.node u) ∧
    (∀ w ∈ vs, s.updated.contains w = false →
      noGenFact gen (s'.g.node w) ∧
      ¬(((s'.g.node w).word).isSome = true ∧ s'.g.incoming w = []) ∧
      (s'.g.incoming w ≠ [] →
        ¬(∀ p ∈ s'.g.incoming w, ((p.2.te.intermediate_word)).isSome = true))) := by
  intro vs
  induction vs with
  | nil =>
    intro s s' h _ _ _
    cases h
    exact ⟨rfl, rfl, fun _ _ => rfl, fun w hw => absurd hw (List.not_mem_nil w)⟩
  | cons w rest ih =>
    intro s s' h hch hb hnd
    obtain ⟨hwrest, hndrest⟩ := List.nodup_cons.mp hnd
    unfold passNodes at h
    cases hpn : processNode gen mrep rhai s w with
    | error e =>
      rw [hpn] at h
      cases h
    | ok s1 =>
      rw [hpn] at h
      simp only [] at h
      have c1 := (processNode_shape gen mrep rhai s s1 w hpn).2.2.2
      have c2 := (passNodes_shape gen mrep rhai rest s1 s' h).2.2.1
      have hch1 : s1.changes = s.changes := by omega
      have hch2 : s'.changes = s1.changes := by omega
      have hlen1 : s1.g.nodes.length = s.g.nodes.length :=
        (processNode_shape gen mrep rhai s s1 w hpn).1.1
      obtain ⟨hu1, he1, hn1, hf1⟩ := processNode_nochange gen mrep rhai s s1 w
        (hb w (List.mem_cons_self w rest)) hpn hch1
      obtain ⟨hu2, he2, hn2, hf2⟩ := ih s1 s' h hch2
        (fun x hx => by rw [hlen1]; exact hb x (List.mem_cons_of_mem _ hx)) hndrest
      refine ⟨hu2.trans hu1, he2.trans he1, ?_, ?_⟩
      · intro u hu
        rw [hn2 u (fun hm => hu (List.mem_cons_of_mem _ hm)),
          hn1 u (fun he => hu (he ▸ List.mem_cons_self w rest))]
      · intro x hx hxcon
        rcases List.mem_cons.mp hx with rfl | hx'
        · obtain ⟨hg1, hg2, hg3⟩ := hf1 hxcon
          have hnodew : s'.g.node x = s1.g.node x := hn2 x hwrest
          have hincw : s'.g.incoming x = s1.g.incoming x := incoming_congr_edges he2 x
          refine ⟨by rw [hnodew]; exact hg1, ?_, ?_⟩
          · rw [hnodew, hincw]
            exact hg2
          · rw [hincw]
            exact hg3
        · have hxcon1 : s1.updated.contains x = false := by
            rw [hu1]
            exact hxcon
          exact hf2 x hx' hxcon1

/-- Any successful compute loop ends in a state satisfying the invariant together with
the final-pass facts for the still-unmarked nodes. -/
theorem computeLoop_final_state (gen : String → Option Lemma)
    (mrep : List Char → List Char → List Char → List Char)
    (rhai : String → Lexis → Except TransformError Lemma) :
    ∀ (fuel : Nat) (s : CState) (gF : LanguageTree),
    computeLoop gen mrep rhai fuel s = .ok (some gF) → Inv2 mrep rhai s →
    ∃ UPD : List Nat,
      Inv2 mrep rhai ⟨gF, UPD, 0⟩ ∧
      (∀ w, w < gF.nodes.length → UPD.contains w = false →
        noGenFact gen (gF.node w) ∧
        ¬(((gF.node w).word).isSome = true ∧ gF.incoming w = []) ∧
        (gF.incoming w ≠ [] →
          ¬(∀ p ∈ gF.incoming w, ((p.2.te.intermediate_word)).isSome = true))) := by
  intro fuel
  induction fuel with
  | zero =>
    intro s gF h _
    exact absurd (Except.ok.inj h) (fun hh => Option.noConfusion hh)
  | succ fuel ih =>
    intro s gF h hinv
    unfold computeLoop at h
    cases hp : passOnce gen mrep rhai s with
    | error e =>
      rw [hp] at h
      cases h
    | ok s2 =>
      rw [hp] at h
      simp only [] at h
      have hp' : passNodes gen mrep rhai (List.range s.g.nodes.length)
          ⟨s.g, s.updated, 0⟩ = .ok s2 := hp
      have hinv0 : Inv2 mrep rhai ⟨s.g, s.updated, 0⟩ := hinv
      have hbound : ∀ w ∈ List.range s.g.nodes.length,
          w < (⟨s.g, s.updated, 0⟩ : CState).g.nodes.length :=
        fun w hw => List.mem_range.mp hw
      have hinv2 := passNodes_inv2 gen mrep rhai _ _ s2 hp' hbound hinv0
      split at h
      · rename_i hzero
        cases h
        obtain ⟨hups, hedg, hnodes, hfacts⟩ := passNodes_nochange gen mrep rhai _ _ s2
          hp' hzero hbound (List.nodup_range _)
        have hlen2 : s2.g.nodes.length = s.g.nodes.length :=
          (passNodes_shape gen mrep rhai _ _ s2 hp').1.1
        refine ⟨s2.updated, hinv2, ?_⟩
        intro w hwl hwcon
        exact hfacts w (List.mem_range.mpr (by rw [← hlen2]; exact hwl))
          (by rw [← hups]; exact hwcon)
      · exact ih s2 gF h hinv2

/-- Re-running processNode on a final state: an already-marked node is skipped
silently, a node in the final updated set re-marks itself reproducing the same tree,
and any other node does nothing. -/
theorem processNode_replay (gen : String → Option Lemma)
    (mrep : List Char → List Char → List Char → List Char)
    (rhai : String → Lexis → Except TransformError Lemma)
    (UPD : List Nat) (g1 : LanguageTree)
    (hinv : Inv2 mrep rhai ⟨g1, UPD, 0⟩)
    (hFF : ∀ w, w < g1.nodes.length → UPD.contains w = false →
      noGenFact gen (g1.node w) ∧
      ¬(((g1.node w).word).isSome = true ∧ g1.incoming w = []) ∧
      (g1.incoming w ≠ [] →
        ¬(∀ p ∈ g1.incoming w, ((p.2.te.intermediate_word)).isSome = true)))
    (t : CState) (w : Nat) (hw : w < g1.nodes.length)
    (htg : t.g = g1)
    (hsub : ∀ u, t.updated.contains u = true → UPD.contains u = true) :
    processNode gen mrep rhai t w =
      .ok (if t.updated.contains w = true then t
        else if UPD.contains w = true then ⟨t.g, t.updated ++ [w], t.changes + 1⟩
        else t) := by
  obtain ⟨hB, hC, hD, hE, hH, hF⟩ := hinv
  have houtpop : ∀ v, UPD.contains v = true →
      ∀ i ∈ (g1.outgoing v).map (fun p => p.1),
      ((g1.edge i).te.intermediate_word).isSome = true := by
    intro v hv i hi
    obtain ⟨p, hp, rfl⟩ := List.mem_map.mp hi
    obtain ⟨hp2, _, _⟩ := mem_outgoing hp
    rw [← hp2]
    exact hD v hv p hp
  cases hcont : t.updated.contains w with
  | true =>
    rw [if_pos rfl]
    rw [processNode_eq_skip gen mrep rhai t w hcont]
    rw [show t.g.outgoing w = g1.outgoing w from by rw [htg]]
    rw [trickle_noop mrep rhai w _ t (by
      rw [show t.g = g1 from htg]
      exact houtpop w (hsub w hcont))]
  | false =>
    rw [if_neg (fun hh => Bool.noConfusion hh)]
    cases hm : UPD.contains w with
    | true =>
      rw [if_pos rfl]
      have hgc : createStep gen t.g w = t.g := by
        rw [htg]
        exact createStep_of_some gen g1 w (hC w hm)
      by_cases hinc : g1.incoming w = []
      · -- lone re-mark
        have hcol : collectUpstreams
            (((createStep gen t.g w).incoming w).map (fun p => p.2)) 0 []
            = (0, true, []) := by
          rw [hgc, htg, hinc]
          rfl
        have hword : (((createStep gen t.g w).node w).word).isSome = true := by
          rw [hgc, htg]
          exact hC w hm
        have hms := mainStep_eq_lone_mark gen mrep rhai t w true [] hcol hword
        rw [processNode_eq_main gen mrep rhai t _ w hcont hms]
        rw [if_pos (contains_append_self t.updated w)]
        rw [show ((⟨createStep gen t.g w, t.updated ++ [w], t.changes + 1⟩ : CState).g.outgoing w)
          = g1.outgoing w from by rw [show (⟨createStep gen t.g w, t.updated ++ [w],
            t.changes + 1⟩ : CState).g = createStep gen t.g w from rfl, hgc, htg]]
        rw [trickle_noop mrep rhai w _ _ (by
          rw [show ((⟨createStep gen t.g w, t.updated ++ [w], t.changes + 1⟩ : CState).g)
            = createStep gen t.g w from rfl, hgc, htg]
          exact houtpop w hm)]
        rw [hgc]
      · -- ready re-resolution reproducing the same tree
        have hready : ∀ p ∈ g1.incoming w, ((p.2.te.intermediate_word)).isSome = true :=
          hH w hm
        have hpop' : ∀ e ∈ (g1.incoming w).map (fun p => p.2),
            (e.te.intermediate_word).isSome = true := by
          intro e he
          obtain ⟨p, hp, rfl⟩ := List.mem_map.mp he
          exact hready p hp
        have hcol0 := collect_all_populated ((g1.incoming w).map (fun p => p.2)) 0 [] hpop'
        have hcol : collectUpstreams
            (((createStep gen t.g w).incoming w).map (fun p => p.2)) 0 []
            = ((g1.incoming w).length, true, upsOf g1 w) := by
          rw [hgc, htg, hcol0]
          simp only [List.nil_append, List.map_map, List.length_map, Nat.zero_add]
          rfl
        have hne0 : 0 < (g1.incoming w).length := List.length_pos.2 hinc
        have hres : resolveStep mrep rhai (createStep gen t.g w) w (upsOf g1 w)
            = .ok g1 := by
          rw [hgc, htg]
          rw [resolveStep_eq_resolvedValue mrep rhai g1 w _ hw, hF w hm hinc]
          simp only []
          rw [setNode_self g1 w hw]
        have hms := mainStep_eq_resolve gen mrep rhai t w _ _ _ hcol hne0 hres
        rw [processNode_eq_main gen mrep rhai t _ w hcont hms]
        rw [if_pos (contains_append_self t.updated w)]
        rw [show ((⟨g1, t.updated ++ [w], t.changes + 1⟩ : CState).g.outgoing w)
          = g1.outgoing w from rfl]
        rw [trickle_noop mrep rhai w _ _ (by
          rw [show ((⟨g1, t.updated ++ [w], t.changes + 1⟩ : CState).g) = g1 from rfl]
          exact houtpop w hm)]
        rw [htg]
    | false =>
      rw [if_neg (fun hh => Bool.noConfusion hh)]
      obtain ⟨hg1, hg2, hg3⟩ := hFF w hw hm
      have hgc : createStep gen t.g w = t.g := by
        rw [htg]
        exact createStep_eq_self gen g1 w hg1
      by_cases hinc : g1.incoming w = []
      · have hcol : collectUpstreams
            (((createStep gen t.g w).incoming w).map (fun p => p.2)) 0 []
            = (0, true, []) := by
          rw [hgc, htg, hinc]
          rfl
        have hword : (((createStep gen t.g w).node w).word).isSome = false := by
          rw [hgc, htg]
          cases hcase : ((g1.node w).word).isSome with
          | true => exact absurd ⟨hcase, hinc⟩ hg2
          | false => rfl
        have hms := mainStep_eq_lone_skip gen mrep rhai t w true [] hcol hword
        rw [processNode_eq_main gen mrep rhai t _ w hcont hms]
        rw [if_neg (fun hh => Bool.noConfusion (hcont ▸ hh))]
        rw [hgc]
      · rcases hcoltup : collectUpstreams
            (((createStep gen t.g w).incoming w).map (fun p => p.2)) 0 []
            with ⟨n, rdy, ups0⟩
        cases rdy with
        | true =>
          exfalso
          apply hg3 hinc
          intro p hp
          exact collect_ready_populated _ _ _ _ _ hcoltup p.2
            (by rw [hgc, htg]; exact List.mem_map.2 ⟨p, hp, rfl⟩)
        | false =>
          have hlne : ((createStep gen t.g w).incoming w).map (fun p => p.2) ≠ [] := by
            rw [hgc, htg]
            intro hnil
            exact hinc (List.map_eq_nil_iff.mp hnil)
          have hn : 0 < n := by
            have := collect_count_pos (((createStep gen t.g w).incoming w).map
              (fun p => p.2)) 0 [] hlne
            rw [hcoltup] at this
            exact this
          have hms := mainStep_eq_notready gen mrep rhai t w n ups0 hcoltup hn
          rw [processNode_eq_main gen mrep rhai t _ w hcont hms]
          rw [if_neg (fun hh => Bool.noConfusion (hcont ▸ hh))]
          rw [hgc]

/-- The first re-pass over a final state: the tree never changes, and the updated map
re-accumulates exactly the nodes of the final updated set among those processed. -/
theorem passNodes_replay (gen : String → Option Lemma)
    (mrep : List Char → List Char → List Char → List Char)
    (rhai : String → Lexis → Except TransformError Lemma)
    (UPD : List Nat) (g1 : LanguageTree)
    (hinv : Inv2 mrep rhai ⟨g1, UPD, 0⟩)
    (hFF : ∀ w, w < g1.nodes.length → UPD.contains w = false →
      noGenFact gen (g1.node w) ∧
      ¬(((g1.node w).word).isSome = true ∧ g1.incoming w = []) ∧
      (g1.incoming w ≠ [] →
        ¬(∀ p ∈ g1.incoming w, ((p.2.te.intermediate_word)).isSome = true))) :
    ∀ (vs : List Nat) (t : CState),
    t.g = g1 → (∀ u, t.updated.contains u = true → UPD.contains u = true) →
    (∀ w ∈ vs, w < g1.nodes.length) →
    ∃ t', passNodes gen mrep rhai vs t = .ok t' ∧ t'.g = g1 ∧
      (∀ u, t'.updated.contains u = true → UPD.contains u = true) ∧
      (∀ u, t.updated.contains u = true → t'.updated.contains u = true) ∧
      (∀ w ∈ vs, UPD.contains w = true → t'.updated.contains w = true) := by
  intro vs
  induction vs with
  | nil =>
    intro t htg hsub _
    exact ⟨t, rfl, htg, hsub, fun _ hu => hu, fun w hw => absurd hw (List.not_mem_nil w)⟩
  | cons w rest ih =>
    intro t htg hsub hb
    have hpn := processNode_replay gen mrep rhai UPD g1 hinv hFF t w
      (hb w (List.mem_cons_self w rest)) htg hsub
    cases hcont : t.updated.contains w with
    | true =>
      rw [if_pos hcont] at hpn
      obtain ⟨t', h1, h2, h3, h4, h5⟩ := ih t htg hsub
        (fun x hx => hb x (List.mem_cons_of_mem _ hx))
      refine ⟨t', ?_, h2, h3, h4, ?_⟩
      · unfold passNodes
        rw [hpn]
        simp only []
        exact h1
      · intro x hx hxm
        rcases List.mem_cons.mp hx with rfl | hx'
        · exact h4 x hcont
        · exact h5 x hx' hxm
    | false =>
      rw [if_neg (fun hh => Bool.noConfusion (hcont ▸ hh))] at hpn
      cases hm : UPD.contains w with
      | true =>
        rw [if_pos hm] at hpn
        have hsub1 : ∀ u, (t.updated ++ [w]).contains u = true →
            UPD.contains u = true := by
          intro u hu
          rcases contains_append_cases _ _ _ hu with hu' | rfl
          · exact hsub u hu'
          · exact hm
        obtain ⟨t', h1, h2, h3, h4, h5⟩ := ih ⟨t.g, t.updated ++ [w], t.changes + 1⟩
          htg hsub1 (fun x hx => hb x (List.mem_cons_of_mem _ hx))
        refine ⟨t', ?_, h2, h3, ?_, ?_⟩
        · unfold passNodes
          rw [hpn]
          simp only []
          exact h1
        · intro u hu
          exact h4 u (contains_append_left _ _ _ hu)
        · intro x hx hxm
          rcases List.mem_cons.mp hx with rfl | hx'
          · exact h4 x (contains_append_self _ _)
          · exact h5 x hx' hxm
      | false =>
        rw [if_neg (fun hh => Bool.noConfusion (hm ▸ hh))] at hpn
        obtain ⟨t', h1, h2, h3, h4, h5⟩ := ih t htg hsub
          (fun x hx => hb x (List.mem_cons_of_mem _ hx))
        refine ⟨t', ?_, h2, h3, h4, ?_⟩
        · unfold passNodes
          rw [hpn]
          simp only []
          exact h1
        · intro x hx hxm
          rcases List.mem_cons.mp hx with rfl | hx'
          · rw [hm] at hxm
            cases hxm
          · exact h5 x hx' hxm

/-- The second re-pass: once every processed node of the final updated set is already
re-marked, the pass is the identity. -/
theorem passNodes_replay_stable (gen : String → Option Lemma)
    (mrep : List Char → List Char → List Char → List Char)
    (rhai : String → Lexis → Except TransformError Lemma)
    (UPD : List Nat) (g1 : LanguageTree)
    (hinv : Inv2 mrep rhai ⟨g1, UPD, 0⟩)
    (hFF : ∀ w, w < g1.nodes.length → UPD.contains w = false →
      noGenFact gen (g1.node w) ∧
      ¬(((g1.node w).word).isSome = true ∧ g1.incoming w = []) ∧
      (g1.incoming w ≠ [] →
        ¬(∀ p ∈ g1.incoming w, ((p.2.te.intermediate_word)).isSome = true))) :
    ∀ (vs : List Nat) (t : CState),
    t.g = g1 → (∀ u, t.updated.contains u = true → UPD.contains u = true) →
    (∀ w ∈ vs, w < g1.nodes.length) →
    (∀ w ∈ vs, UPD.contains w = true → t.updated.contains w = true) →
    passNodes gen mrep rhai vs t = .ok t := by
  intro vs
  induction vs with
  | nil => intro t _ _ _ _; rfl
  | cons w rest ih =>
    intro t htg hsub hb hstable
    have hpn := processNode_replay gen mrep rhai UPD g1 hinv hFF t w
      (hb w (List.mem_cons_self w rest)) htg hsub
    cases hcont : t.updated.contains w with
    | true =>
      rw [if_pos hcont] at hpn
      unfold passNodes
      rw [hpn]
      simp only []
      exact ih t htg hsub (fun x hx => hb x (List.mem_cons_of_mem _ hx))
        (fun x hx hxm => hstable x (List.mem_cons_of_mem _ hx) hxm)
    | false =>
      rw [if_neg (fun hh => Bool.noConfusion (hcont ▸ hh))] at hpn
      cases hm : UPD.contains w with
      | true =>
        exfalso
        have := hstable w (List.mem_cons_self w rest) hm
        rw [hcont] at this
        cases this
      | false =>
        rw [if_neg (fun hh => Bool.noConfusion (hm ▸ hh))] at hpn
        unfold passNodes
        rw [hpn]
        simp only []
        exact ih t htg hsub (fun x hx => hb x (List.mem_cons_of_mem _ hx))
          (fun x hx hxm => hstable x (List.mem_cons_of_mem _ hx) hxm)

/-- C2 (corrected): idempotence holds relative to one fixed denotation of the word
generator — the per-key outcome of word_creator_phonology.create_word under the run's
randomness.  On a tree whose edge intermediates start empty — as in every tree the
public constructors build — a successful compute_lexicon run reaches a fixed point of
that generator: running compute_lexicon again with the same generator outcomes succeeds
(two passes suffice, the second making no changes) and returns the identical tree —
every node word, every node metadata map and every edge intermediate byte-for-byte the
same.  The unconditional claim is refuted (see the counterexample below): the source
draws fresh thread-local randomness inside each create_word call, so a second run can
generate a word for a word_create node the first run left wordless. -/
theorem c2_compute_lexicon_idempotent (gen : String → Option Lemma)
    (mrep : List Char → List Char → List Char → List Char)
    (rhai : String → Lexis → Except TransformError Lemma)
    (fuel : Nat) (g g1 : LanguageTree)
    (hempty : ∀ i, i < g.edges.length → (g.edge i).te.intermediate_word = none)
    (hrun : compute_lexicon gen mrep rhai fuel g = .ok (some g1)) :
    compute_lexicon gen mrep rhai 2 g1 = .ok (some g1) := by
  have hinv0 : Inv2 mrep rhai ⟨g, [], 0⟩ := by
    refine ⟨?_, ?_, ?_, ?_, ?_, ?_⟩
    · intro v hv
      cases hv
    · intro v hv
      cases hv
    · intro v hv
      cases hv
    · intro i hi
      exfalso
      by_cases hlt : i < g.edges.length
      · rw [show ((⟨g, ([] : List Nat), 0⟩ : CState).g.edge i) = g.edge i from rfl,
          hempty i hlt] at hi
        cases hi
      · rw [show ((⟨g, ([] : List Nat), 0⟩ : CState).g.edge i) = g.edge i from rfl,
          show g.edge i = default from list_getD_of_ge _ _ _ (Nat.le_of_not_lt hlt)] at hi
        cases hi
    · intro v hv
      cases hv
    · intro v hv
      cases hv
  obtain ⟨UPD, hinv1, hFF⟩ := computeLoop_final_state gen mrep rhai fuel ⟨g, [], 0⟩ g1
    hrun hinv0
  obtain ⟨t1, hp1, htg1, hsub1, hmono1, hmark1⟩ := passNodes_replay gen mrep rhai UPD g1
    hinv1 hFF (List.range g1.nodes.length) ⟨g1, [], 0⟩ rfl
    (fun u hu => Bool.noConfusion hu) (fun w hw => List.mem_range.mp hw)
  have hp1' : passOnce gen mrep rhai ⟨g1, [], 0⟩ = .ok t1 := hp1
  show computeLoop gen mrep rhai 2 ⟨g1, [], 0⟩ = .ok (some g1)
  unfold computeLoop
  rw [hp1']
  simp only []
  by_cases hz : t1.changes = 0
  · rw [if_pos hz, htg1]
  · rw [if_neg hz]
    have hp2 : passNodes gen mrep rhai (List.range t1.g.nodes.length)
        ⟨t1.g, t1.updated, 0⟩ = .ok ⟨t1.g, t1.updated, 0⟩ := by
      refine passNodes_replay_stable gen mrep rhai UPD g1 hinv1 hFF _ _ htg1 hsub1 ?_ ?_
      · intro w hw
        rw [htg1] at hw
        exact List.mem_range.mp hw
      · intro w hw hwm
        rw [htg1] at hw
        exact hmark1 w hw hwm
    have hp2' : passOnce gen mrep rhai t1 = .ok ⟨t1.g, t1.updated, 0⟩ := hp2
    unfold computeLoop
    rw [hp2']
    simp only []
    rw [if_pos trivial, htg1]

/-- The C2 witness scenario: a worded parent and a derived child, edge intermediate
initially empty. -/
def c2wG : LanguageTree :=
  { nodes := [{ Lexis.default with word := some (Lemma.fromStr ['k', 'a']) },
      Lexis.default],
    edges := [⟨0, 1, ⟨[], none, none⟩⟩],
    global_transforms := none }

def c2wOut : LanguageTree :=
  match compute_lexicon noGen idMrep failRhai 2 c2wG with
  | .ok (some t) => t
  | _ => c2wG

/-- Witness for C2: the first run resolves the child through the trickled edge; the
second run on its output returns the identical tree. -/
theorem c2_compute_lexicon_idempotent_witness :
    (∀ i, i < c2wG.edges.length → (c2wG.edge i).te.intermediate_word = none) ∧
    compute_lexicon noGen idMrep failRhai 2 c2wOut = .ok (some c2wOut) :=
  ⟨fun i hi => by
    cases i with
    | zero => rfl
    | succ n =>
      have hlen : c2wG.edges.length = 1 := rfl
      omega,
  c2_compute_lexicon_idempotent noGen idMrep failRhai 2 c2wG c2wOut
    (fun i hi => by
      cases i with
      | zero => rfl
      | succ n =>
        have hlen : c2wG.edges.length = 1 := rfl
        omega) rfl⟩

/-- The last-element chooser: like headPick, a legitimate denotation of
`SliceRandom::choose` for one run's RNG — none exactly on the empty slice, otherwise a
member of the slice. -/
def lastPick : List PhoneticReference → Option PhoneticReference := fun l => l.getLast?

/-- The C2 counterexample phonology: lexis type "w" is the single sequence "C", and
group C offers two alternatives — the phoneme "a" and a reference to the undefined
group D. -/
def c2cePhon : LexPhonology :=
  { groups := fun c =>
      if c = 'C' then some [⟨[.phoneme ['a']]⟩, ⟨[.reference 'D']⟩] else none,
    lexis_types := fun s => if s = "w" then some [⟨[.reference 'C']⟩] else none }

/-- The generator denotation of a run whose draw inside create_word picks the second
alternative of group C — the reference to the undefined group D: creation fails and the
node is left wordless. -/
def c2ceGen1 : String → Option Lemma := fun k =>
  match c2cePhon.create_word lastPick 3 k with
  | some r => r
  | none => none

/-- The generator denotation of a run whose draw picks the first alternative of group C
— the phoneme "a": creation succeeds. -/
def c2ceGen2 : String → Option Lemma := fun k =>
  match c2cePhon.create_word headPick 3 k with
  | some r => r
  | none => none

/-- The C2 counterexample tree: a single root carrying only a word_create key. -/
def c2ceG : LanguageTree :=
  { nodes := [{ Lexis.default with word_create := some "w" }],
    edges := [], global_transforms := none }

def c2ceOut : LanguageTree :=
  match compute_lexicon c2ceGen2 idMrep failRhai 2 c2ceG with
  | .ok (some t) => t
  | _ => c2ceG

/-- C2 (counterexample to the unconditional claim): the source draws fresh thread-local
randomness inside every create_word call, so the two compute_lexicon runs correspond to
two — possibly different — denotations of `SliceRandom::choose`.  Both choosers below
are legitimate denotations (none exactly on the empty slice, otherwise a member).
Under the first the draw inside create_word lands on the alternative referencing the
undefined group D, creation fails, and the run returns Ok with the node still wordless;
a second run whose draw lands on the phoneme alternative also returns Ok but gives the
node a word — the tree state after the second run is not byte-identical to its input. -/
theorem c2_counterexample_fresh_randomness :
    (∀ l : List PhoneticReference,
      (lastPick l = none ↔ l = []) ∧ ∀ x, lastPick l = some x → x ∈ l) ∧
    (∀ l : List PhoneticReference,
      (headPick l = none ↔ l = []) ∧ ∀ x, headPick l = some x → x ∈ l) ∧
    c2ceGen1 "w" = none ∧
    (∃ lem, c2ceGen2 "w" = some lem) ∧
    compute_lexicon c2ceGen1 idMrep failRhai 1 c2ceG = .ok (some c2ceG) ∧
    compute_lexicon c2ceGen2 idMrep failRhai 2 c2ceG = .ok (some c2ceOut) ∧
    (c2ceG.node 0).word = none ∧
    (∃ lem, (c2ceOut.node 0).word = some lem) :=
  ⟨fun l => ⟨List.getLast?_eq_none_iff, fun _ h => List.mem_of_mem_getLast? h⟩,
   fun l => by cases l with
     | nil => exact ⟨⟨fun _ => rfl, fun _ => rfl⟩, fun x hx => by cases hx⟩
     | cons a t =>
       exact ⟨⟨fun h => Option.noConfusion h, fun h => List.noConfusion h⟩,
         fun x hx => by cases hx; exact List.mem_cons_self _ _⟩,
   rfl, ⟨_, rfl⟩, rfl, rfl, rfl, ⟨_, rfl⟩⟩

end Kirum
